import Mathlib

/-!
# MyCache: a shallow embedding of the cache-replacement engines

This file embeds the data model and operations of the MyCache repository
(KLruCache.h, KLfuCache.h, and the ARC coordinator with its LRU/LFU parts)
as executable Lean definitions, and proves or refutes the frozen claims
about them.

Modelling conventions, used uniformly below:
* Keys and values are natural numbers (the C++ classes are templates; all
  claims are about the container logic, not the element types).
* A C++ (hash-map + intrusive doubly-linked list) pair is modelled as a
  single association list whose order is the list order of the source and
  whose key set is the map.  The sentinel head/tail nodes of the source
  exist only to splice in O(1) and carry no state, so they have no
  counterpart here.
* C++ int fields are Int, size_t fields are Nat.  Where the source
  compares a size_t with an int (the comparison converts the int to
  size_t), the definition spells out the converted comparison: a negative
  int never equals a container size.
* C++ integer division truncates toward zero, so int divisions are
  Int.tdiv; size_t divisions are Nat division.
* Out-parameters (Value and bool references) are threaded explicitly: an
  operation takes the current contents of the out-parameter and returns
  the (possibly unchanged) contents alongside the new state.
* Each mutex only serialises a call; it has no effect on the sequential
  semantics modelled here.
-/

namespace MyCache

abbrev Key := Nat
abbrev Val := Nat

/-! ## Association-list helpers

The source looks nodes up through unordered_map::find, erases the found
node, and splices nodes in and out of lists.  These helpers mirror those
primitives on association lists: findKey is map find, removeKey unlinks
the (unique) node with the given key. -/

/-- Map lookup: the first pair with the given key. -/
def findKey (l : List (Key × Val)) (k : Key) : Option (Key × Val) :=
  l.find? (fun p => p.1 == k)

/-- Unlink the first pair with the given key (no-op when absent),
mirroring removeNode plus map erase. -/
def removeKey : List (Key × Val) → Key → List (Key × Val)
  | [], _ => []
  | p :: t, k => if p.1 == k then t else p :: removeKey t k

/-! ## KLruCache (KLruCache.h)

State: capacity (a C++ int) and the recency list; the list head is the
least-recently-used node (the one next to the head sentinel) and the
list end is the most-recently-used node (the one next to the tail
sentinel, where insertNode splices). -/

structure KLru where
  capacity : Int
  entries : List (Key × Val)
deriving Repr, DecidableEq

/-- KLruCache constructor: stores the capacity and an empty list. -/
def mkKLru (capacity : Int) : KLru :=
  { capacity := capacity, entries := [] }

/-- KLruCache::contains. -/
def KLru.containsKey (s : KLru) (k : Key) : Bool :=
  (findKey s.entries k).isSome

/-- KLruCache::get(Key, Value&): on a hit, moveToMostRecent splices the
node to the tail and the value is read out; on a miss the out-parameter
keeps its previous contents vin. -/
def KLru.get (s : KLru) (k : Key) (vin : Val) : Bool × Val × KLru :=
  match findKey s.entries k with
  | some p => (true, p.2, { s with entries := removeKey s.entries k ++ [p] })
  | none => (false, vin, s)

/-- KLruCache::get(Key): value-returning overload, passes a
default-constructed value (0) as the out-parameter. -/
def KLru.getVal (s : KLru) (k : Key) : Val × KLru :=
  let r := s.get k 0
  (r.2.1, r.2.2)

/-- KLruCache::put: no-op when capacity is nonpositive; update and
refresh an existing node, otherwise evict the least-recent node (the
list head) when at capacity and append the new node. -/
def KLru.put (s : KLru) (k : Key) (v : Val) : KLru :=
  if s.capacity ≤ 0 then s
  else
    match findKey s.entries k with
    | some _ => { s with entries := removeKey s.entries k ++ [(k, v)] }
    | none =>
      let afterEvict :=
        if s.entries.length ≥ s.capacity.toNat then s.entries.tail else s.entries
      { s with entries := afterEvict ++ [(k, v)] }

/-- KLruCache::remove: unconditional delete, silent when absent. -/
def KLru.remove (s : KLru) (k : Key) : KLru :=
  { s with entries := removeKey s.entries k }

/-! ## KLruKCache (KLruCache.h)

The main cache is the KLruCache base subobject; the history sub-cache is
a KLruCache over key-to-access-count (counts are the Val of the history
list).  kThreshold is the member k_. -/

structure KLruK where
  main : KLru
  history : KLru
  kThreshold : Int
deriving Repr, DecidableEq

/-- KLruKCache constructor. -/
def mkKLruK (capacity historyCapacity k : Int) : KLruK :=
  { main := mkKLru capacity, history := mkKLru historyCapacity, kThreshold := k }

/-- KLruKCache::get(Key, Value&): a main-cache hit is served directly;
otherwise the history count is bumped, the key is promoted into the main
cache (with the current out-parameter contents as its value) once the
count reaches k, and the call ends by re-reading the main cache. -/
def KLruK.get (s : KLruK) (k : Key) (vin : Val) : Bool × Val × KLruK :=
  if s.main.containsKey k then
    let r := s.main.get k vin
    (r.1, r.2.1, { s with main := r.2.2 })
  else
    let h := s.history.getVal k
    let historyCount : Int := h.1
    let h2 := h.2.put k (h.1 + 1)
    if historyCount + 1 ≥ s.kThreshold then
      let h3 := h2.remove k
      let m1 := s.main.put k vin
      let r := m1.get k vin
      (r.1, r.2.1, { s with history := h3, main := r.2.2 })
    else
      let r := s.main.get k vin
      (r.1, r.2.1, { s with history := h2, main := r.2.2 })

/-- KLruKCache::get(Key): value-returning overload (out-parameter starts
as the default value 0). -/
def KLruK.getVal (s : KLruK) (k : Key) : Val × KLruK :=
  let r := s.get k 0
  (r.2.1, r.2.2)

/-- KLruKCache::put: overwrite directly when the key is already in the
main cache; otherwise bump the history count and admit the key to the
main cache once the count reaches k. -/
def KLruK.put (s : KLruK) (k : Key) (v : Val) : KLruK :=
  if s.main.containsKey k then
    { s with main := s.main.put k v }
  else
    let h := s.history.getVal k
    let historyCount : Int := h.1
    let h2 := h.2.put k (h.1 + 1)
    if historyCount + 1 ≥ s.kThreshold then
      { s with history := h2.remove k, main := s.main.put k v }
    else
      { s with history := h2 }

/-! ## KHashLruCaches (KLruCache.h)

Shard count at or below zero resolves to the hardware concurrency of the
host, which is a parameter of the constructor model.  Each shard receives
the ceiling of capacity / sliceNum; the source computes the ceiling
through double arithmetic (std::ceil), which agrees with exact natural
ceiling division on all representable sizes.  The hash function
(std::hash) is a parameter of the operations. -/

structure HashLru where
  capacity : Nat
  sliceNum : Nat
  shards : List KLru
deriving Repr, DecidableEq

/-- KHashLruCaches constructor. -/
def mkHashLru (capacity : Nat) (sliceNum : Int) (hardwareConcurrency : Nat) : HashLru :=
  let sn := if sliceNum > 0 then sliceNum.toNat else hardwareConcurrency
  let sliceSize := (capacity + sn - 1) / sn
  { capacity := capacity, sliceNum := sn,
    shards := List.replicate sn (mkKLru (Int.ofNat sliceSize)) }

/-- KHashLruCaches::put: hash the key, delegate to that shard. -/
def HashLru.put (hashFn : Key → Nat) (s : HashLru) (k : Key) (v : Val) : HashLru :=
  let i := hashFn k % s.sliceNum
  match s.shards[i]? with
  | some sh => { s with shards := s.shards.set i (sh.put k v) }
  | none => s

/-- KHashLruCaches::get(Key, Value&): hash the key, delegate. -/
def HashLru.get (hashFn : Key → Nat) (s : HashLru) (k : Key) (vin : Val) :
    Bool × Val × HashLru :=
  let i := hashFn k % s.sliceNum
  match s.shards[i]? with
  | some sh =>
    let r := sh.get k vin
    (r.1, r.2.1, { s with shards := s.shards.set i r.2.2 })
  | none => (false, vin, s)

/-! ## KLfuCache (KLfuCache.h)

A node records its key, value and frequency (the freq field of
FreqList::Node).  nodes is the nodeMap_ (an association list of nodes);
freqMap is freqToFreqList_, mapping a frequency to the keys of the nodes
of its FreqList in list order (head = least recently appended).  A
FreqList object, once created by operator[] or addToFreqList, stays in
the map even when it becomes empty, exactly as in the source; an entry
whose key list is empty models an empty FreqList. -/

structure LfuNode where
  key : Key
  value : Val
  freq : Int
deriving Repr, DecidableEq

/-- nodeMap_ find. -/
def nodesFind (ns : List LfuNode) (k : Key) : Option LfuNode :=
  ns.find? (fun n => n.key == k)

/-- nodeMap_ erase of the node with the given key. -/
def nodesErase : List LfuNode → Key → List LfuNode
  | [], _ => []
  | n :: t, k => if n.key == k then t else n :: nodesErase t k

/-- In-place mutation through the shared node pointer: every map entry
holding this key sees the update. -/
def nodesUpdate (ns : List LfuNode) (k : Key) (f : LfuNode → LfuNode) : List LfuNode :=
  ns.map (fun n => if n.key == k then f n else n)

/-- freqToFreqList_ bucket contents (node keys); a map miss reads as an
empty list. -/
def bucketGet (m : List (Int × List Key)) (f : Int) : List Key :=
  match m.find? (fun p => p.1 == f) with
  | some p => p.2
  | none => []

/-- Whether a FreqList object exists for this frequency. -/
def bucketHas (m : List (Int × List Key)) (f : Int) : Bool :=
  (m.find? (fun p => p.1 == f)).isSome

/-- Write a bucket: replace the existing entry or create one (the order
of an unordered_map is immaterial; new entries go at the end). -/
def bucketSet : List (Int × List Key) → Int → List Key → List (Int × List Key)
  | [], f, ks => [(f, ks)]
  | (g, l) :: t, f, ks => if g == f then (f, ks) :: t else (g, l) :: bucketSet t f ks

structure KLfu where
  capacity : Int
  minFreq : Int
  nodes : List LfuNode
  freqMap : List (Int × List Key)
deriving Repr, DecidableEq

/-- KLfuCache constructor: minFreq_ starts at INT8_MAX. -/
def mkKLfu (capacity : Int) : KLfu :=
  { capacity := capacity, minFreq := 127, nodes := [], freqMap := [] }

/-- KLfuCache::addToFreqList: create the FreqList for the node frequency
when missing, then append the node at its tail. -/
def KLfu.addToFreqList (s : KLfu) (n : LfuNode) : KLfu :=
  { s with freqMap := bucketSet s.freqMap n.freq (bucketGet s.freqMap n.freq ++ [n.key]) }

/-- KLfuCache::removeFromFreqList: operator[] materialises the bucket of
the node frequency (creating an empty FreqList when absent), then the
node is unlinked from it. -/
def KLfu.removeFromFreqList (s : KLfu) (n : LfuNode) : KLfu :=
  { s with freqMap := bucketSet s.freqMap n.freq ((bucketGet s.freqMap n.freq).erase n.key) }

/-- KLfuCache::getInternal: move the node one bucket up, bump its
frequency, and advance minFreq when the move emptied the minFreq
bucket.  The out value is the node value. -/
def KLfu.getInternal (s : KLfu) (k : Key) : Val × KLfu :=
  match nodesFind s.nodes k with
  | none => (0, s)
  | some n =>
    let v := n.value
    let s1 := s.removeFromFreqList n
    let n2 : LfuNode := { n with freq := n.freq + 1 }
    let s2 := { s1 with nodes := nodesUpdate s1.nodes k (fun _ => n2) }
    let s3 := s2.addToFreqList n2
    let s4 :=
      if n2.freq - 1 == s3.minFreq ∧ bucketGet s3.freqMap (n2.freq - 1) == [] then
        { s3 with minFreq := s3.minFreq + 1 }
      else s3
    (v, s4)

/-- KLfuCache::kickOut: take the first node of the minFreq FreqList
(operator[] materialises it when absent), unlink it and erase it from
the map.  When that FreqList is empty, getFirstNode returns the tail
sentinel, whose removeNode guard makes the unlink a no-op while
operator[] has materialised the frequency-1 bucket (the sentinel is
constructed with freq 1) and the map erase removes the
default-constructed key 0. -/
def KLfu.kickOut (s : KLfu) : KLfu :=
  let s0 :=
    if bucketHas s.freqMap s.minFreq then s
    else { s with freqMap := bucketSet s.freqMap s.minFreq [] }
  match (bucketGet s0.freqMap s0.minFreq).head? with
  | some k =>
    match nodesFind s0.nodes k with
    | some n =>
      let s1 := s0.removeFromFreqList n
      { s1 with nodes := nodesErase s1.nodes k }
    | none => { s0 with nodes := nodesErase s0.nodes k }
  | none =>
    let s1 :=
      if bucketHas s0.freqMap 1 then s0
      else { s0 with freqMap := bucketSet s0.freqMap 1 [] }
    { s1 with nodes := nodesErase s1.nodes 0 }

/-- KLfuCache::putInternal: evict when the map size equals the capacity
(a size_t comparison, so a negative capacity never matches), then insert
the fresh node at frequency 1 and lower minFreq to 1. -/
def KLfu.putInternal (s : KLfu) (k : Key) (v : Val) : KLfu :=
  let s1 :=
    if 0 ≤ s.capacity ∧ s.nodes.length = s.capacity.toNat then s.kickOut else s
  let n : LfuNode := { key := k, value := v, freq := 1 }
  let s2 := { s1 with nodes := s1.nodes ++ [n] }
  let s3 := s2.addToFreqList n
  { s3 with minFreq := min s3.minFreq 1 }

/-- KLfuCache::put: no-op when the capacity is exactly 0; overwrite the
value and run getInternal when the key exists; insert otherwise. -/
def KLfu.put (s : KLfu) (k : Key) (v : Val) : KLfu :=
  if s.capacity == 0 then s
  else
    match nodesFind s.nodes k with
    | some _ =>
      let s1 := { s with nodes := nodesUpdate s.nodes k (fun n => { n with value := v }) }
      (s1.getInternal k).2
    | none => s.putInternal k v

/-- KLfuCache::get(Key, Value&). -/
def KLfu.get (s : KLfu) (k : Key) (vin : Val) : Bool × Val × KLfu :=
  match nodesFind s.nodes k with
  | some _ =>
    let r := s.getInternal k
    (true, r.1, r.2)
  | none => (false, vin, s)

/-- KLfuCache::purge: clear both maps (minFreq is left as is). -/
def KLfu.purge (s : KLfu) : KLfu :=
  { s with nodes := [], freqMap := [] }

/-! ## KLfuAgingCache (KLfuCache.h)

Extends KLfuCache with total/average access counting.  The base class
calls its virtual putInternal, getInternal and kickOut, so on an aging
object those calls dispatch to the overrides below. -/

structure KLfuAging where
  base : KLfu
  maxAverageNum : Int
  curTotalNum : Int
  curAverageNum : Int
deriving Repr, DecidableEq

/-- KLfuAgingCache constructor. -/
def mkKLfuAging (capacity maxAverageNum : Int) : KLfuAging :=
  { base := mkKLfu capacity, maxAverageNum := maxAverageNum,
    curTotalNum := 0, curAverageNum := 0 }

/-- KLfuAgingCache::updateMinFreq: scan every existing FreqList, take
the minimum frequency among the non-empty ones starting from INT8_MAX,
and fall back to 1 when the scan never lowered the start value. -/
def KLfuAging.updateMinFreq (s : KLfuAging) : KLfuAging :=
  let m := s.base.freqMap.foldl (fun acc p => if p.2 ≠ [] then min acc p.1 else acc) 127
  { s with base := { s.base with minFreq := if m == 127 then 1 else m } }

/-- The frequency a node is aged to: subtract half the ceiling (C++
truncating int division) and floor the result at 1. -/
def agedFreq (maxAverageNum f : Int) : Int :=
  let f1 := f - Int.tdiv maxAverageNum 2
  if f1 < 1 then 1 else f1

/-- One loop iteration of handleOverMaxAverageNum: unlink the node from
its current FreqList, subtract half the ceiling from its frequency
(floored at 1, C++ truncating division), and append it to the FreqList
of the new frequency. -/
def agingStepNode (maxAverageNum : Int) (b : KLfu) (k : Key) : KLfu :=
  match nodesFind b.nodes k with
  | none => b
  | some cur =>
    let b1 := b.removeFromFreqList cur
    let f2 := agedFreq maxAverageNum cur.freq
    let cur2 : LfuNode := { cur with freq := f2 }
    let b2 := { b1 with nodes := nodesUpdate b1.nodes k (fun _ => cur2) }
    b2.addToFreqList cur2

/-- KLfuAgingCache::handleOverMaxAverageNum: age every resident node,
then recompute minFreq. -/
def KLfuAging.handleOverMaxAverageNum (s : KLfuAging) : KLfuAging :=
  if s.base.nodes.isEmpty then s
  else
    let b := (s.base.nodes.map (fun n => n.key)).foldl (agingStepNode s.maxAverageNum) s.base
    ({ s with base := b }).updateMinFreq

/-- KLfuAgingCache::addFreqNum: bump the total, recompute the average
(total over node count, truncating; 0 when empty), and trigger a global
aging pass when the average exceeds the ceiling. -/
def KLfuAging.addFreqNum (s : KLfuAging) : KLfuAging :=
  let total := s.curTotalNum + 1
  let avg := if s.base.nodes.isEmpty then 0
             else Int.tdiv total (Int.ofNat s.base.nodes.length)
  let s1 := { s with curTotalNum := total, curAverageNum := avg }
  if avg > s.maxAverageNum then s1.handleOverMaxAverageNum else s1

/-- KLfuAgingCache::decreaseFreqNum: subtract the evicted frequency from
the total and recompute the average. -/
def KLfuAging.decreaseFreqNum (s : KLfuAging) (num : Int) : KLfuAging :=
  let total := s.curTotalNum - num
  let avg := if s.base.nodes.isEmpty then 0
             else Int.tdiv total (Int.ofNat s.base.nodes.length)
  { s with curTotalNum := total, curAverageNum := avg }

/-- KLfuAgingCache::kickOut: read the victim (the first node of the
minFreq FreqList, materialised by operator[]), run the base eviction,
then subtract the victim frequency from the running total.  The empty
bucket corner behaves as in KLfu.kickOut, with the sentinel frequency 1
reaching decreaseFreqNum. -/
def KLfuAging.kickOut (s : KLfuAging) : KLfuAging :=
  let b0 :=
    if bucketHas s.base.freqMap s.base.minFreq then s.base
    else { s.base with freqMap := bucketSet s.base.freqMap s.base.minFreq [] }
  let victimFreq :=
    match (bucketGet b0.freqMap b0.minFreq).head? with
    | some k =>
      match nodesFind b0.nodes k with
      | some n => n.freq
      | none => 1
    | none => 1
  let b1 := ({ s with base := b0 }).base.kickOut
  ({ s with base := b1 }).decreaseFreqNum victimFreq

/-- KLfuAgingCache::putInternal: the body of KLfuCache::putInternal with
the virtual kickOut dispatching to the aging override, followed by
addFreqNum. -/
def KLfuAging.putInternalAging (s : KLfuAging) (k : Key) (v : Val) : KLfuAging :=
  let s1 :=
    if 0 ≤ s.base.capacity ∧ s.base.nodes.length = s.base.capacity.toNat then
      s.kickOut
    else s
  let n : LfuNode := { key := k, value := v, freq := 1 }
  let b2 := { s1.base with nodes := s1.base.nodes ++ [n] }
  let b3 := b2.addToFreqList n
  let b4 := { b3 with minFreq := min b3.minFreq 1 }
  ({ s1 with base := b4 }).addFreqNum

/-- KLfuAgingCache::getInternal: base getInternal then addFreqNum. -/
def KLfuAging.getInternalAging (s : KLfuAging) (k : Key) : Val × KLfuAging :=
  let r := s.base.getInternal k
  (r.1, ({ s with base := r.2 }).addFreqNum)

/-- KLfuCache::put as inherited by the aging cache (virtual internals
dispatch to the aging overrides). -/
def KLfuAging.put (s : KLfuAging) (k : Key) (v : Val) : KLfuAging :=
  if s.base.capacity == 0 then s
  else
    match nodesFind s.base.nodes k with
    | some _ =>
      let s1 :=
        { s with base :=
            { s.base with nodes := nodesUpdate s.base.nodes k (fun n => { n with value := v }) } }
      (s1.getInternalAging k).2
    | none => s.putInternalAging k v

/-- KLfuCache::get as inherited by the aging cache. -/
def KLfuAging.get (s : KLfuAging) (k : Key) (vin : Val) : Bool × Val × KLfuAging :=
  match nodesFind s.base.nodes k with
  | some _ =>
    let r := s.getInternalAging k
    (true, r.1, r.2)
  | none => (false, vin, s)

/-! ## KHashLfuCache (KLfuCache.h) -/

structure HashLfu where
  capacity : Nat
  sliceNum : Nat
  shards : List KLfuAging
deriving Repr, DecidableEq

/-- KHashLfuCache constructor (maxAverageNum defaults to 10 at the C++
call sites that omit it). -/
def mkHashLfu (capacity : Nat) (sliceNum : Int) (hardwareConcurrency : Nat)
    (maxAverageNum : Int) : HashLfu :=
  let sn := if sliceNum > 0 then sliceNum.toNat else hardwareConcurrency
  let sliceSize := (capacity + sn - 1) / sn
  { capacity := capacity, sliceNum := sn,
    shards := List.replicate sn (mkKLfuAging (Int.ofNat sliceSize) maxAverageNum) }

/-- KHashLfuCache::put. -/
def HashLfu.put (hashFn : Key → Nat) (s : HashLfu) (k : Key) (v : Val) : HashLfu :=
  let i := hashFn k % s.sliceNum
  match s.shards[i]? with
  | some sh => { s with shards := s.shards.set i (sh.put k v) }
  | none => s

/-- KHashLfuCache::get(Key, Value&). -/
def HashLfu.get (hashFn : Key → Nat) (s : HashLfu) (k : Key) (vin : Val) :
    Bool × Val × HashLfu :=
  let i := hashFn k % s.sliceNum
  match s.shards[i]? with
  | some sh =>
    let r := sh.get k vin
    (r.1, r.2.1, { s with shards := s.shards.set i r.2.2 })
  | none => (false, vin, s)

/-! ## ArcNode (KArcCacheNode.h) -/

structure ArcNode where
  key : Key
  value : Val
  accessCount : Nat
deriving Repr, DecidableEq

/-- Find the node with the given key in a node list (map find). -/
def arcFind (l : List ArcNode) (k : Key) : Option ArcNode :=
  l.find? (fun n => n.key == k)

/-- Unlink the node with the given key (list splice plus map erase). -/
def arcErase : List ArcNode → Key → List ArcNode
  | [], _ => []
  | n :: t, k => if n.key == k then t else n :: arcErase t k

/-- In-place field mutation of the node with the given key. -/
def arcReplace (l : List ArcNode) (k : Key) (f : ArcNode → ArcNode) : List ArcNode :=
  l.map (fun n => if n.key == k then f n else n)

/-! ## ArcLruPart (KArcLruPart.h)

main is the main cache (mainCache_ plus the main list); this file uses
head insertion, so the list head is the most recently used node and
evictLeastRecent takes the last element.  ghost is the ghost cache, with
the newest ghost at the head and removeOldestGhost taking the last
element.  All counters are size_t. -/

structure ArcLruPart where
  capacity : Nat
  ghostCapacity : Nat
  transformThreshold : Nat
  main : List ArcNode
  ghost : List ArcNode
deriving Repr, DecidableEq

/-- ArcLruPart constructor: the ghost capacity is initialised to the
main capacity. -/
def mkArcLruPart (capacity transformThreshold : Nat) : ArcLruPart :=
  { capacity := capacity, ghostCapacity := capacity,
    transformThreshold := transformThreshold, main := [], ghost := [] }

/-- ArcLruPart::existsInMain. -/
def ArcLruPart.existsInMain (s : ArcLruPart) (k : Key) : Bool :=
  (arcFind s.main k).isSome

/-- ArcLruPart::removeOldestGhost: drop the node before the ghost tail
sentinel (no-op when the ghost list is empty). -/
def ArcLruPart.removeOldestGhost (s : ArcLruPart) : ArcLruPart :=
  { s with ghost := s.ghost.dropLast }

/-- ArcLruPart::evictLeastRecent: unlink the last main node, make room
in the ghost cache when it is at its capacity, and push the evicted node
(access count reset to 1) at the ghost head. -/
def ArcLruPart.evictLeastRecent (s : ArcLruPart) : ArcLruPart :=
  match s.main.getLast? with
  | none => s
  | some n =>
    let s1 := { s with main := s.main.dropLast }
    let s2 := if s1.ghost.length ≥ s1.ghostCapacity then s1.removeOldestGhost else s1
    { s2 with ghost := { n with accessCount := 1 } :: s2.ghost }

/-- ArcLruPart::addNewNode: evict when the main cache is full, then push
the fresh node (access count 1) at the main head. -/
def ArcLruPart.addNewNode (s : ArcLruPart) (k : Key) (v : Val) : ArcLruPart :=
  let s1 := if s.main.length ≥ s.capacity then s.evictLeastRecent else s
  { s1 with main := ⟨k, v, 1⟩ :: s1.main }

/-- ArcLruPart::put: false without touching anything when the capacity
is 0.  On an existing key, updateNodeAccess moves the node to the front,
bumps its access count and reports whether it reached the transform
threshold, then the value is overwritten.  Otherwise addNewNode runs and
true is returned. -/
def ArcLruPart.put (s : ArcLruPart) (k : Key) (v : Val) : Bool × ArcLruPart :=
  if s.capacity == 0 then (false, s)
  else
    match arcFind s.main k with
    | some n =>
      let shouldPromote := n.accessCount + 1 ≥ s.transformThreshold
      let n2 : ArcNode := { n with accessCount := n.accessCount + 1, value := v }
      (shouldPromote, { s with main := n2 :: arcErase s.main k })
    | none => (true, s.addNewNode k v)

/-- ArcLruPart::get: on a hit, updateNodeAccess (move to front, bump
count, threshold test into the shouldTransform out-parameter) and read
the value; on a miss both out-parameters keep their previous contents. -/
def ArcLruPart.get (s : ArcLruPart) (k : Key) (vin : Val) (tin : Bool) :
    Bool × Val × Bool × ArcLruPart :=
  match arcFind s.main k with
  | some n =>
    let n2 : ArcNode := { n with accessCount := n.accessCount + 1 }
    let shouldTransform := n2.accessCount ≥ s.transformThreshold
    (true, n2.value, shouldTransform, { s with main := n2 :: arcErase s.main k })
  | none => (false, vin, tin, s)

/-- ArcLruPart::checkGhost: on a hit the ghost value is read out and the
ghost entry is unlinked and erased. -/
def ArcLruPart.checkGhost (s : ArcLruPart) (k : Key) (gin : Val) :
    Bool × Val × ArcLruPart :=
  match arcFind s.ghost k with
  | some n => (true, n.value, { s with ghost := arcErase s.ghost k })
  | none => (false, gin, s)

/-- ArcLruPart::increaseCapacity. -/
def ArcLruPart.increaseCapacity (s : ArcLruPart) : ArcLruPart :=
  { s with capacity := s.capacity + 1 }

/-- ArcLruPart::decreaseCapacity: refuse at capacity 0 (the size_t test
capacity_ <= 0); force an eviction when the occupancy equals the
capacity; then decrement. -/
def ArcLruPart.decreaseCapacity (s : ArcLruPart) : Bool × ArcLruPart :=
  if s.capacity == 0 then (false, s)
  else
    let s1 := if s.main.length == s.capacity then s.evictLeastRecent else s
    (true, { s1 with capacity := s1.capacity - 1 })

/-- ArcLruPart::remove: unconditional delete from the main cache. -/
def ArcLruPart.remove (s : ArcLruPart) (k : Key) : ArcLruPart :=
  { s with main := arcErase s.main k }

/-! ## ArcLfuPart (KArcLfuPart.h)

main is mainCache_; freqMap is the std::map from frequency to its node
list, kept sorted by frequency ascending (begin is the minimum), with
the list head being the least recently appended node; ghost uses tail
insertion, so the head is the oldest ghost. -/

structure ArcLfuPart where
  capacity : Nat
  ghostCapacity : Nat
  transformThreshold : Nat
  minFreq : Nat
  main : List ArcNode
  freqMap : List (Nat × List Key)
  ghost : List ArcNode
deriving Repr, DecidableEq

/-- ArcLfuPart constructor: ghost capacity starts at the main capacity
and minFreq at 0. -/
def mkArcLfuPart (capacity transformThreshold : Nat) : ArcLfuPart :=
  { capacity := capacity, ghostCapacity := capacity,
    transformThreshold := transformThreshold, minFreq := 0,
    main := [], freqMap := [], ghost := [] }

/-- Sorted-map read of a frequency bucket (a miss reads as empty). -/
def sbucketGet (m : List (Nat × List Key)) (f : Nat) : List Key :=
  match m.find? (fun p => p.1 == f) with
  | some p => p.2
  | none => []

/-- Whether the sorted map has an entry for this frequency. -/
def sbucketHas (m : List (Nat × List Key)) (f : Nat) : Bool :=
  (m.find? (fun p => p.1 == f)).isSome

/-- Sorted-map write: replace the entry or insert it in key order, as
std::map does. -/
def sbucketSet : List (Nat × List Key) → Nat → List Key → List (Nat × List Key)
  | [], f, ks => [(f, ks)]
  | (g, l) :: t, f, ks =>
    if f < g then (f, ks) :: (g, l) :: t
    else if f == g then (f, ks) :: t
    else (g, l) :: sbucketSet t f ks

/-- Sorted-map erase of a frequency entry. -/
def sbucketErase : List (Nat × List Key) → Nat → List (Nat × List Key)
  | [], _ => []
  | (g, l) :: t, f => if g == f then t else (g, l) :: sbucketErase t f

/-- ArcLfuPart::existsInMain. -/
def ArcLfuPart.existsInMain (s : ArcLfuPart) (k : Key) : Bool :=
  (arcFind s.main k).isSome

/-- ArcLfuPart::removeOldestGhost: drop the node after the ghost head
sentinel when the list is non-empty. -/
def ArcLfuPart.removeOldestGhost (s : ArcLfuPart) : ArcLfuPart :=
  { s with ghost := s.ghost.tail }

/-- ArcLfuPart::evictLeastFrequent: nothing on an empty frequency map;
otherwise pop the front of the minFreq bucket (operator[] materialises
the bucket, and an empty bucket aborts the eviction, leaving that
materialised entry behind), erase the bucket when it became empty and
re-read minFreq from the map minimum, then move the victim into the
ghost cache (evicting the oldest ghost when it is full) and erase it
from the main cache. -/
def ArcLfuPart.evictLeastFrequent (s : ArcLfuPart) : ArcLfuPart :=
  if s.freqMap.isEmpty then s
  else
    let s0 :=
      if sbucketHas s.freqMap s.minFreq then s
      else { s with freqMap := sbucketSet s.freqMap s.minFreq [] }
    match (sbucketGet s0.freqMap s0.minFreq).head? with
    | none => s0
    | some k =>
      let rest := (sbucketGet s0.freqMap s0.minFreq).tail
      let s1 := { s0 with freqMap := sbucketSet s0.freqMap s0.minFreq rest }
      let s2 : ArcLfuPart :=
        if rest.isEmpty then
          let m2 := sbucketErase s1.freqMap s1.minFreq
          { s1 with freqMap := m2,
                    minFreq := (m2.head?.map (fun p => p.1)).getD s1.minFreq }
        else s1
      let victim := (arcFind s2.main k).getD ⟨k, 0, 1⟩
      let s3 := if s2.ghost.length ≥ s2.ghostCapacity then s2.removeOldestGhost else s2
      let s4 := { s3 with ghost := s3.ghost ++ [victim] }
      { s4 with main := arcErase s4.main k }

/-- ArcLfuPart::updateNodeFrequency: bump the node frequency, unlink it
from the old bucket (erasing the bucket when it became empty, in which
case minFreq advances to the new frequency when the old one was the
minimum), and append it to the bucket of the new frequency (created when
missing). -/
def ArcLfuPart.updateNodeFrequency (s : ArcLfuPart) (k : Key) : ArcLfuPart :=
  match arcFind s.main k with
  | none => s
  | some n =>
    let oldFreq := n.accessCount
    let newFreq := oldFreq + 1
    let s1 := { s with main := arcReplace s.main k (fun m => { m with accessCount := newFreq }) }
    let oldRest := (sbucketGet s1.freqMap oldFreq).erase k
    let s2 := { s1 with freqMap := sbucketSet s1.freqMap oldFreq oldRest }
    let s3 :=
      if oldRest.isEmpty then
        { s2 with freqMap := sbucketErase s2.freqMap oldFreq,
                  minFreq := if oldFreq == s2.minFreq then newFreq else s2.minFreq }
      else s2
    { s3 with freqMap := sbucketSet s3.freqMap newFreq (sbucketGet s3.freqMap newFreq ++ [k]) }

/-- ArcLfuPart::addNewNode: evict when full, insert the fresh node at
frequency 1 (bucket created when missing, node appended at its tail) and
set minFreq to 1. -/
def ArcLfuPart.addNewNode (s : ArcLfuPart) (k : Key) (v : Val) : ArcLfuPart :=
  let s1 := if s.main.length ≥ s.capacity then s.evictLeastFrequent else s
  let n : ArcNode := ⟨k, v, 1⟩
  let s2 := { s1 with main := s1.main ++ [n] }
  let s3 := { s2 with freqMap := sbucketSet s2.freqMap 1 (sbucketGet s2.freqMap 1 ++ [k]) }
  { s3 with minFreq := 1 }

/-- ArcLfuPart::put: false at capacity 0; update the value and the
frequency of an existing node; insert a new node otherwise. -/
def ArcLfuPart.put (s : ArcLfuPart) (k : Key) (v : Val) : Bool × ArcLfuPart :=
  if s.capacity == 0 then (false, s)
  else
    match arcFind s.main k with
    | some _ =>
      let s1 := { s with main := arcReplace s.main k (fun m => { m with value := v }) }
      (true, s1.updateNodeFrequency k)
    | none => (true, s.addNewNode k v)

/-- ArcLfuPart::get: on a hit, update the node frequency and read the
value. -/
def ArcLfuPart.get (s : ArcLfuPart) (k : Key) (vin : Val) : Bool × Val × ArcLfuPart :=
  match arcFind s.main k with
  | some _ =>
    let s1 := s.updateNodeFrequency k
    let v := match arcFind s1.main k with
             | some n => n.value
             | none => vin
    (true, v, s1)
  | none => (false, vin, s)

/-- ArcLfuPart::checkGhost. -/
def ArcLfuPart.checkGhost (s : ArcLfuPart) (k : Key) (gin : Val) :
    Bool × Val × ArcLfuPart :=
  match arcFind s.ghost k with
  | some n => (true, n.value, { s with ghost := arcErase s.ghost k })
  | none => (false, gin, s)

/-- ArcLfuPart::increaseCapacity. -/
def ArcLfuPart.increaseCapacity (s : ArcLfuPart) : ArcLfuPart :=
  { s with capacity := s.capacity + 1 }

/-- ArcLfuPart::decreaseCapacity: refuse at capacity 0; force an
eviction when the occupancy equals the capacity; then decrement. -/
def ArcLfuPart.decreaseCapacity (s : ArcLfuPart) : Bool × ArcLfuPart :=
  if s.capacity == 0 then (false, s)
  else
    let s1 := if s.main.length == s.capacity then s.evictLeastFrequent else s
    (true, { s1 with capacity := s1.capacity - 1 })

/-! ## KArcCache (KArcCache.h) -/

structure KArc where
  capacity : Nat
  transformThreshold : Nat
  lru : ArcLruPart
  lfu : ArcLfuPart
deriving Repr, DecidableEq

/-- KArcCache constructor: each part receives half the total capacity
(size_t division). -/
def mkKArc (capacity transformThreshold : Nat) : KArc :=
  { capacity := capacity, transformThreshold := transformThreshold,
    lru := mkArcLruPart (capacity / 2) transformThreshold,
    lfu := mkArcLfuPart (capacity / 2) transformThreshold }

/-- KArcCache::checkGhostCaches: an LRU-ghost hit removes the ghost
entry and, when the LFU part can shrink, grows the LRU part; an
LFU-ghost hit does the symmetric rebalance.  The ghost value
out-parameter is threaded through both checks. -/
def KArc.checkGhostCaches (s : KArc) (k : Key) (gin : Val) : Bool × Val × KArc :=
  let c1 := s.lru.checkGhost k gin
  let s1 :=
    if c1.1 then
      let d := s.lfu.decreaseCapacity
      let lru2 := if d.1 then c1.2.2.increaseCapacity else c1.2.2
      { s with lru := lru2, lfu := d.2 }
    else { s with lru := c1.2.2 }
  let c2 := s1.lfu.checkGhost k c1.2.1
  let s2 :=
    if c2.1 then
      let d := s1.lru.decreaseCapacity
      let lfu2 := if d.1 then c2.2.2.increaseCapacity else c2.2.2
      { s1 with lru := d.2, lfu := lfu2 }
    else { s1 with lfu := c2.2.2 }
  (c1.1 || c2.1, c2.2.1, s2)

/-- KArcCache::put: check the ghost caches (ghost value unused here),
then update whichever main part holds the key (migrating an LRU entry
that reached the transform threshold into the LFU part), and otherwise
insert into the LRU part. -/
def KArc.put (s : KArc) (k : Key) (v : Val) : KArc :=
  let c := s.checkGhostCaches k 0
  let s1 := c.2.2
  let inLru := s1.lru.existsInMain k
  let inLfu := s1.lfu.existsInMain k
  if inLru || inLfu then
    let s2 := if inLfu then { s1 with lfu := (s1.lfu.put k v).2 } else s1
    if inLru then
      let p := s2.lru.put k v
      let s3 := { s2 with lru := p.2 }
      if p.1 then
        let s4 := { s3 with lfu := (s3.lfu.put k v).2 }
        { s4 with lru := s4.lru.remove k }
      else s3
    else s2
  else { s1 with lru := (s1.lru.put k v).2 }

/-- KArcCache::get(Key, Value&): check the ghost caches; a main-part hit
is served (with the LRU-to-LFU migration when the threshold fires) and
returns true; otherwise a ghost hit re-inserts the ghost value into the
LRU part and the call reports a miss with the out-parameter untouched. -/
def KArc.get (s : KArc) (k : Key) (vin : Val) : Bool × Val × KArc :=
  let c := s.checkGhostCaches k 0
  let inGhost := c.1
  let g := c.2.1
  let s1 := c.2.2
  let inLru := s1.lru.existsInMain k
  let inLfu := s1.lfu.existsInMain k
  if inLru || inLfu then
    let vs2 :=
      if inLfu then
        let r := s1.lfu.get k vin
        (r.2.1, { s1 with lfu := r.2.2 })
      else (vin, s1)
    if inLru then
      let r := vs2.2.lru.get k vs2.1 false
      let s3 := { vs2.2 with lru := r.2.2.2 }
      if r.2.2.1 then
        let s4 := { s3 with lfu := (s3.lfu.put k r.2.1).2 }
        (true, r.2.1, { s4 with lru := s4.lru.remove k })
      else (true, r.2.1, s3)
    else (true, vs2.1, vs2.2)
  else
    if inGhost then (false, vin, { s1 with lru := (s1.lru.put k g).2 })
    else (false, vin, s1)

/-- KArcCache::get(Key): value-returning overload. -/
def KArc.getVal (s : KArc) (k : Key) : Val × KArc :=
  let r := s.get k 0
  (r.2.1, r.2.2)

/-! ## Association-list lemma kit -/

/-- The keys of an entry list. -/
def keysOf (l : List (Key × Val)) : List Key := l.map Prod.fst

/-- Value lookup through findKey. -/
def lookupVal (l : List (Key × Val)) (k : Key) : Option Val :=
  (findKey l k).map (fun p => p.2)

theorem findKey_nil (k : Key) : findKey [] k = none := rfl

theorem findKey_cons_self {k : Key} {p : Key × Val} {t : List (Key × Val)} (h : p.1 = k) :
    findKey (p :: t) k = some p := by
  simp [findKey, h]

theorem findKey_cons_ne {k : Key} {p : Key × Val} {t : List (Key × Val)} (h : p.1 ≠ k) :
    findKey (p :: t) k = findKey t k := by
  simp [findKey, h]

theorem removeKey_cons_self {k : Key} {p : Key × Val} {t : List (Key × Val)} (h : p.1 = k) :
    removeKey (p :: t) k = t := by
  simp [removeKey, h]

theorem removeKey_cons_ne {k : Key} {p : Key × Val} {t : List (Key × Val)} (h : p.1 ≠ k) :
    removeKey (p :: t) k = p :: removeKey t k := by
  simp [removeKey, h]

theorem findKey_eq_none {l : List (Key × Val)} {k : Key} (h : k ∉ keysOf l) :
    findKey l k = none := by
  induction l with
  | nil => rfl
  | cons p t ih =>
    simp only [keysOf, List.map_cons, List.mem_cons] at h
    push_neg at h
    rw [findKey_cons_ne (Ne.symm h.1)]
    exact ih h.2

theorem not_mem_of_findKey_eq_none {l : List (Key × Val)} {k : Key}
    (h : findKey l k = none) : k ∉ keysOf l := by
  induction l with
  | nil => simp [keysOf]
  | cons p t ih =>
    by_cases hp : p.1 = k
    · rw [findKey_cons_self hp] at h
      exact absurd h (by simp)
    · rw [findKey_cons_ne hp] at h
      simp only [keysOf, List.map_cons, List.mem_cons]
      rintro (hm | hm)
      · exact hp hm.symm
      · exact ih h hm

theorem findKey_isSome_of_mem {l : List (Key × Val)} {k : Key} (h : k ∈ keysOf l) :
    (findKey l k).isSome := by
  cases hf : findKey l k with
  | none => exact absurd h (not_mem_of_findKey_eq_none hf)
  | some p => rfl

theorem findKey_key {l : List (Key × Val)} {k : Key} {p : Key × Val}
    (h : findKey l k = some p) : p.1 = k := by
  have := List.find?_some h
  simpa using this

theorem findKey_mem {l : List (Key × Val)} {k : Key} {p : Key × Val}
    (h : findKey l k = some p) : p ∈ l :=
  List.mem_of_find?_eq_some h

theorem findKey_append {l₁ l₂ : List (Key × Val)} {k : Key} :
    findKey (l₁ ++ l₂) k = (findKey l₁ k).or (findKey l₂ k) := by
  simp [findKey, List.find?_append]

theorem removeKey_not_mem {l : List (Key × Val)} {k : Key} (h : k ∉ keysOf l) :
    removeKey l k = l := by
  induction l with
  | nil => rfl
  | cons p t ih =>
    simp only [keysOf, List.map_cons, List.mem_cons] at h
    push_neg at h
    rw [removeKey_cons_ne (Ne.symm h.1), ih h.2]

theorem keysOf_removeKey_sub {l : List (Key × Val)} {k j : Key}
    (h : j ∈ keysOf (removeKey l k)) : j ∈ keysOf l := by
  induction l with
  | nil => exact h
  | cons p t ih =>
    by_cases hp : p.1 = k
    · rw [removeKey_cons_self hp] at h
      simp only [keysOf, List.map_cons, List.mem_cons]
      exact Or.inr h
    · rw [removeKey_cons_ne hp] at h
      simp only [keysOf, List.map_cons, List.mem_cons] at h ⊢
      rcases h with h | h
      · exact Or.inl h
      · exact Or.inr (ih h)

theorem length_removeKey_of_mem {l : List (Key × Val)} {k : Key}
    (h : k ∈ keysOf l) : (removeKey l k).length + 1 = l.length := by
  induction l with
  | nil => simp [keysOf] at h
  | cons p t ih =>
    by_cases hp : p.1 = k
    · rw [removeKey_cons_self hp]
      simp
    · simp only [keysOf, List.map_cons, List.mem_cons] at h
      rcases h with h | h
      · exact absurd h.symm hp
      · rw [removeKey_cons_ne hp]
        simp only [List.length_cons]
        rw [ih h]

theorem not_mem_keysOf_removeKey {l : List (Key × Val)} {k : Key}
    (hnd : (keysOf l).Nodup) : k ∉ keysOf (removeKey l k) := by
  induction l with
  | nil => simp [removeKey, keysOf]
  | cons p t ih =>
    simp only [keysOf, List.map_cons, List.nodup_cons] at hnd
    by_cases hp : p.1 = k
    · rw [removeKey_cons_self hp]
      subst hp
      exact hnd.1
    · rw [removeKey_cons_ne hp]
      simp only [keysOf, List.map_cons, List.mem_cons]
      rintro (h | h)
      · exact hp h.symm
      · exact ih hnd.2 h

theorem nodup_keysOf_removeKey {l : List (Key × Val)} {k : Key}
    (hnd : (keysOf l).Nodup) : (keysOf (removeKey l k)).Nodup := by
  induction l with
  | nil => exact hnd
  | cons p t ih =>
    simp only [keysOf, List.map_cons, List.nodup_cons] at hnd
    by_cases hp : p.1 = k
    · rw [removeKey_cons_self hp]
      exact hnd.2
    · rw [removeKey_cons_ne hp]
      simp only [keysOf, List.map_cons, List.nodup_cons]
      exact ⟨fun hm => hnd.1 (keysOf_removeKey_sub hm), ih hnd.2⟩

theorem findKey_removeKey_self {l : List (Key × Val)} {k : Key}
    (hnd : (keysOf l).Nodup) : findKey (removeKey l k) k = none :=
  findKey_eq_none (not_mem_keysOf_removeKey hnd)

theorem findKey_removeKey_ne {l : List (Key × Val)} {k j : Key} (h : j ≠ k) :
    findKey (removeKey l k) j = findKey l j := by
  induction l with
  | nil => rfl
  | cons p t ih =>
    by_cases hp : p.1 = k
    · rw [removeKey_cons_self hp, findKey_cons_ne (by rw [hp]; exact Ne.symm h)]
    · rw [removeKey_cons_ne hp]
      by_cases hj : p.1 = j
      · rw [findKey_cons_self hj, findKey_cons_self hj]
      · rw [findKey_cons_ne hj, findKey_cons_ne hj, ih]

theorem keysOf_tail_sub {l : List (Key × Val)} {j : Key}
    (h : j ∈ keysOf l.tail) : j ∈ keysOf l := by
  cases l with
  | nil => exact h
  | cons p t =>
    simp only [List.tail_cons] at h
    simp only [keysOf, List.map_cons, List.mem_cons]
    exact Or.inr h

/-! ### KLruCache operation lemmas -/

theorem KLru.put_of_nonpos {s : KLru} {k : Key} {v : Val} (h : s.capacity ≤ 0) :
    s.put k v = s := by
  simp [KLru.put, h]

theorem KLru.put_entries_some {s : KLru} {k : Key} {v : Val} {p : Key × Val}
    (hc : 0 < s.capacity) (hf : findKey s.entries k = some p) :
    (s.put k v).entries = removeKey s.entries k ++ [(k, v)] := by
  simp [KLru.put, hf, show ¬s.capacity ≤ 0 by omega]

theorem KLru.put_entries_none {s : KLru} {k : Key} {v : Val}
    (hc : 0 < s.capacity) (hf : findKey s.entries k = none) :
    (s.put k v).entries =
      (if s.entries.length ≥ s.capacity.toNat then s.entries.tail else s.entries)
        ++ [(k, v)] := by
  simp [KLru.put, hf, show ¬s.capacity ≤ 0 by omega]

theorem KLru.put_capacity (s : KLru) (k : Key) (v : Val) :
    (s.put k v).capacity = s.capacity := by
  unfold KLru.put
  by_cases h : s.capacity ≤ 0
  · simp [h]
  · cases hf : findKey s.entries k <;> simp [h, hf, KLru.put]

theorem KLru.put_findKey_self {s : KLru} {k : Key} {v : Val}
    (hc : 0 < s.capacity) (hnd : (keysOf s.entries).Nodup) :
    findKey (s.put k v).entries k = some (k, v) := by
  cases hf : findKey s.entries k with
  | some p =>
    rw [KLru.put_entries_some hc hf, findKey_append,
      findKey_removeKey_self hnd, findKey_cons_self rfl]
    rfl
  | none =>
    rw [KLru.put_entries_none hc hf, findKey_append]
    have hnm : k ∉ keysOf s.entries := not_mem_of_findKey_eq_none hf
    have hleft :
        findKey (if s.entries.length ≥ s.capacity.toNat then s.entries.tail
                 else s.entries) k = none := by
      by_cases hfull : s.entries.length ≥ s.capacity.toNat
      · rw [if_pos hfull]
        exact findKey_eq_none (fun hm => hnm (keysOf_tail_sub hm))
      · rw [if_neg hfull]
        exact hf
    rw [hleft, findKey_cons_self rfl]
    rfl

theorem keysOf_append (l₁ l₂ : List (Key × Val)) :
    keysOf (l₁ ++ l₂) = keysOf l₁ ++ keysOf l₂ := by
  simp [keysOf]

theorem nodup_keys_append_singleton {l : List (Key × Val)} {k : Key} {v : Val}
    (h : (keysOf l).Nodup) (hk : k ∉ keysOf l) :
    (keysOf (l ++ [(k, v)])).Nodup := by
  rw [keysOf_append]
  simp only [keysOf, List.map_cons, List.map_nil]
  rw [List.nodup_append]
  refine ⟨h, List.nodup_singleton k, ?_⟩
  intro a ha hb
  simp only [List.mem_singleton] at hb
  subst hb
  exact hk ha

theorem nodup_keysOf_tail {l : List (Key × Val)}
    (hnd : (keysOf l).Nodup) : (keysOf l.tail).Nodup := by
  cases l with
  | nil => simp [keysOf]
  | cons p t =>
    simp only [keysOf, List.map_cons, List.nodup_cons] at hnd
    simpa [keysOf] using hnd.2

theorem KLru.put_nodup {s : KLru} {k : Key} {v : Val}
    (hnd : (keysOf s.entries).Nodup) : (keysOf (s.put k v).entries).Nodup := by
  by_cases hc : s.capacity ≤ 0
  · rw [KLru.put_of_nonpos hc]
    exact hnd
  · have hc2 : 0 < s.capacity := by omega
    cases hf : findKey s.entries k with
    | some p =>
      rw [KLru.put_entries_some hc2 hf]
      exact nodup_keys_append_singleton (nodup_keysOf_removeKey hnd)
        (not_mem_keysOf_removeKey hnd)
    | none =>
      rw [KLru.put_entries_none hc2 hf]
      have hnm : k ∉ keysOf s.entries := not_mem_of_findKey_eq_none hf
      by_cases hfull : s.entries.length ≥ s.capacity.toNat
      · rw [if_pos hfull]
        exact nodup_keys_append_singleton (nodup_keysOf_tail hnd)
          (fun hm => hnm (keysOf_tail_sub hm))
      · rw [if_neg hfull]
        exact nodup_keys_append_singleton hnd hnm

theorem KLru.get_of_findKey_some {s : KLru} {k : Key} {vin : Val} {p : Key × Val}
    (hf : findKey s.entries k = some p) :
    s.get k vin = (true, p.2, { s with entries := removeKey s.entries k ++ [p] }) := by
  simp [KLru.get, hf]

theorem KLru.get_of_findKey_none {s : KLru} {k : Key} {vin : Val}
    (hf : findKey s.entries k = none) : s.get k vin = (false, vin, s) := by
  simp [KLru.get, hf]

theorem KLru.getVal_of_findKey_none {s : KLru} {k : Key}
    (hf : findKey s.entries k = none) : s.getVal k = (0, s) := by
  simp [KLru.getVal, KLru.get_of_findKey_none hf]

theorem KLru.getVal_of_findKey_some {s : KLru} {k : Key} {p : Key × Val}
    (hf : findKey s.entries k = some p) :
    s.getVal k = (p.2, { s with entries := removeKey s.entries k ++ [p] }) := by
  simp [KLru.getVal, KLru.get_of_findKey_some hf]

theorem KLru.containsKey_false {s : KLru} {k : Key}
    (hf : findKey s.entries k = none) : s.containsKey k = false := by
  simp [KLru.containsKey, hf]

theorem KLru.containsKey_true {s : KLru} {k : Key} {p : Key × Val}
    (hf : findKey s.entries k = some p) : s.containsKey k = true := by
  simp [KLru.containsKey, hf]

theorem KLru.remove_findKey_self {s : KLru} {k : Key}
    (hnd : (keysOf s.entries).Nodup) : findKey (s.remove k).entries k = none := by
  simp [KLru.remove, findKey_removeKey_self hnd]

/-- C9 helper: the moved-to-tail entry list after a hit keeps every other
binding and moves the hit pair to the end. -/
theorem findKey_moved {l : List (Key × Val)} {k j : Key} {p : Key × Val}
    (hnd : (keysOf l).Nodup) (hf : findKey l k = some p) :
    findKey (removeKey l k ++ [p]) j = findKey l j := by
  have hpk := findKey_key hf
  by_cases hj : j = k
  · subst hj
    rw [findKey_append, findKey_removeKey_self hnd, findKey_cons_self hpk, hf]
    rfl
  · rw [findKey_append, findKey_removeKey_ne hj,
      findKey_cons_ne (by rw [hpk]; exact fun h => hj h.symm)]
    cases hfj : findKey l j <;> rfl

/-- C9: a put on a key already resident in the LRU engine updates only
that key: the entry count is unchanged (no eviction), the key maps to
the new value, and every other key keeps its binding. -/
theorem lru_put_existing_frame (s : KLru) (k : Key) (v : Val)
    (hc : 0 < s.capacity) (hnd : (keysOf s.entries).Nodup)
    (hk : k ∈ keysOf s.entries) :
    (s.put k v).entries.length = s.entries.length ∧
    lookupVal (s.put k v).entries k = some v ∧
    ∀ j, j ≠ k → lookupVal (s.put k v).entries j = lookupVal s.entries j := by
  have hs := findKey_isSome_of_mem hk
  cases hf : findKey s.entries k with
  | none => rw [hf] at hs; exact absurd hs (by simp)
  | some p =>
    have hput := KLru.put_entries_some (v := v) hc hf
    refine ⟨?_, ?_, ?_⟩
    · rw [hput, List.length_append, List.length_singleton,
        length_removeKey_of_mem hk]
    · unfold lookupVal
      rw [KLru.put_findKey_self hc hnd]
      rfl
    · intro j hj
      unfold lookupVal
      rw [hput, findKey_append, findKey_removeKey_ne hj,
        findKey_cons_ne (fun h => hj h.symm)]
      cases hfj : findKey s.entries j <;> rfl

/-- C9 witness. -/
theorem lru_put_existing_frame_witness :
    (0 < (2 : Int)) ∧
    (((mkKLru 2).put 1 10).put 1 99).entries.length =
      ((mkKLru 2).put 1 10).entries.length ∧
    lookupVal (((mkKLru 2).put 1 10).put 1 99).entries 1 = some 99 := by
  have h := lru_put_existing_frame ((mkKLru 2).put 1 10) 1 99
    (by decide) (by decide) (by decide)
  exact ⟨by decide, h.1, h.2.1⟩

/-! ### LRU-K gating (C3) -/

/-- C3 counterexample: on a fresh KLruKCache(5, 5, 3), the first two
gets on a never-seen key miss, but the third access (the one on which
the history count reaches k = 3) promotes the key and already reports a
hit for that same call, contradicting the claim that it still reports a
miss. -/
theorem lruk_third_access_cex :
    ((mkKLruK 5 5 3).get 1 0).1 = false ∧
    (((mkKLruK 5 5 3).get 1 0).2.2.get 1 0).1 = false ∧
    ((((mkKLruK 5 5 3).get 1 0).2.2.get 1 0).2.2.get 1 0).1 = true := by
  decide

/-- C3 amended: with k = 3 and a key never seen before (absent from the
main cache and from the history list), the first two get calls miss; the
third get promotes the key into the main cache with the incoming
contents of the out-parameter as its value and reports a hit for that
same call. -/
theorem lruk_gating_amended (s : KLruK) (k : Key) (v1 v2 v3 : Val)
    (hk3 : s.kThreshold = 3)
    (hmc : 0 < s.main.capacity) (hhc : 0 < s.history.capacity)
    (hmnd : (keysOf s.main.entries).Nodup)
    (hhnd : (keysOf s.history.entries).Nodup)
    (hkm : k ∉ keysOf s.main.entries) (hkh : k ∉ keysOf s.history.entries) :
    (s.get k v1).1 = false ∧
    ((s.get k v1).2.2.get k v2).1 = false ∧
    (((s.get k v1).2.2.get k v2).2.2.get k v3).1 = true ∧
    (((s.get k v1).2.2.get k v2).2.2.get k v3).2.1 = v3 ∧
    lookupVal ((((s.get k v1).2.2.get k v2).2.2.get k v3).2.2.main.entries) k
      = some v3 := by
  obtain ⟨ms, hs, ks⟩ := s
  simp only at hmc hhc hmnd hhnd hkm hkh
  have hk3' : ks = 3 := hk3
  subst hk3'
  have hfm : findKey ms.entries k = none := findKey_eq_none hkm
  have hfh : findKey hs.entries k = none := findKey_eq_none hkh
  -- first access
  have e1 : KLruK.get ⟨ms, hs, 3⟩ k v1 = (false, v1, ⟨ms, hs.put k 1, 3⟩) := by
    simp [KLruK.get, KLru.containsKey_false hfm, KLru.getVal_of_findKey_none hfh,
      KLru.get_of_findKey_none hfm]
  -- history state after the first access
  have hh1c : 0 < (hs.put k 1).capacity := by
    rw [KLru.put_capacity]; exact hhc
  have hh1nd : (keysOf (hs.put k 1).entries).Nodup := KLru.put_nodup hhnd
  have hh1f : findKey (hs.put k 1).entries k = some (k, 1) :=
    KLru.put_findKey_self hhc hhnd
  -- second access
  have e2 : KLruK.get ⟨ms, hs.put k 1, 3⟩ k v2 =
      (false, v2,
       ⟨ms, ({ hs.put k 1 with
                entries := removeKey (hs.put k 1).entries k ++ [(k, 1)] }).put k 2,
        3⟩) := by
    simp [KLruK.get, KLru.containsKey_false hfm,
      KLru.getVal_of_findKey_some hh1f, KLru.get_of_findKey_none hfm]
  -- history state after the second access
  have hh2c : 0 <
      (({ hs.put k 1 with
           entries := removeKey (hs.put k 1).entries k ++ [(k, 1)] }).put k 2).capacity := by
    rw [KLru.put_capacity]; exact hh1c
  have hh2nd0 : (keysOf (removeKey (hs.put k 1).entries k ++ [(k, 1)])).Nodup :=
    nodup_keys_append_singleton (nodup_keysOf_removeKey hh1nd)
      (not_mem_keysOf_removeKey hh1nd)
  have hh2nd : (keysOf
      (({ hs.put k 1 with
           entries := removeKey (hs.put k 1).entries k ++ [(k, 1)] }).put k 2).entries).Nodup :=
    KLru.put_nodup hh2nd0
  have hh2f : findKey
      (({ hs.put k 1 with
           entries := removeKey (hs.put k 1).entries k ++ [(k, 1)] }).put k 2).entries k
      = some (k, 2) :=
    KLru.put_findKey_self hh1c hh2nd0
  -- facts about the promotion put on the main cache
  have hmput : findKey (ms.put k v3).entries k = some (k, v3) :=
    KLru.put_findKey_self hmc hmnd
  have hmputnd : (keysOf (ms.put k v3).entries).Nodup := KLru.put_nodup hmnd
  -- third access
  rw [e1, e2]
  simp only [KLruK.get, KLru.containsKey_false hfm,
    KLru.getVal_of_findKey_some hh2f, KLru.get_of_findKey_some hmput]
  norm_num
  unfold lookupVal
  rw [findKey_moved hmputnd hmput, hmput]
  rfl

/-- C3 amended witness: the amended gating theorem applied to a fresh
KLruKCache(5, 5, 3) at key 1 with out-parameter contents 0, 0, 7. -/
theorem lruk_gating_amended_witness :
    (0 : Int) < (mkKLruK 5 5 3).main.capacity ∧
    (((mkKLruK 5 5 3).get 1 0).1 = false ∧
     (((mkKLruK 5 5 3).get 1 0).2.2.get 1 0).1 = false ∧
     ((((mkKLruK 5 5 3).get 1 0).2.2.get 1 0).2.2.get 1 7).1 = true ∧
     ((((mkKLruK 5 5 3).get 1 0).2.2.get 1 0).2.2.get 1 7).2.1 = 7 ∧
     lookupVal (((((mkKLruK 5 5 3).get 1 0).2.2.get 1 0).2.2.get 1 7).2.2.main.entries) 1
       = some 7) :=
  ⟨by decide,
   lruk_gating_amended (mkKLruK 5 5 3) 1 0 0 7 (by decide) (by decide) (by decide)
     (by decide) (by decide) (by decide) (by decide)⟩

/-! ### Ghost capacity is fixed at construction (C10) -/

theorem ArcLruPart.evict_ghostCapacity (p : ArcLruPart) :
    p.evictLeastRecent.ghostCapacity = p.ghostCapacity := by
  unfold ArcLruPart.evictLeastRecent ArcLruPart.removeOldestGhost
  dsimp only
  repeat' split
  all_goals rfl

theorem ArcLruPart.put_ghostCapacity (p : ArcLruPart) (k : Key) (v : Val) :
    (p.put k v).2.ghostCapacity = p.ghostCapacity := by
  unfold ArcLruPart.put ArcLruPart.addNewNode
  dsimp only
  repeat' split
  all_goals simp [ArcLruPart.evict_ghostCapacity]

theorem ArcLruPart.get_ghostCapacity (p : ArcLruPart) (k : Key) (vin : Val) (tin : Bool) :
    (p.get k vin tin).2.2.2.ghostCapacity = p.ghostCapacity := by
  unfold ArcLruPart.get
  repeat' split
  all_goals rfl

theorem ArcLruPart.checkGhost_ghostCapacity (p : ArcLruPart) (k : Key) (gin : Val) :
    (p.checkGhost k gin).2.2.ghostCapacity = p.ghostCapacity := by
  unfold ArcLruPart.checkGhost
  repeat' split
  all_goals rfl

theorem ArcLruPart.decrease_ghostCapacity (p : ArcLruPart) :
    p.decreaseCapacity.2.ghostCapacity = p.ghostCapacity := by
  unfold ArcLruPart.decreaseCapacity
  dsimp only
  repeat' split
  all_goals simp [ArcLruPart.evict_ghostCapacity]

theorem ArcLfuPart.evict_ghostCapacity_lfuPart (p : ArcLfuPart) :
    p.evictLeastFrequent.ghostCapacity = p.ghostCapacity := by
  unfold ArcLfuPart.evictLeastFrequent ArcLfuPart.removeOldestGhost
  dsimp only
  repeat' split
  all_goals rfl

theorem ArcLfuPart.updateNodeFrequency_ghostCapacity (p : ArcLfuPart) (k : Key) :
    (p.updateNodeFrequency k).ghostCapacity = p.ghostCapacity := by
  unfold ArcLfuPart.updateNodeFrequency
  dsimp only
  repeat' split
  all_goals rfl

theorem ArcLfuPart.put_ghostCapacity_lfuPart (p : ArcLfuPart) (k : Key) (v : Val) :
    (p.put k v).2.ghostCapacity = p.ghostCapacity := by
  unfold ArcLfuPart.put ArcLfuPart.addNewNode
  dsimp only
  repeat' split
  all_goals
    simp [ArcLfuPart.updateNodeFrequency_ghostCapacity, ArcLfuPart.evict_ghostCapacity_lfuPart]

theorem ArcLfuPart.get_ghostCapacity_lfuPart (p : ArcLfuPart) (k : Key) (vin : Val) :
    (p.get k vin).2.2.ghostCapacity = p.ghostCapacity := by
  unfold ArcLfuPart.get
  dsimp only
  repeat' split
  all_goals simp [ArcLfuPart.updateNodeFrequency_ghostCapacity]

theorem ArcLfuPart.checkGhost_ghostCapacity_lfuPart (p : ArcLfuPart) (k : Key) (gin : Val) :
    (p.checkGhost k gin).2.2.ghostCapacity = p.ghostCapacity := by
  unfold ArcLfuPart.checkGhost
  repeat' split
  all_goals rfl

theorem ArcLfuPart.decrease_ghostCapacity_lfuPart (p : ArcLfuPart) :
    p.decreaseCapacity.2.ghostCapacity = p.ghostCapacity := by
  unfold ArcLfuPart.decreaseCapacity
  dsimp only
  repeat' split
  all_goals simp [ArcLfuPart.evict_ghostCapacity_lfuPart]

/-- C10: in both ARC parts the ghost capacity is set at construction to
the initial main capacity and is never modified again: increaseCapacity
and decreaseCapacity change only the main capacity, and no other
operation (put, get, checkGhost, remove) touches it either, so ghost
capacity does not follow capacity rebalancing. -/
theorem arc_ghost_capacity_fixed :
    (∀ c t : Nat, (mkArcLruPart c t).ghostCapacity = c) ∧
    (∀ c t : Nat, (mkArcLfuPart c t).ghostCapacity = c) ∧
    (∀ p : ArcLruPart, p.increaseCapacity.ghostCapacity = p.ghostCapacity) ∧
    (∀ p : ArcLruPart, p.decreaseCapacity.2.ghostCapacity = p.ghostCapacity) ∧
    (∀ (p : ArcLruPart) (k : Key) (v : Val),
      (p.put k v).2.ghostCapacity = p.ghostCapacity) ∧
    (∀ (p : ArcLruPart) (k : Key) (vin : Val) (tin : Bool),
      (p.get k vin tin).2.2.2.ghostCapacity = p.ghostCapacity) ∧
    (∀ (p : ArcLruPart) (k : Key) (gin : Val),
      (p.checkGhost k gin).2.2.ghostCapacity = p.ghostCapacity) ∧
    (∀ (p : ArcLruPart) (k : Key), (p.remove k).ghostCapacity = p.ghostCapacity) ∧
    (∀ p : ArcLfuPart, p.increaseCapacity.ghostCapacity = p.ghostCapacity) ∧
    (∀ p : ArcLfuPart, p.decreaseCapacity.2.ghostCapacity = p.ghostCapacity) ∧
    (∀ (p : ArcLfuPart) (k : Key) (v : Val),
      (p.put k v).2.ghostCapacity = p.ghostCapacity) ∧
    (∀ (p : ArcLfuPart) (k : Key) (vin : Val),
      (p.get k vin).2.2.ghostCapacity = p.ghostCapacity) ∧
    (∀ (p : ArcLfuPart) (k : Key) (gin : Val),
      (p.checkGhost k gin).2.2.ghostCapacity = p.ghostCapacity) :=
  ⟨fun _ _ => rfl, fun _ _ => rfl,
   fun _ => rfl, ArcLruPart.decrease_ghostCapacity,
   ArcLruPart.put_ghostCapacity, ArcLruPart.get_ghostCapacity,
   ArcLruPart.checkGhost_ghostCapacity, fun _ _ => rfl,
   fun _ => rfl, ArcLfuPart.decrease_ghostCapacity_lfuPart,
   ArcLfuPart.put_ghostCapacity_lfuPart, ArcLfuPart.get_ghostCapacity_lfuPart,
   ArcLfuPart.checkGhost_ghostCapacity_lfuPart⟩

/-! ### Capacity configuration (C7) -/

/-- C7 counterexample: constructing the LFU cache with capacity -1
raises no configuration error (the constructor simply stores -1), and
put is not a no-op there either: the first put inserts a node, because
the size-equals-capacity eviction test converts the negative capacity to
size_t and never fires. -/
theorem negative_capacity_cex :
    (mkKLfu (-1)).capacity = -1 ∧
    ((mkKLfu (-1)).put 1 5).nodes = [{ key := 1, value := 5, freq := 1 }] := by
  decide

/-- C7 amended: no constructor validates its capacity.  A nonpositive
capacity makes the LRU put a permanent no-op; a capacity of exactly zero
makes the LFU and LFU-aging puts no-ops; a negative LFU capacity instead
makes put insert without ever evicting (the cache grows without bound). -/
theorem capacity_config_amended :
    (∀ (s : KLru) (k : Key) (v : Val), s.capacity ≤ 0 → s.put k v = s) ∧
    (∀ (s : KLfu) (k : Key) (v : Val), s.capacity = 0 → s.put k v = s) ∧
    (∀ (s : KLfuAging) (k : Key) (v : Val), s.base.capacity = 0 → s.put k v = s) ∧
    (∀ (s : KLfu) (k : Key) (v : Val), s.capacity < 0 →
      nodesFind s.nodes k = none →
      (s.put k v).nodes = s.nodes ++ [{ key := k, value := v, freq := 1 }]) := by
  refine ⟨fun s k v h => KLru.put_of_nonpos h, ?_, ?_, ?_⟩
  · intro s k v h
    simp [KLfu.put, h]
  · intro s k v h
    simp [KLfuAging.put, h]
  · intro s k v h hf
    have hne : ¬s.capacity = 0 := by omega
    have hnn : ¬(0 ≤ s.capacity ∧ s.nodes.length = s.capacity.toNat) := by
      rintro ⟨h0, _⟩; omega
    simp only [KLfu.put, beq_iff_eq, hne, if_false, hf]
    simp [KLfu.putInternal, hnn, KLfu.addToFreqList]

/-- C7 amended witness: the LRU no-op at capacity 0, the LFU no-op at
capacity 0, and the unbounded insert at capacity -1, all on concrete
caches. -/
theorem capacity_config_amended_witness :
    ((mkKLru 0).capacity ≤ 0 ∧ (mkKLru 0).put 1 2 = mkKLru 0) ∧
    ((mkKLfu 0).put 3 4 = mkKLfu 0) ∧
    ((mkKLfuAging 0 10).put 3 4 = mkKLfuAging 0 10) ∧
    ((mkKLfu (-1)).put 1 5).nodes = [] ++ [{ key := 1, value := 5, freq := 1 }] :=
  ⟨⟨by decide, capacity_config_amended.1 (mkKLru 0) 1 2 (by decide)⟩,
   capacity_config_amended.2.1 (mkKLfu 0) 3 4 (by decide),
   capacity_config_amended.2.2.1 (mkKLfuAging 0 10) 3 4 (by decide),
   capacity_config_amended.2.2.2 (mkKLfu (-1)) 1 5 (by decide) (by decide)⟩

/-! ### ArcNode list lemma kit -/

/-- The keys of an ArcNode list. -/
def keysOfArc (l : List ArcNode) : List Key := l.map (fun n => n.key)

theorem arcFind_cons_self {k : Key} {n : ArcNode} {t : List ArcNode} (h : n.key = k) :
    arcFind (n :: t) k = some n := by
  simp [arcFind, h]

theorem arcFind_cons_ne {k : Key} {n : ArcNode} {t : List ArcNode} (h : n.key ≠ k) :
    arcFind (n :: t) k = arcFind t k := by
  simp [arcFind, h]

theorem arcErase_cons_self {k : Key} {n : ArcNode} {t : List ArcNode} (h : n.key = k) :
    arcErase (n :: t) k = t := by
  simp [arcErase, h]

theorem arcErase_cons_ne {k : Key} {n : ArcNode} {t : List ArcNode} (h : n.key ≠ k) :
    arcErase (n :: t) k = n :: arcErase t k := by
  simp [arcErase, h]

theorem arcFind_eq_none {l : List ArcNode} {k : Key} (h : k ∉ keysOfArc l) :
    arcFind l k = none := by
  induction l with
  | nil => rfl
  | cons n t ih =>
    simp only [keysOfArc, List.map_cons, List.mem_cons] at h
    push_neg at h
    rw [arcFind_cons_ne (Ne.symm h.1)]
    exact ih h.2

theorem not_mem_of_arcFind_eq_none {l : List ArcNode} {k : Key}
    (h : arcFind l k = none) : k ∉ keysOfArc l := by
  induction l with
  | nil => simp [keysOfArc]
  | cons n t ih =>
    by_cases hn : n.key = k
    · rw [arcFind_cons_self hn] at h
      exact absurd h (by simp)
    · rw [arcFind_cons_ne hn] at h
      simp only [keysOfArc, List.map_cons, List.mem_cons]
      rintro (hm | hm)
      · exact hn hm.symm
      · exact ih h hm

theorem arcFind_isSome_of_mem {l : List ArcNode} {k : Key} (h : k ∈ keysOfArc l) :
    (arcFind l k).isSome := by
  cases hf : arcFind l k with
  | none => exact absurd h (not_mem_of_arcFind_eq_none hf)
  | some n => rfl

theorem arcFind_key {l : List ArcNode} {k : Key} {n : ArcNode}
    (h : arcFind l k = some n) : n.key = k := by
  have := List.find?_some h
  simpa using this

theorem arcFind_mem {l : List ArcNode} {k : Key} {n : ArcNode}
    (h : arcFind l k = some n) : n ∈ l :=
  List.mem_of_find?_eq_some h

theorem mem_keysOfArc_of_find {l : List ArcNode} {k : Key} {n : ArcNode}
    (h : arcFind l k = some n) : k ∈ keysOfArc l := by
  have hm := arcFind_mem h
  have hk := arcFind_key h
  simp only [keysOfArc, List.mem_map]
  exact ⟨n, hm, hk⟩

theorem arcFind_append {l₁ l₂ : List ArcNode} {k : Key} :
    arcFind (l₁ ++ l₂) k = (arcFind l₁ k).or (arcFind l₂ k) := by
  simp [arcFind, List.find?_append]

theorem keysOfArc_arcErase_sub {l : List ArcNode} {k j : Key}
    (h : j ∈ keysOfArc (arcErase l k)) : j ∈ keysOfArc l := by
  induction l with
  | nil => exact h
  | cons n t ih =>
    by_cases hn : n.key = k
    · rw [arcErase_cons_self hn] at h
      simp only [keysOfArc, List.map_cons, List.mem_cons]
      exact Or.inr h
    · rw [arcErase_cons_ne hn] at h
      simp only [keysOfArc, List.map_cons, List.mem_cons] at h ⊢
      rcases h with h | h
      · exact Or.inl h
      · exact Or.inr (ih h)

theorem length_arcErase_of_mem {l : List ArcNode} {k : Key}
    (h : k ∈ keysOfArc l) : (arcErase l k).length + 1 = l.length := by
  induction l with
  | nil => simp [keysOfArc] at h
  | cons n t ih =>
    by_cases hn : n.key = k
    · rw [arcErase_cons_self hn]
      simp
    · simp only [keysOfArc, List.map_cons, List.mem_cons] at h
      rcases h with h | h
      · exact absurd h.symm hn
      · rw [arcErase_cons_ne hn]
        simp only [List.length_cons]
        rw [ih h]

theorem not_mem_keysOfArc_arcErase {l : List ArcNode} {k : Key}
    (hnd : (keysOfArc l).Nodup) : k ∉ keysOfArc (arcErase l k) := by
  induction l with
  | nil => simp [arcErase, keysOfArc]
  | cons n t ih =>
    simp only [keysOfArc, List.map_cons, List.nodup_cons] at hnd
    by_cases hn : n.key = k
    · rw [arcErase_cons_self hn]
      subst hn
      exact hnd.1
    · rw [arcErase_cons_ne hn]
      simp only [keysOfArc, List.map_cons, List.mem_cons]
      rintro (h | h)
      · exact hn h.symm
      · exact ih hnd.2 h

theorem nodup_keysOfArc_arcErase {l : List ArcNode} {k : Key}
    (hnd : (keysOfArc l).Nodup) : (keysOfArc (arcErase l k)).Nodup := by
  induction l with
  | nil => exact hnd
  | cons n t ih =>
    simp only [keysOfArc, List.map_cons, List.nodup_cons] at hnd
    by_cases hn : n.key = k
    · rw [arcErase_cons_self hn]
      exact hnd.2
    · rw [arcErase_cons_ne hn]
      simp only [keysOfArc, List.map_cons, List.nodup_cons]
      exact ⟨fun hm => hnd.1 (keysOfArc_arcErase_sub hm), ih hnd.2⟩

theorem arcFind_arcErase_self {l : List ArcNode} {k : Key}
    (hnd : (keysOfArc l).Nodup) : arcFind (arcErase l k) k = none :=
  arcFind_eq_none (not_mem_keysOfArc_arcErase hnd)

theorem arcFind_arcErase_ne {l : List ArcNode} {k j : Key} (h : j ≠ k) :
    arcFind (arcErase l k) j = arcFind l j := by
  induction l with
  | nil => rfl
  | cons n t ih =>
    by_cases hn : n.key = k
    · rw [arcErase_cons_self hn, arcFind_cons_ne (by rw [hn]; exact Ne.symm h)]
    · rw [arcErase_cons_ne hn]
      by_cases hj : n.key = j
      · rw [arcFind_cons_self hj, arcFind_cons_self hj]
      · rw [arcFind_cons_ne hj, arcFind_cons_ne hj, ih]

theorem arcErase_not_mem {l : List ArcNode} {k : Key} (h : k ∉ keysOfArc l) :
    arcErase l k = l := by
  induction l with
  | nil => rfl
  | cons n t ih =>
    simp only [keysOfArc, List.map_cons, List.mem_cons] at h
    push_neg at h
    rw [arcErase_cons_ne (Ne.symm h.1), ih h.2]

theorem keysOfArc_dropLast_sub {l : List ArcNode} {j : Key}
    (h : j ∈ keysOfArc l.dropLast) : j ∈ keysOfArc l := by
  simp only [keysOfArc, List.mem_map] at h ⊢
  obtain ⟨n, hn, hk⟩ := h
  exact ⟨n, List.dropLast_subset l hn, hk⟩

theorem keysOfArc_tail_sub {l : List ArcNode} {j : Key}
    (h : j ∈ keysOfArc l.tail) : j ∈ keysOfArc l := by
  simp only [keysOfArc, List.mem_map] at h ⊢
  obtain ⟨n, hn, hk⟩ := h
  exact ⟨n, List.tail_subset l hn, hk⟩

theorem arcReplace_cons {n : ArcNode} {t : List ArcNode} {k : Key}
    (f : ArcNode → ArcNode) :
    arcReplace (n :: t) k f =
      (if n.key = k then f n else n) :: arcReplace t k f := by
  simp only [arcReplace, List.map_cons]
  by_cases hn : n.key = k <;> simp [hn]

theorem arcFind_arcReplace_self {l : List ArcNode} {k : Key} {f : ArcNode → ArcNode}
    (hf : ∀ n, (f n).key = n.key) :
    arcFind (arcReplace l k f) k = (arcFind l k).map f := by
  induction l with
  | nil => rfl
  | cons n t ih =>
    rw [arcReplace_cons]
    by_cases hn : n.key = k
    · rw [if_pos hn, arcFind_cons_self (by rw [hf]; exact hn),
        arcFind_cons_self hn]
      rfl
    · rw [if_neg hn, arcFind_cons_ne hn, arcFind_cons_ne hn]
      exact ih

theorem arcFind_arcReplace_ne {l : List ArcNode} {k j : Key} {f : ArcNode → ArcNode}
    (hf : ∀ n, (f n).key = n.key) (h : j ≠ k) :
    arcFind (arcReplace l k f) j = arcFind l j := by
  induction l with
  | nil => rfl
  | cons n t ih =>
    rw [arcReplace_cons]
    by_cases hn : n.key = k
    · rw [if_pos hn, arcFind_cons_ne (by rw [hf, hn]; exact Ne.symm h),
        arcFind_cons_ne (by rw [hn]; exact Ne.symm h)]
      exact ih
    · rw [if_neg hn]
      by_cases hj : n.key = j
      · rw [arcFind_cons_self hj, arcFind_cons_self hj]
      · rw [arcFind_cons_ne hj, arcFind_cons_ne hj]
        exact ih

theorem keysOfArc_arcReplace {l : List ArcNode} {k : Key} {f : ArcNode → ArcNode}
    (hf : ∀ n, (f n).key = n.key) :
    keysOfArc (arcReplace l k f) = keysOfArc l := by
  induction l with
  | nil => rfl
  | cons n t ih =>
    rw [arcReplace_cons]
    by_cases hn : n.key = k
    · simp only [if_pos hn, keysOfArc, List.map_cons]
      rw [hf]
      simpa [keysOfArc] using ih
    · simp only [if_neg hn, keysOfArc, List.map_cons]
      simpa [keysOfArc] using ih

/-! ### ARC capacity accounting (C2) -/

theorem ArcLruPart.evict_capacity (p : ArcLruPart) :
    p.evictLeastRecent.capacity = p.capacity := by
  unfold ArcLruPart.evictLeastRecent ArcLruPart.removeOldestGhost
  dsimp only
  repeat' split
  all_goals rfl

theorem ArcLruPart.put_capacity_lruPart (p : ArcLruPart) (k : Key) (v : Val) :
    (p.put k v).2.capacity = p.capacity := by
  unfold ArcLruPart.put ArcLruPart.addNewNode
  dsimp only
  repeat' split
  all_goals simp [ArcLruPart.evict_capacity]

theorem ArcLruPart.get_capacity (p : ArcLruPart) (k : Key) (vin : Val) (tin : Bool) :
    (p.get k vin tin).2.2.2.capacity = p.capacity := by
  unfold ArcLruPart.get
  repeat' split
  all_goals rfl

theorem ArcLruPart.checkGhost_capacity (p : ArcLruPart) (k : Key) (gin : Val) :
    (p.checkGhost k gin).2.2.capacity = p.capacity := by
  unfold ArcLruPart.checkGhost
  repeat' split
  all_goals rfl

theorem ArcLruPart.remove_capacity (p : ArcLruPart) (k : Key) :
    (p.remove k).capacity = p.capacity := rfl

theorem ArcLfuPart.evict_capacity_lfuPart (p : ArcLfuPart) :
    p.evictLeastFrequent.capacity = p.capacity := by
  unfold ArcLfuPart.evictLeastFrequent ArcLfuPart.removeOldestGhost
  dsimp only
  repeat' split
  all_goals rfl

theorem ArcLfuPart.updateNodeFrequency_capacity (p : ArcLfuPart) (k : Key) :
    (p.updateNodeFrequency k).capacity = p.capacity := by
  unfold ArcLfuPart.updateNodeFrequency
  dsimp only
  repeat' split
  all_goals rfl

theorem ArcLfuPart.put_capacity_lfuPart (p : ArcLfuPart) (k : Key) (v : Val) :
    (p.put k v).2.capacity = p.capacity := by
  unfold ArcLfuPart.put ArcLfuPart.addNewNode
  dsimp only
  repeat' split
  all_goals
    simp [ArcLfuPart.updateNodeFrequency_capacity, ArcLfuPart.evict_capacity_lfuPart]

theorem ArcLfuPart.get_capacity_lfuPart (p : ArcLfuPart) (k : Key) (vin : Val) :
    (p.get k vin).2.2.capacity = p.capacity := by
  unfold ArcLfuPart.get
  dsimp only
  repeat' split
  all_goals simp [ArcLfuPart.updateNodeFrequency_capacity]

theorem ArcLfuPart.checkGhost_capacity_lfuPart (p : ArcLfuPart) (k : Key) (gin : Val) :
    (p.checkGhost k gin).2.2.capacity = p.capacity := by
  unfold ArcLfuPart.checkGhost
  repeat' split
  all_goals rfl

theorem ArcLruPart.decrease_spec (p : ArcLruPart) :
    (p.capacity = 0 ∧ p.decreaseCapacity = (false, p)) ∨
    (0 < p.capacity ∧ p.decreaseCapacity.1 = true ∧
     p.decreaseCapacity.2.capacity + 1 = p.capacity) := by
  unfold ArcLruPart.decreaseCapacity
  by_cases h : p.capacity = 0
  · left
    exact ⟨h, by simp [h]⟩
  · right
    refine ⟨by omega, ?_, ?_⟩
    · simp [h]
    · simp only [beq_iff_eq, h, if_false]
      split
      · have he := ArcLruPart.evict_capacity p
        omega
      · omega

theorem ArcLfuPart.decrease_spec_lfuPart (p : ArcLfuPart) :
    (p.capacity = 0 ∧ p.decreaseCapacity = (false, p)) ∨
    (0 < p.capacity ∧ p.decreaseCapacity.1 = true ∧
     p.decreaseCapacity.2.capacity + 1 = p.capacity) := by
  unfold ArcLfuPart.decreaseCapacity
  by_cases h : p.capacity = 0
  · left
    exact ⟨h, by simp [h]⟩
  · right
    refine ⟨by omega, ?_, ?_⟩
    · simp [h]
    · simp only [beq_iff_eq, h, if_false]
      split
      · have he := ArcLfuPart.evict_capacity_lfuPart p
        omega
      · omega

theorem ArcLruPart.decrease_true_cap (p : ArcLruPart)
    (h : p.decreaseCapacity.1 = true) :
    p.decreaseCapacity.2.capacity + 1 = p.capacity := by
  rcases ArcLruPart.decrease_spec p with ⟨_, heq⟩ | ⟨_, _, hc⟩
  · rw [heq] at h
    exact absurd h (by simp)
  · exact hc

theorem ArcLruPart.decrease_false_eq (p : ArcLruPart)
    (h : p.decreaseCapacity.1 = false) : p.decreaseCapacity.2 = p := by
  rcases ArcLruPart.decrease_spec p with ⟨_, heq⟩ | ⟨_, hb, _⟩
  · rw [heq]
  · rw [hb] at h
    exact absurd h (by simp)

theorem ArcLfuPart.decrease_true_cap_lfuPart (p : ArcLfuPart)
    (h : p.decreaseCapacity.1 = true) :
    p.decreaseCapacity.2.capacity + 1 = p.capacity := by
  rcases ArcLfuPart.decrease_spec_lfuPart p with ⟨_, heq⟩ | ⟨_, _, hc⟩
  · rw [heq] at h
    exact absurd h (by simp)
  · exact hc

theorem ArcLfuPart.decrease_false_eq_lfuPart (p : ArcLfuPart)
    (h : p.decreaseCapacity.1 = false) : p.decreaseCapacity.2 = p := by
  rcases ArcLfuPart.decrease_spec_lfuPart p with ⟨_, heq⟩ | ⟨_, hb, _⟩
  · rw [heq]
  · rw [hb] at h
    exact absurd h (by simp)

theorem ArcLruPart.increase_cap (p : ArcLruPart) :
    p.increaseCapacity.capacity = p.capacity + 1 := rfl

theorem ArcLfuPart.increase_cap_lfuPart (p : ArcLfuPart) :
    p.increaseCapacity.capacity = p.capacity + 1 := rfl

theorem KArc.checkGhostCaches_capSum (s : KArc) (k : Key) (gin : Val) :
    (s.checkGhostCaches k gin).2.2.lru.capacity
      + (s.checkGhostCaches k gin).2.2.lfu.capacity
      = s.lru.capacity + s.lfu.capacity := by
  unfold KArc.checkGhostCaches
  dsimp only
  have f1 : (s.lru.checkGhost k gin).2.2.capacity = s.lru.capacity :=
    ArcLruPart.checkGhost_capacity s.lru k gin
  by_cases h1 : (s.lru.checkGhost k gin).1 = true
  · by_cases h2 : s.lfu.decreaseCapacity.1 = true
    · have g2 := ArcLfuPart.decrease_true_cap_lfuPart _ h2
      simp only [h1, h2, if_true]
      have f2 :
          (s.lfu.decreaseCapacity.2.checkGhost k ((s.lru.checkGhost k gin).2.1)).2.2.capacity
            = s.lfu.decreaseCapacity.2.capacity :=
        ArcLfuPart.checkGhost_capacity_lfuPart _ k _
      have e1 := ArcLruPart.increase_cap ((s.lru.checkGhost k gin).2.2)
      have e2 := ArcLfuPart.increase_cap_lfuPart
        ((s.lfu.decreaseCapacity.2.checkGhost k ((s.lru.checkGhost k gin).2.1)).2.2)
      by_cases h3 :
          (s.lfu.decreaseCapacity.2.checkGhost k ((s.lru.checkGhost k gin).2.1)).1 = true
      · simp only [h3, if_true]
        by_cases h4 :
            ((s.lru.checkGhost k gin).2.2.increaseCapacity).decreaseCapacity.1 = true
        · have g4 := ArcLruPart.decrease_true_cap _ h4
          simp only [h4, if_true]
          try dsimp only
          omega
        · have g4 := ArcLruPart.decrease_false_eq _ (by simpa using h4)
          simp only [h4, Bool.false_eq_true, if_false]
          rw [g4]
          try dsimp only
          omega
      · simp only [h3, Bool.false_eq_true, if_false]
        try dsimp only
        omega
    · have g2 := ArcLfuPart.decrease_false_eq_lfuPart _ (by simpa using h2)
      simp only [h1, h2, Bool.false_eq_true, if_true, if_false]
      rw [g2]
      have f2 :
          (s.lfu.checkGhost k ((s.lru.checkGhost k gin).2.1)).2.2.capacity
            = s.lfu.capacity :=
        ArcLfuPart.checkGhost_capacity_lfuPart _ k _
      have e1 := ArcLruPart.increase_cap ((s.lru.checkGhost k gin).2.2)
      have e2 := ArcLfuPart.increase_cap_lfuPart
        ((s.lfu.checkGhost k ((s.lru.checkGhost k gin).2.1)).2.2)
      by_cases h3 : (s.lfu.checkGhost k ((s.lru.checkGhost k gin).2.1)).1 = true
      · simp only [h3, if_true]
        by_cases h4 : ((s.lru.checkGhost k gin).2.2).decreaseCapacity.1 = true
        · have g4 := ArcLruPart.decrease_true_cap _ h4
          simp only [h4, if_true]
          try dsimp only
          omega
        · have g4 := ArcLruPart.decrease_false_eq _ (by simpa using h4)
          simp only [h4, Bool.false_eq_true, if_false]
          rw [g4]
          try dsimp only
          omega
      · simp only [h3, Bool.false_eq_true, if_false]
        try dsimp only
        omega
  · simp only [h1, Bool.false_eq_true, if_false]
    have f2 :
        (s.lfu.checkGhost k ((s.lru.checkGhost k gin).2.1)).2.2.capacity
          = s.lfu.capacity :=
      ArcLfuPart.checkGhost_capacity_lfuPart _ k _
    have e2 := ArcLfuPart.increase_cap_lfuPart
      ((s.lfu.checkGhost k ((s.lru.checkGhost k gin).2.1)).2.2)
    by_cases h3 : (s.lfu.checkGhost k ((s.lru.checkGhost k gin).2.1)).1 = true
    · simp only [h3, if_true]
      by_cases h4 : ((s.lru.checkGhost k gin).2.2).decreaseCapacity.1 = true
      · have g4 := ArcLruPart.decrease_true_cap _ h4
        simp only [h4, if_true]
        try dsimp only
        omega
      · have g4 := ArcLruPart.decrease_false_eq _ (by simpa using h4)
        simp only [h4, Bool.false_eq_true, if_false]
        rw [g4]
        try dsimp only
        omega
    · simp only [h3, Bool.false_eq_true, if_false]
      try dsimp only
      omega

theorem ArcLruPart.evict_main_of_last {p : ArcLruPart} {n : ArcNode}
    (h : p.main.getLast? = some n) :
    p.evictLeastRecent.main = p.main.dropLast := by
  unfold ArcLruPart.evictLeastRecent ArcLruPart.removeOldestGhost
  rw [h]
  dsimp only
  split <;> rfl

theorem ArcLruPart.decrease_full_evicts (p : ArcLruPart)
    (h0 : 0 < p.capacity) (hfull : p.main.length = p.capacity) :
    p.decreaseCapacity.1 = true ∧
    p.decreaseCapacity.2.main.length + 1 = p.main.length ∧
    p.decreaseCapacity.2.capacity + 1 = p.capacity := by
  have hne : p.main ≠ [] := by
    intro h
    rw [h] at hfull
    simp at hfull
    omega
  obtain ⟨n, hn⟩ : ∃ n, p.main.getLast? = some n := by
    cases hml : p.main.getLast? with
    | none => exact absurd (List.getLast?_eq_none_iff.mp hml) hne
    | some n => exact ⟨n, rfl⟩
  unfold ArcLruPart.decreaseCapacity
  rw [if_neg (by simpa using by omega : ¬(p.capacity == 0) = true)]
  rw [if_pos (by simpa using hfull)]
  refine ⟨rfl, ?_, ?_⟩
  · dsimp only
    rw [ArcLruPart.evict_main_of_last hn, List.length_dropLast]
    omega
  · dsimp only
    rw [ArcLruPart.evict_capacity]
    omega

theorem mem_of_head? {l : List Key} {a : Key} (h : l.head? = some a) : a ∈ l := by
  cases l with
  | nil => exact absurd h (by simp)
  | cons b t =>
    simp only [List.head?_cons, Option.some_inj] at h
    rw [← h]
    exact List.mem_cons_self b t

theorem sbucketHas_of_get_ne {m : List (Nat × List Key)} {f : Nat}
    (h : sbucketGet m f ≠ []) : sbucketHas m f = true := by
  unfold sbucketGet at h
  unfold sbucketHas
  cases hf : m.find? (fun p => p.1 == f) with
  | none => rw [hf] at h; exact absurd rfl h
  | some p => rfl

theorem ArcLfuPart.evict_main_of_head {p : ArcLfuPart} {k0 : Key}
    (hfm : p.freqMap ≠ [])
    (hk0 : (sbucketGet p.freqMap p.minFreq).head? = some k0) :
    p.evictLeastFrequent.main = arcErase p.main k0 := by
  have hbm : sbucketGet p.freqMap p.minFreq ≠ [] := by
    intro h
    rw [h] at hk0
    exact absurd hk0 (by simp)
  unfold ArcLfuPart.evictLeastFrequent ArcLfuPart.removeOldestGhost
  rw [if_neg (by simpa [List.isEmpty_iff] using hfm)]
  rw [if_pos (sbucketHas_of_get_ne hbm)]
  dsimp only
  rw [hk0]
  dsimp only
  repeat' split
  all_goals rfl

theorem ArcLfuPart.decrease_full_evicts_lfuPart (p : ArcLfuPart)
    (h0 : 0 < p.capacity) (hfull : p.main.length = p.capacity)
    (hfm : p.freqMap ≠ [])
    (hbm : sbucketGet p.freqMap p.minFreq ≠ [])
    (hsound : ∀ j ∈ sbucketGet p.freqMap p.minFreq, j ∈ keysOfArc p.main) :
    p.decreaseCapacity.1 = true ∧
    p.decreaseCapacity.2.main.length + 1 = p.main.length ∧
    p.decreaseCapacity.2.capacity + 1 = p.capacity := by
  obtain ⟨k0, hk0⟩ : ∃ k0, (sbucketGet p.freqMap p.minFreq).head? = some k0 := by
    cases hb : sbucketGet p.freqMap p.minFreq with
    | nil => exact absurd hb hbm
    | cons a t => exact ⟨a, rfl⟩
  have hmem : k0 ∈ keysOfArc p.main :=
    hsound k0 (mem_of_head? hk0)
  unfold ArcLfuPart.decreaseCapacity
  rw [if_neg (by simpa using by omega : ¬(p.capacity == 0) = true)]
  rw [if_pos (by simpa using hfull)]
  refine ⟨rfl, ?_, ?_⟩
  · dsimp only
    rw [ArcLfuPart.evict_main_of_head hfm hk0]
    exact length_arcErase_of_mem hmem
  · dsimp only
    rw [ArcLfuPart.evict_capacity_lfuPart]
    omega

theorem KArc.put_capSum (s : KArc) (k : Key) (v : Val) :
    (s.put k v).lru.capacity + (s.put k v).lfu.capacity
      = s.lru.capacity + s.lfu.capacity := by
  unfold KArc.put
  dsimp only
  have hc := KArc.checkGhostCaches_capSum s k 0
  generalize hS : (s.checkGhostCaches k 0).2.2 = s1 at hc ⊢
  by_cases hl : s1.lru.existsInMain k = true <;>
    by_cases hf : s1.lfu.existsInMain k = true <;>
      simp only [hl, hf, Bool.true_or, Bool.or_true, Bool.false_or, Bool.or_false,
        if_true, Bool.false_eq_true, if_false]
  · by_cases ht :
        (({ s1 with lfu := (s1.lfu.put k v).2 }).lru.put k v).1 = true <;>
      simp only [ht, if_true, Bool.false_eq_true, if_false] <;>
        try dsimp only
    all_goals
      simp only [ArcLruPart.put_capacity_lruPart, ArcLfuPart.put_capacity_lfuPart,
        ArcLruPart.remove_capacity]
    all_goals omega
  · by_cases ht : (s1.lru.put k v).1 = true <;>
      simp only [ht, if_true, Bool.false_eq_true, if_false] <;>
        try dsimp only
    all_goals
      simp only [ArcLruPart.put_capacity_lruPart, ArcLfuPart.put_capacity_lfuPart,
        ArcLruPart.remove_capacity]
    all_goals omega
  · try dsimp only
    simp only [ArcLfuPart.put_capacity_lfuPart]
    omega
  · try dsimp only
    simp only [ArcLruPart.put_capacity_lruPart]
    omega

theorem KArc.get_capSum (s : KArc) (k : Key) (vin : Val) :
    (s.get k vin).2.2.lru.capacity + (s.get k vin).2.2.lfu.capacity
      = s.lru.capacity + s.lfu.capacity := by
  unfold KArc.get
  dsimp only
  have hc := KArc.checkGhostCaches_capSum s k 0
  generalize hS : (s.checkGhostCaches k 0).2.2 = s1 at hc ⊢
  by_cases hl : s1.lru.existsInMain k = true <;>
    by_cases hf : s1.lfu.existsInMain k = true <;>
      simp only [hl, hf, Bool.true_or, Bool.or_true, Bool.false_or, Bool.or_false,
        if_true, Bool.false_eq_true, if_false]
  · by_cases ht :
        (({ s1 with lfu := (s1.lfu.get k vin).2.2 }).lru.get k
            (s1.lfu.get k vin).2.1 false).2.2.1 = true <;>
      simp only [ht, if_true, Bool.false_eq_true, if_false] <;>
        try dsimp only
    all_goals
      simp only [ArcLruPart.get_capacity, ArcLfuPart.get_capacity_lfuPart,
        ArcLfuPart.put_capacity_lfuPart, ArcLruPart.remove_capacity]
    all_goals omega
  · by_cases ht : (s1.lru.get k vin false).2.2.1 = true <;>
      simp only [ht, if_true, Bool.false_eq_true, if_false] <;>
        try dsimp only
    all_goals
      simp only [ArcLruPart.get_capacity, ArcLfuPart.get_capacity_lfuPart,
        ArcLfuPart.put_capacity_lfuPart, ArcLruPart.remove_capacity]
    all_goals omega
  · try dsimp only
    simp only [ArcLfuPart.get_capacity_lfuPart]
    omega
  · by_cases hg : (s.checkGhostCaches k 0).1 = true <;>
      simp only [hg, if_true, Bool.false_eq_true, if_false] <;>
        try dsimp only
    all_goals try simp only [ArcLruPart.put_capacity_lruPart]
    all_goals omega

/-- C2: across every ARC put and get the two part capacities are
conserved as a sum (the ghost-hit rebalance grows one part only when the
other actually shrank); decreaseCapacity refuses at capacity 0 instead
of wrapping below zero, and a shrink of a part whose occupancy equals
its capacity first forces an eviction from that part (the LFU statement
carries the structural hypotheses that tie its frequency map to its main
cache). -/
theorem arc_capacity_conservation :
    (∀ (s : KArc) (k : Key) (v : Val),
      (s.put k v).lru.capacity + (s.put k v).lfu.capacity
        = s.lru.capacity + s.lfu.capacity) ∧
    (∀ (s : KArc) (k : Key) (vin : Val),
      (s.get k vin).2.2.lru.capacity + (s.get k vin).2.2.lfu.capacity
        = s.lru.capacity + s.lfu.capacity) ∧
    (∀ p : ArcLruPart, p.capacity = 0 → p.decreaseCapacity = (false, p)) ∧
    (∀ p : ArcLfuPart, p.capacity = 0 → p.decreaseCapacity = (false, p)) ∧
    (∀ p : ArcLruPart, 0 < p.capacity → p.main.length = p.capacity →
      p.decreaseCapacity.1 = true ∧
      p.decreaseCapacity.2.main.length + 1 = p.main.length ∧
      p.decreaseCapacity.2.capacity + 1 = p.capacity) ∧
    (∀ p : ArcLfuPart, 0 < p.capacity → p.main.length = p.capacity →
      p.freqMap ≠ [] → sbucketGet p.freqMap p.minFreq ≠ [] →
      (∀ j ∈ sbucketGet p.freqMap p.minFreq, j ∈ keysOfArc p.main) →
      p.decreaseCapacity.1 = true ∧
      p.decreaseCapacity.2.main.length + 1 = p.main.length ∧
      p.decreaseCapacity.2.capacity + 1 = p.capacity) := by
  refine ⟨KArc.put_capSum, KArc.get_capSum, ?_, ?_,
    ArcLruPart.decrease_full_evicts, ArcLfuPart.decrease_full_evicts_lfuPart⟩
  · intro p h
    rcases ArcLruPart.decrease_spec p with ⟨_, heq⟩ | ⟨hpos, _, _⟩
    · exact heq
    · omega
  · intro p h
    rcases ArcLfuPart.decrease_spec_lfuPart p with ⟨_, heq⟩ | ⟨hpos, _, _⟩
    · exact heq
    · omega

/-- C2 witness: the refusal at capacity 0 and the forced evictions on
full parts, applied to concrete part states. -/
theorem arc_capacity_conservation_witness :
    ((mkArcLruPart 0 2).decreaseCapacity = (false, mkArcLruPart 0 2)) ∧
    (0 < (1 : Nat) ∧
     (ArcLruPart.decreaseCapacity
        { capacity := 1, ghostCapacity := 1, transformThreshold := 2,
          main := [{ key := 5, value := 7, accessCount := 1 }], ghost := [] }).1
       = true) ∧
    ((ArcLfuPart.decreaseCapacity
        { capacity := 1, ghostCapacity := 1, transformThreshold := 2, minFreq := 1,
          main := [{ key := 5, value := 7, accessCount := 1 }],
          freqMap := [(1, [5])], ghost := [] }).2.main.length + 1 = 1) :=
  ⟨arc_capacity_conservation.2.2.1 (mkArcLruPart 0 2) (by decide),
   ⟨by decide,
    (arc_capacity_conservation.2.2.2.2.1
      { capacity := 1, ghostCapacity := 1, transformThreshold := 2,
        main := [{ key := 5, value := 7, accessCount := 1 }], ghost := [] }
      (by decide) (by decide)).1⟩,
   by
    have h := (arc_capacity_conservation.2.2.2.2.2
      { capacity := 1, ghostCapacity := 1, transformThreshold := 2, minFreq := 1,
        main := [{ key := 5, value := 7, accessCount := 1 }],
        freqMap := [(1, [5])], ghost := [] }
      (by decide) (by decide) (by decide) (by decide) (by decide)).2.1
    simpa using h⟩

/-! ### Sharded caches (C8) -/

/-- C8: for both sharded caches, a shard count at or below zero resolves
to the hardware concurrency; the shard vector has exactly sliceNum
entries, each an engine of capacity ceil(capacity / sliceNum); and every
put and get delegates to the shard at index hash(key) mod sliceNum — a
pure function of the key, hence the same shard on every call — leaving
every other shard untouched and returning exactly what that shard
returns. -/
theorem sharded_caches_spec :
    (∀ (cap : Nat) (n : Int) (hw : Nat),
      (mkHashLru cap n hw).sliceNum = (if n > 0 then n.toNat else hw) ∧
      (mkHashLru cap n hw).shards.length = (mkHashLru cap n hw).sliceNum ∧
      ∀ sh ∈ (mkHashLru cap n hw).shards,
        sh.capacity =
          Int.ofNat ((cap + (if n > 0 then n.toNat else hw) - 1)
            / (if n > 0 then n.toNat else hw))) ∧
    (∀ (cap : Nat) (n : Int) (hw : Nat) (m : Int),
      (mkHashLfu cap n hw m).sliceNum = (if n > 0 then n.toNat else hw) ∧
      (mkHashLfu cap n hw m).shards.length = (mkHashLfu cap n hw m).sliceNum ∧
      ∀ sh ∈ (mkHashLfu cap n hw m).shards,
        sh.base.capacity =
          Int.ofNat ((cap + (if n > 0 then n.toNat else hw) - 1)
            / (if n > 0 then n.toNat else hw))) ∧
    (∀ (hashFn : Key → Nat) (s : HashLru) (k : Key) (v : Val),
      0 < s.sliceNum → s.shards.length = s.sliceNum →
      (HashLru.put hashFn s k v).sliceNum = s.sliceNum ∧
      (HashLru.put hashFn s k v).shards[hashFn k % s.sliceNum]?
        = (s.shards[hashFn k % s.sliceNum]?).map (fun sh => sh.put k v) ∧
      ∀ j, j ≠ hashFn k % s.sliceNum →
        (HashLru.put hashFn s k v).shards[j]? = s.shards[j]?) ∧
    (∀ (hashFn : Key → Nat) (s : HashLru) (k : Key) (vin : Val),
      0 < s.sliceNum → s.shards.length = s.sliceNum →
      ∀ sh, s.shards[hashFn k % s.sliceNum]? = some sh →
        (HashLru.get hashFn s k vin).1 = (sh.get k vin).1 ∧
        (HashLru.get hashFn s k vin).2.1 = (sh.get k vin).2.1 ∧
        (HashLru.get hashFn s k vin).2.2.shards[hashFn k % s.sliceNum]?
          = some (sh.get k vin).2.2 ∧
        ∀ j, j ≠ hashFn k % s.sliceNum →
          (HashLru.get hashFn s k vin).2.2.shards[j]? = s.shards[j]?) ∧
    (∀ (hashFn : Key → Nat) (s : HashLfu) (k : Key) (v : Val),
      0 < s.sliceNum → s.shards.length = s.sliceNum →
      (HashLfu.put hashFn s k v).sliceNum = s.sliceNum ∧
      (HashLfu.put hashFn s k v).shards[hashFn k % s.sliceNum]?
        = (s.shards[hashFn k % s.sliceNum]?).map (fun sh => sh.put k v) ∧
      ∀ j, j ≠ hashFn k % s.sliceNum →
        (HashLfu.put hashFn s k v).shards[j]? = s.shards[j]?) ∧
    (∀ (hashFn : Key → Nat) (s : HashLfu) (k : Key) (vin : Val),
      0 < s.sliceNum → s.shards.length = s.sliceNum →
      ∀ sh, s.shards[hashFn k % s.sliceNum]? = some sh →
        (HashLfu.get hashFn s k vin).1 = (sh.get k vin).1 ∧
        (HashLfu.get hashFn s k vin).2.1 = (sh.get k vin).2.1 ∧
        (HashLfu.get hashFn s k vin).2.2.shards[hashFn k % s.sliceNum]?
          = some (sh.get k vin).2.2 ∧
        ∀ j, j ≠ hashFn k % s.sliceNum →
          (HashLfu.get hashFn s k vin).2.2.shards[j]? = s.shards[j]?) := by
  refine ⟨?_, ?_, ?_, ?_, ?_, ?_⟩
  · intro cap n hw
    refine ⟨rfl, by simp [mkHashLru], ?_⟩
    intro sh hsh
    unfold mkHashLru at hsh
    rw [List.mem_replicate] at hsh
    rw [hsh.2]
    rfl
  · intro cap n hw m
    refine ⟨rfl, by simp [mkHashLfu], ?_⟩
    intro sh hsh
    unfold mkHashLfu at hsh
    rw [List.mem_replicate] at hsh
    rw [hsh.2]
    rfl
  · intro hashFn s k v hpos hlen
    have hix : hashFn k % s.sliceNum < s.shards.length := by
      rw [hlen]; exact Nat.mod_lt _ hpos
    obtain ⟨sh, hsh⟩ : ∃ sh, s.shards[hashFn k % s.sliceNum]? = some sh := by
      cases hq : s.shards[hashFn k % s.sliceNum]? with
      | none => rw [List.getElem?_eq_none_iff] at hq; omega
      | some sh => exact ⟨sh, rfl⟩
    unfold HashLru.put
    dsimp only
    rw [hsh]
    refine ⟨rfl, ?_, ?_⟩
    · dsimp only
      rw [List.getElem?_set_self hix]
      rfl
    · intro j hj
      dsimp only
      exact List.getElem?_set_ne (fun h => hj h.symm)
  · intro hashFn s k vin hpos hlen sh hsh
    have hix : hashFn k % s.sliceNum < s.shards.length := by
      rw [hlen]; exact Nat.mod_lt _ hpos
    unfold HashLru.get
    dsimp only
    rw [hsh]
    refine ⟨rfl, rfl, ?_, ?_⟩
    · dsimp only
      rw [List.getElem?_set_self hix]
    · intro j hj
      dsimp only
      exact List.getElem?_set_ne (fun h => hj h.symm)
  · intro hashFn s k v hpos hlen
    have hix : hashFn k % s.sliceNum < s.shards.length := by
      rw [hlen]; exact Nat.mod_lt _ hpos
    obtain ⟨sh, hsh⟩ : ∃ sh, s.shards[hashFn k % s.sliceNum]? = some sh := by
      cases hq : s.shards[hashFn k % s.sliceNum]? with
      | none => rw [List.getElem?_eq_none_iff] at hq; omega
      | some sh => exact ⟨sh, rfl⟩
    unfold HashLfu.put
    dsimp only
    rw [hsh]
    refine ⟨rfl, ?_, ?_⟩
    · dsimp only
      rw [List.getElem?_set_self hix]
      rfl
    · intro j hj
      dsimp only
      exact List.getElem?_set_ne (fun h => hj h.symm)
  · intro hashFn s k vin hpos hlen sh hsh
    have hix : hashFn k % s.sliceNum < s.shards.length := by
      rw [hlen]; exact Nat.mod_lt _ hpos
    unfold HashLfu.get
    dsimp only
    rw [hsh]
    refine ⟨rfl, rfl, ?_, ?_⟩
    · dsimp only
      rw [List.getElem?_set_self hix]
    · intro j hj
      dsimp only
      exact List.getElem?_set_ne (fun h => hj h.symm)

/-- C8 witness: the sharded-LRU facts at total capacity 10 over 3
shards (each shard gets ceil(10/3) = 4) with the identity hash. -/
theorem sharded_caches_spec_witness :
    ((mkHashLru 10 3 8).sliceNum = 3 ∧
     ∀ sh ∈ (mkHashLru 10 3 8).shards, sh.capacity = 4) ∧
    (0 < (mkHashLru 10 3 8).sliceNum ∧
     (HashLru.put (fun k => k) (mkHashLru 10 3 8) 7 42).shards[7 % 3]?
       = ((mkHashLru 10 3 8).shards[7 % 3]?).map (fun sh => sh.put 7 42)) := by
  constructor
  · constructor
    · decide
    · intro sh hsh
      have h := (sharded_caches_spec.1 10 3 8).2.2 sh hsh
      simpa using h
  · exact ⟨by decide,
      (sharded_caches_spec.2.2.1 (fun k => k) (mkHashLru 10 3 8) 7 42
        (by decide) (by decide)).2.1⟩

/-! ### LfuNode list lemma kit -/

/-- The keys of an LfuNode list. -/
def lfuKeys (ns : List LfuNode) : List Key := ns.map (fun n => n.key)

theorem nodesFind_cons_self {k : Key} {n : LfuNode} {t : List LfuNode} (h : n.key = k) :
    nodesFind (n :: t) k = some n := by
  simp [nodesFind, h]

theorem nodesFind_cons_ne {k : Key} {n : LfuNode} {t : List LfuNode} (h : n.key ≠ k) :
    nodesFind (n :: t) k = nodesFind t k := by
  simp [nodesFind, h]

theorem nodesErase_cons_self {k : Key} {n : LfuNode} {t : List LfuNode} (h : n.key = k) :
    nodesErase (n :: t) k = t := by
  simp [nodesErase, h]

theorem nodesErase_cons_ne {k : Key} {n : LfuNode} {t : List LfuNode} (h : n.key ≠ k) :
    nodesErase (n :: t) k = n :: nodesErase t k := by
  simp [nodesErase, h]

theorem nodesFind_eq_none {l : List LfuNode} {k : Key} (h : k ∉ lfuKeys l) :
    nodesFind l k = none := by
  induction l with
  | nil => rfl
  | cons n t ih =>
    simp only [lfuKeys, List.map_cons, List.mem_cons] at h
    push_neg at h
    rw [nodesFind_cons_ne (Ne.symm h.1)]
    exact ih h.2

theorem not_mem_of_nodesFind_eq_none {l : List LfuNode} {k : Key}
    (h : nodesFind l k = none) : k ∉ lfuKeys l := by
  induction l with
  | nil => simp [lfuKeys]
  | cons n t ih =>
    by_cases hn : n.key = k
    · rw [nodesFind_cons_self hn] at h
      exact absurd h (by simp)
    · rw [nodesFind_cons_ne hn] at h
      simp only [lfuKeys, List.map_cons, List.mem_cons]
      rintro (hm | hm)
      · exact hn hm.symm
      · exact ih h hm

theorem nodesFind_isSome_of_mem {l : List LfuNode} {k : Key} (h : k ∈ lfuKeys l) :
    (nodesFind l k).isSome := by
  cases hf : nodesFind l k with
  | none => exact absurd h (not_mem_of_nodesFind_eq_none hf)
  | some n => rfl

theorem nodesFind_key {l : List LfuNode} {k : Key} {n : LfuNode}
    (h : nodesFind l k = some n) : n.key = k := by
  have := List.find?_some h
  simpa using this

theorem nodesFind_mem {l : List LfuNode} {k : Key} {n : LfuNode}
    (h : nodesFind l k = some n) : n ∈ l :=
  List.mem_of_find?_eq_some h

theorem mem_lfuKeys_of_find {l : List LfuNode} {k : Key} {n : LfuNode}
    (h : nodesFind l k = some n) : k ∈ lfuKeys l := by
  have hm := nodesFind_mem h
  have hk := nodesFind_key h
  simp only [lfuKeys, List.mem_map]
  exact ⟨n, hm, hk⟩

theorem nodesFind_append {l₁ l₂ : List LfuNode} {k : Key} :
    nodesFind (l₁ ++ l₂) k = (nodesFind l₁ k).or (nodesFind l₂ k) := by
  simp [nodesFind, List.find?_append]

theorem lfuKeys_nodesErase_sub {l : List LfuNode} {k j : Key}
    (h : j ∈ lfuKeys (nodesErase l k)) : j ∈ lfuKeys l := by
  induction l with
  | nil => exact h
  | cons n t ih =>
    by_cases hn : n.key = k
    · rw [nodesErase_cons_self hn] at h
      simp only [lfuKeys, List.map_cons, List.mem_cons]
      exact Or.inr h
    · rw [nodesErase_cons_ne hn] at h
      simp only [lfuKeys, List.map_cons, List.mem_cons] at h ⊢
      rcases h with h | h
      · exact Or.inl h
      · exact Or.inr (ih h)

theorem not_mem_lfuKeys_nodesErase {l : List LfuNode} {k : Key}
    (hnd : (lfuKeys l).Nodup) : k ∉ lfuKeys (nodesErase l k) := by
  induction l with
  | nil => simp [nodesErase, lfuKeys]
  | cons n t ih =>
    simp only [lfuKeys, List.map_cons, List.nodup_cons] at hnd
    by_cases hn : n.key = k
    · rw [nodesErase_cons_self hn]
      subst hn
      exact hnd.1
    · rw [nodesErase_cons_ne hn]
      simp only [lfuKeys, List.map_cons, List.mem_cons]
      rintro (h | h)
      · exact hn h.symm
      · exact ih hnd.2 h

theorem nodup_lfuKeys_nodesErase {l : List LfuNode} {k : Key}
    (hnd : (lfuKeys l).Nodup) : (lfuKeys (nodesErase l k)).Nodup := by
  induction l with
  | nil => exact hnd
  | cons n t ih =>
    simp only [lfuKeys, List.map_cons, List.nodup_cons] at hnd
    by_cases hn : n.key = k
    · rw [nodesErase_cons_self hn]
      exact hnd.2
    · rw [nodesErase_cons_ne hn]
      simp only [lfuKeys, List.map_cons, List.nodup_cons]
      exact ⟨fun hm => hnd.1 (lfuKeys_nodesErase_sub hm), ih hnd.2⟩

theorem length_nodesErase_of_mem {l : List LfuNode} {k : Key}
    (h : k ∈ lfuKeys l) : (nodesErase l k).length + 1 = l.length := by
  induction l with
  | nil => simp [lfuKeys] at h
  | cons n t ih =>
    by_cases hn : n.key = k
    · rw [nodesErase_cons_self hn]
      simp
    · simp only [lfuKeys, List.map_cons, List.mem_cons] at h
      rcases h with h | h
      · exact absurd h.symm hn
      · rw [nodesErase_cons_ne hn]
        simp only [List.length_cons]
        rw [ih h]

theorem nodesFind_nodesErase_ne {l : List LfuNode} {k j : Key} (h : j ≠ k) :
    nodesFind (nodesErase l k) j = nodesFind l j := by
  induction l with
  | nil => rfl
  | cons n t ih =>
    by_cases hn : n.key = k
    · rw [nodesErase_cons_self hn, nodesFind_cons_ne (by rw [hn]; exact Ne.symm h)]
    · rw [nodesErase_cons_ne hn]
      by_cases hj : n.key = j
      · rw [nodesFind_cons_self hj, nodesFind_cons_self hj]
      · rw [nodesFind_cons_ne hj, nodesFind_cons_ne hj]
        exact ih

theorem mem_nodesErase_of_mem_ne {l : List LfuNode} {k : Key} {n : LfuNode}
    (hm : n ∈ l) (hne : n.key ≠ k) : n ∈ nodesErase l k := by
  induction l with
  | nil => exact hm
  | cons a t ih =>
    by_cases ha : a.key = k
    · rw [nodesErase_cons_self ha]
      rcases List.mem_cons.mp hm with rfl | hm2
      · exact absurd ha hne
      · exact hm2
    · rw [nodesErase_cons_ne ha]
      rcases List.mem_cons.mp hm with rfl | hm2
      · exact List.mem_cons_self _ _
      · exact List.mem_cons_of_mem _ (ih hm2)

theorem mem_of_mem_nodesErase {l : List LfuNode} {k : Key} {n : LfuNode}
    (hm : n ∈ nodesErase l k) : n ∈ l := by
  induction l with
  | nil => exact hm
  | cons a t ih =>
    by_cases ha : a.key = k
    · rw [nodesErase_cons_self ha] at hm
      exact List.mem_cons_of_mem _ hm
    · rw [nodesErase_cons_ne ha] at hm
      rcases List.mem_cons.mp hm with rfl | hm2
      · exact List.mem_cons_self _ _
      · exact List.mem_cons_of_mem _ (ih hm2)

theorem nodesUpdate_cons {n : LfuNode} {t : List LfuNode} {k : Key}
    (f : LfuNode → LfuNode) :
    nodesUpdate (n :: t) k f =
      (if n.key = k then f n else n) :: nodesUpdate t k f := by
  simp only [nodesUpdate, List.map_cons]
  by_cases hn : n.key = k <;> simp [hn]

theorem nodesFind_nodesUpdate_self {l : List LfuNode} {k : Key} {f : LfuNode → LfuNode}
    (hf : ∀ m, m.key = k → (f m).key = k) :
    nodesFind (nodesUpdate l k f) k = (nodesFind l k).map f := by
  induction l with
  | nil => rfl
  | cons n t ih =>
    rw [nodesUpdate_cons]
    by_cases hn : n.key = k
    · rw [if_pos hn, nodesFind_cons_self (hf n hn), nodesFind_cons_self hn]
      rfl
    · rw [if_neg hn, nodesFind_cons_ne hn, nodesFind_cons_ne hn]
      exact ih

theorem nodesFind_nodesUpdate_ne {l : List LfuNode} {k j : Key} {f : LfuNode → LfuNode}
    (hf : ∀ m, m.key = k → (f m).key = k) (h : j ≠ k) :
    nodesFind (nodesUpdate l k f) j = nodesFind l j := by
  induction l with
  | nil => rfl
  | cons n t ih =>
    rw [nodesUpdate_cons]
    by_cases hn : n.key = k
    · rw [if_pos hn, nodesFind_cons_ne (by rw [hf n hn]; exact Ne.symm h),
        nodesFind_cons_ne (by rw [hn]; exact Ne.symm h)]
      exact ih
    · rw [if_neg hn]
      by_cases hj : n.key = j
      · rw [nodesFind_cons_self hj, nodesFind_cons_self hj]
      · rw [nodesFind_cons_ne hj, nodesFind_cons_ne hj]
        exact ih

theorem lfuKeys_nodesUpdate {l : List LfuNode} {k : Key} {f : LfuNode → LfuNode}
    (hf : ∀ m, m.key = k → (f m).key = k) :
    lfuKeys (nodesUpdate l k f) = lfuKeys l := by
  induction l with
  | nil => rfl
  | cons n t ih =>
    rw [nodesUpdate_cons]
    by_cases hn : n.key = k
    · simp only [if_pos hn, lfuKeys, List.map_cons]
      rw [hf n hn, hn]
      simpa [lfuKeys] using ih
    · simp only [if_neg hn, lfuKeys, List.map_cons]
      simpa [lfuKeys] using ih

theorem length_nodesUpdate {l : List LfuNode} {k : Key} {f : LfuNode → LfuNode} :
    (nodesUpdate l k f).length = l.length := by
  simp [nodesUpdate]

theorem mem_nodesUpdate {l : List LfuNode} {k : Key} {f : LfuNode → LfuNode}
    {n : LfuNode} (hm : n ∈ nodesUpdate l k f) :
    ∃ m ∈ l, n = (if m.key = k then f m else m) := by
  induction l with
  | nil => exact absurd hm (by simp [nodesUpdate])
  | cons a t ih =>
    rw [nodesUpdate_cons] at hm
    rcases List.mem_cons.mp hm with rfl | hm2
    · exact ⟨a, List.mem_cons_self _ _, rfl⟩
    · obtain ⟨m, hm3, hm4⟩ := ih hm2
      exact ⟨m, List.mem_cons_of_mem _ hm3, hm4⟩

theorem mem_nodesUpdate_of_mem {l : List LfuNode} {k : Key} {f : LfuNode → LfuNode}
    {m : LfuNode} (hm : m ∈ l) :
    (if m.key = k then f m else m) ∈ nodesUpdate l k f := by
  induction l with
  | nil => exact absurd hm (by simp)
  | cons a t ih =>
    rw [nodesUpdate_cons]
    rcases List.mem_cons.mp hm with rfl | hm2
    · exact List.mem_cons_self _ _
    · exact List.mem_cons_of_mem _ (ih hm2)

/-! ### Frequency-bucket map lemma kit -/

/-- The frequency keys of a bucket map. -/
def mapFreqs (m : List (Int × List Key)) : List Int := m.map Prod.fst

theorem bucketSet_cons_self {g f : Int} {l ks : List Key} {t : List (Int × List Key)}
    (h : g = f) : bucketSet ((g, l) :: t) f ks = (f, ks) :: t := by
  simp [bucketSet, h]

theorem bucketSet_cons_ne {g f : Int} {l ks : List Key} {t : List (Int × List Key)}
    (h : g ≠ f) : bucketSet ((g, l) :: t) f ks = (g, l) :: bucketSet t f ks := by
  simp [bucketSet, h]

theorem bucketGet_cons_self {g f : Int} {l : List Key} {t : List (Int × List Key)}
    (h : g = f) : bucketGet ((g, l) :: t) f = l := by
  unfold bucketGet
  rw [List.find?_cons_of_pos _ (by simpa using h)]

theorem bucketGet_cons_ne {g f : Int} {l : List Key} {t : List (Int × List Key)}
    (h : g ≠ f) : bucketGet ((g, l) :: t) f = bucketGet t f := by
  unfold bucketGet
  rw [List.find?_cons_of_neg _ (by simpa using h)]

theorem bucketHas_cons_self {g f : Int} {l : List Key} {t : List (Int × List Key)}
    (h : g = f) : bucketHas ((g, l) :: t) f = true := by
  unfold bucketHas
  rw [List.find?_cons_of_pos _ (by simpa using h)]
  rfl

theorem bucketHas_cons_ne {g f : Int} {l : List Key} {t : List (Int × List Key)}
    (h : g ≠ f) : bucketHas ((g, l) :: t) f = bucketHas t f := by
  unfold bucketHas
  rw [List.find?_cons_of_neg _ (by simpa using h)]

theorem bucketGet_set_self (m : List (Int × List Key)) (f : Int) (ks : List Key) :
    bucketGet (bucketSet m f ks) f = ks := by
  induction m with
  | nil =>
    unfold bucketSet
    exact bucketGet_cons_self rfl
  | cons p t ih =>
    obtain ⟨g, l⟩ := p
    by_cases hg : g = f
    · rw [bucketSet_cons_self hg]
      exact bucketGet_cons_self rfl
    · rw [bucketSet_cons_ne hg, bucketGet_cons_ne hg]
      exact ih

theorem bucketGet_set_ne {m : List (Int × List Key)} {f g : Int} {ks : List Key}
    (h : g ≠ f) : bucketGet (bucketSet m f ks) g = bucketGet m g := by
  induction m with
  | nil =>
    unfold bucketSet
    rw [bucketGet_cons_ne (Ne.symm h)]
  | cons p t ih =>
    obtain ⟨a, l⟩ := p
    by_cases ha : a = f
    · rw [bucketSet_cons_self ha, bucketGet_cons_ne (Ne.symm h),
        bucketGet_cons_ne (by rw [ha]; exact Ne.symm h)]
    · rw [bucketSet_cons_ne ha]
      by_cases hag : a = g
      · rw [bucketGet_cons_self hag, bucketGet_cons_self hag]
      · rw [bucketGet_cons_ne hag, bucketGet_cons_ne hag]
        exact ih

theorem bucketHas_set_self (m : List (Int × List Key)) (f : Int) (ks : List Key) :
    bucketHas (bucketSet m f ks) f = true := by
  induction m with
  | nil =>
    unfold bucketSet
    exact bucketHas_cons_self rfl
  | cons p t ih =>
    obtain ⟨g, l⟩ := p
    by_cases hg : g = f
    · rw [bucketSet_cons_self hg]
      exact bucketHas_cons_self rfl
    · rw [bucketSet_cons_ne hg, bucketHas_cons_ne hg]
      exact ih

theorem bucketHas_set_ne {m : List (Int × List Key)} {f g : Int} {ks : List Key}
    (h : g ≠ f) : bucketHas (bucketSet m f ks) g = bucketHas m g := by
  induction m with
  | nil =>
    unfold bucketSet
    rw [bucketHas_cons_ne (Ne.symm h)]
  | cons p t ih =>
    obtain ⟨a, l⟩ := p
    by_cases ha : a = f
    · rw [bucketSet_cons_self ha, bucketHas_cons_ne (Ne.symm h),
        bucketHas_cons_ne (by rw [ha]; exact Ne.symm h)]
    · rw [bucketSet_cons_ne ha]
      by_cases hag : a = g
      · rw [bucketHas_cons_self hag, bucketHas_cons_self hag]
      · rw [bucketHas_cons_ne hag, bucketHas_cons_ne hag]
        exact ih

theorem mem_mapFreqs {m : List (Int × List Key)} {f : Int} :
    f ∈ mapFreqs m ↔ ∃ p ∈ m, p.1 = f := by
  simp [mapFreqs]

theorem mem_bucketSet {m : List (Int × List Key)} {f : Int} {ks : List Key}
    {p : Int × List Key} (hnd : (mapFreqs m).Nodup) (hp : p ∈ bucketSet m f ks) :
    p = (f, ks) ∨ (p ∈ m ∧ p.1 ≠ f) := by
  induction m with
  | nil =>
    simp only [bucketSet, List.mem_singleton] at hp
    exact Or.inl hp
  | cons q t ih =>
    obtain ⟨g, l⟩ := q
    simp only [mapFreqs, List.map_cons, List.nodup_cons] at hnd
    by_cases hg : g = f
    · rw [bucketSet_cons_self hg] at hp
      rcases List.mem_cons.mp hp with rfl | hp2
      · exact Or.inl rfl
      · right
        refine ⟨List.mem_cons_of_mem _ hp2, ?_⟩
        intro hpf
        subst hg
        exact hnd.1 (List.mem_map.mpr ⟨p, hp2, hpf⟩)
    · rw [bucketSet_cons_ne hg] at hp
      rcases List.mem_cons.mp hp with rfl | hp2
      · exact Or.inr ⟨List.mem_cons_self _ _, hg⟩
      · rcases ih hnd.2 hp2 with h1 | ⟨h1, h2⟩
        · exact Or.inl h1
        · exact Or.inr ⟨List.mem_cons_of_mem _ h1, h2⟩

theorem mapFreqs_bucketSet_nodup {m : List (Int × List Key)} {f : Int} {ks : List Key}
    (hnd : (mapFreqs m).Nodup) : (mapFreqs (bucketSet m f ks)).Nodup := by
  induction m with
  | nil => simp [bucketSet, mapFreqs]
  | cons q t ih =>
    obtain ⟨g, l⟩ := q
    simp only [mapFreqs, List.map_cons, List.nodup_cons] at hnd
    by_cases hg : g = f
    · rw [bucketSet_cons_self hg]
      simp only [mapFreqs, List.map_cons, List.nodup_cons]
      subst hg
      exact hnd
    · rw [bucketSet_cons_ne hg]
      simp only [mapFreqs, List.map_cons, List.nodup_cons]
      constructor
      · intro hm
        obtain ⟨p, hp, hpg⟩ := List.mem_map.mp hm
        rcases mem_bucketSet hnd.2 hp with rfl | ⟨hp2, _⟩
        · exact hg hpg.symm
        · exact hnd.1 (List.mem_map.mpr ⟨p, hp2, hpg⟩)
      · exact ih hnd.2

theorem bucketGet_eq_of_mem {m : List (Int × List Key)} {f : Int} {l : List Key}
    (hnd : (mapFreqs m).Nodup) (hm : (f, l) ∈ m) : bucketGet m f = l := by
  induction m with
  | nil => exact absurd hm (by simp)
  | cons q t ih =>
    obtain ⟨g, l2⟩ := q
    simp only [mapFreqs, List.map_cons, List.nodup_cons] at hnd
    rcases List.mem_cons.mp hm with heq | hm2
    · have hg : g = f := (Prod.mk.inj heq).1.symm
      have hl : l2 = l := (Prod.mk.inj heq).2.symm
      subst hg
      subst hl
      exact bucketGet_cons_self rfl
    · by_cases hg : g = f
      · subst hg
        exact absurd (List.mem_map.mpr ⟨(g, l), hm2, rfl⟩) hnd.1
      · rw [bucketGet_cons_ne hg]
        exact ih hnd.2 hm2

theorem mem_of_bucketGet_ne {m : List (Int × List Key)} {f : Int}
    (h : bucketGet m f ≠ []) : (f, bucketGet m f) ∈ m := by
  unfold bucketGet at h ⊢
  cases hf : m.find? (fun p => p.1 == f) with
  | none => rw [hf] at h; exact absurd rfl h
  | some p =>
    have hm := List.mem_of_find?_eq_some hf
    have hk : p.1 = f := by simpa using List.find?_some hf
    dsimp only
    rw [← hk]
    exact hm

theorem bucketHas_of_get_ne {m : List (Int × List Key)} {f : Int}
    (h : bucketGet m f ≠ []) : bucketHas m f = true := by
  unfold bucketGet at h
  unfold bucketHas
  cases hf : m.find? (fun p => p.1 == f) with
  | none => rw [hf] at h; exact absurd rfl h
  | some p => rfl

theorem bucketGet_empty_of_not_has {m : List (Int × List Key)} {f : Int}
    (h : ¬bucketHas m f = true) : bucketGet m f = [] := by
  unfold bucketHas at h
  unfold bucketGet
  cases hf : m.find? (fun p => p.1 == f) with
  | none => rfl
  | some p => rw [hf] at h; exact absurd rfl h

/-! ### KLfuCache structural invariant (C4)

Wf is the well-formedness the base LFU engine actually maintains: the
node map and the frequency map agree (every node sits in the bucket of
its frequency, and every bucket entry names a resident node of that
frequency), all key and frequency lists are duplicate-free, frequencies
are at least one, and — while any node is resident — minFreq is the
smallest frequency whose bucket is non-empty.  Note that nothing here
says buckets are non-empty or that the smallest map key equals minFreq:
the code leaves emptied FreqList objects in the map forever. -/

def KLfu.Wf (s : KLfu) : Prop :=
  (lfuKeys s.nodes).Nodup ∧
  (mapFreqs s.freqMap).Nodup ∧
  (∀ p ∈ s.freqMap, p.2.Nodup) ∧
  (∀ n ∈ s.nodes, n.key ∈ bucketGet s.freqMap n.freq) ∧
  (∀ p ∈ s.freqMap, ∀ j ∈ p.2, ∃ n ∈ s.nodes, n.key = j ∧ n.freq = p.1) ∧
  (∀ n ∈ s.nodes, 1 ≤ n.freq) ∧
  1 ≤ s.minFreq ∧
  (s.nodes ≠ [] → bucketGet s.freqMap s.minFreq ≠ []) ∧
  (s.nodes ≠ [] → ∀ p ∈ s.freqMap, p.2 ≠ [] → s.minFreq ≤ p.1)

theorem lfu_node_unique {l : List LfuNode} {n1 n2 : LfuNode}
    (hnd : (lfuKeys l).Nodup) (h1 : n1 ∈ l) (h2 : n2 ∈ l) (hk : n1.key = n2.key) :
    n1 = n2 := by
  induction l with
  | nil => exact absurd h1 (by simp)
  | cons a t ih =>
    simp only [lfuKeys, List.map_cons, List.nodup_cons] at hnd
    rcases List.mem_cons.mp h1 with rfl | h1t
    · rcases List.mem_cons.mp h2 with rfl | h2t
      · rfl
      · exact absurd (List.mem_map.mpr ⟨n2, h2t, hk.symm⟩) hnd.1
    · rcases List.mem_cons.mp h2 with rfl | h2t
      · exact absurd (List.mem_map.mpr ⟨n1, h1t, hk⟩) hnd.1
      · exact ih hnd.2 h1t h2t

theorem bucketGet_nodup {m : List (Int × List Key)} (hndB : ∀ p ∈ m, p.2.Nodup)
    (f : Int) : (bucketGet m f).Nodup := by
  by_cases h : bucketGet m f = []
  · rw [h]; exact List.nodup_nil
  · exact hndB _ (mem_of_bucketGet_ne h)

theorem nodup_key_append {l : List Key} {k : Key} (h : l.Nodup) (hk : k ∉ l) :
    (l ++ [k]).Nodup := by
  rw [List.nodup_append]
  refine ⟨h, List.nodup_singleton k, ?_⟩
  intro a ha hb
  simp only [List.mem_singleton] at hb
  subst hb
  exact hk ha

/-- Behavioral description of getInternal on a hit: the value read is
the node value, the node map is point-updated with the incremented
frequency, and the capacity is untouched. -/
theorem KLfu.getInternal_spec (s : KLfu) (k : Key) {n : LfuNode}
    (hf : nodesFind s.nodes k = some n) :
    (s.getInternal k).1 = n.value ∧
    (s.getInternal k).2.nodes
      = nodesUpdate s.nodes k (fun _ => { n with freq := n.freq + 1 }) ∧
    (s.getInternal k).2.capacity = s.capacity ∧
    (s.getInternal k).2.nodes.length = s.nodes.length := by
  unfold KLfu.getInternal KLfu.removeFromFreqList KLfu.addToFreqList
  rw [hf]
  dsimp only
  split
  · exact ⟨rfl, rfl, rfl, length_nodesUpdate⟩
  · exact ⟨rfl, rfl, rfl, length_nodesUpdate⟩

/-- getInternal preserves well-formedness on a hit. -/
theorem KLfu.getInternal_wf (s : KLfu) (k : Key) (h : s.Wf) {n : LfuNode}
    (hf : nodesFind s.nodes k = some n) : (s.getInternal k).2.Wf := by
  obtain ⟨hndN, hndM, hndB, hNB, hBN, hF1, hM1, h8, h9⟩ := h
  have hk := nodesFind_key hf
  subst hk
  have hmemn : n ∈ s.nodes := nodesFind_mem hf
  have hnodesne : s.nodes ≠ [] := fun hE => by rw [hE] at hmemn; exact absurd hmemn (by simp)
  have hbk : n.key ∈ bucketGet s.freqMap n.freq := hNB n hmemn
  have hBne : bucketGet s.freqMap n.freq ≠ [] := by
    intro hc; rw [hc] at hbk; exact absurd hbk (by simp)
  have hmemB : (n.freq, bucketGet s.freqMap n.freq) ∈ s.freqMap :=
    mem_of_bucketGet_ne hBne
  have hfq : s.minFreq ≤ n.freq := h9 hnodesne _ hmemB hBne
  have hknot1 : n.key ∉ bucketGet s.freqMap (n.freq + 1) := by
    intro hc
    have hne2 : bucketGet s.freqMap (n.freq + 1) ≠ [] := by
      intro hE; rw [hE] at hc; exact absurd hc (by simp)
    obtain ⟨n2, hn2, hkey2, hfreq2⟩ := hBN _ (mem_of_bucketGet_ne hne2) _ hc
    have heq := lfu_node_unique hndN hn2 hmemn hkey2
    rw [heq] at hfreq2
    omega
  -- the two bucket rewrites
  have hne10 : (n.freq + 1 : Int) ≠ n.freq := by omega
  have hne01 : (n.freq : Int) ≠ n.freq + 1 := by omega
  unfold KLfu.getInternal KLfu.removeFromFreqList KLfu.addToFreqList
  rw [hf]
  dsimp only
  -- names for the intermediate maps
  set m1 := bucketSet s.freqMap n.freq ((bucketGet s.freqMap n.freq).erase n.key)
    with hm1def
  set m2 := bucketSet m1 (n.freq + 1) (bucketGet m1 (n.freq + 1) ++ [n.key])
    with hm2def
  have hg1 : bucketGet m1 (n.freq + 1) = bucketGet s.freqMap (n.freq + 1) := by
    rw [hm1def]; exact bucketGet_set_ne hne10
  have hg2self : bucketGet m2 (n.freq + 1)
      = bucketGet m1 (n.freq + 1) ++ [n.key] := by
    rw [hm2def]; exact bucketGet_set_self ..
  have hg2f : bucketGet m2 n.freq = (bucketGet s.freqMap n.freq).erase n.key := by
    rw [hm2def, bucketGet_set_ne hne01, hm1def, bucketGet_set_self]
  have hg2other : ∀ g : Int, g ≠ n.freq → g ≠ n.freq + 1 →
      bucketGet m2 g = bucketGet s.freqMap g := by
    intro g hgf hgf1
    rw [hm2def, bucketGet_set_ne hgf1, hm1def, bucketGet_set_ne hgf]
  have hm1nd : (mapFreqs m1).Nodup := by
    rw [hm1def]; exact mapFreqs_bucketSet_nodup hndM
  have hm2nd : (mapFreqs m2).Nodup := by
    rw [hm2def]; exact mapFreqs_bucketSet_nodup hm1nd
  have hkeypres : ∀ m : LfuNode, m.key = n.key →
      ((fun _ : LfuNode => ({ n with freq := n.freq + 1 } : LfuNode)) m).key = n.key :=
    fun _ _ => rfl
  set nodes2 := nodesUpdate s.nodes n.key
    (fun _ => ({ n with freq := n.freq + 1 } : LfuNode)) with hn2def
  have hkeys2 : lfuKeys nodes2 = lfuKeys s.nodes := by
    rw [hn2def]; exact lfuKeys_nodesUpdate hkeypres
  have hnodes2ne : nodes2 ≠ [] := by
    intro hE
    have hlen := congrArg List.length hE
    rw [hn2def, length_nodesUpdate] at hlen
    have hz : s.nodes.length = 0 := by simpa using hlen
    exact hnodesne (List.length_eq_zero.mp hz)
  -- core structural facts, shared by both minFreq branches
  have HndN : (lfuKeys nodes2).Nodup := by rw [hkeys2]; exact hndN
  have HndB : ∀ p ∈ m2, p.2.Nodup := by
    intro p hp
    rcases mem_bucketSet hm1nd (hm2def ▸ hp) with rfl | ⟨hp2, hne2⟩
    · dsimp only
      rw [hg1]
      exact nodup_key_append (bucketGet_nodup hndB _) hknot1
    · rcases mem_bucketSet hndM (hm1def ▸ hp2) with rfl | ⟨hp3, _⟩
      · exact (bucketGet_nodup hndB _).erase _
      · exact hndB _ hp3
  have HNB : ∀ x ∈ nodes2, x.key ∈ bucketGet m2 x.freq := by
    intro x hx
    obtain ⟨m0, hm0, rfl⟩ := mem_nodesUpdate (hn2def ▸ hx)
    by_cases hkey : m0.key = n.key
    · rw [if_pos hkey]
      dsimp only
      rw [hg2self]
      exact List.mem_append_right _ (by simp)
    · rw [if_neg hkey]
      by_cases hq1 : m0.freq = n.freq + 1
      · rw [hq1, hg2self, hg1]
        exact List.mem_append_left _ (hq1 ▸ hNB m0 hm0)
      · by_cases hq0 : m0.freq = n.freq
        · rw [hq0, hg2f]
          rw [List.mem_erase_of_ne hkey]
          exact hq0 ▸ hNB m0 hm0
        · rw [hg2other _ hq0 hq1]
          exact hNB m0 hm0
  have HBN : ∀ p ∈ m2, ∀ j ∈ p.2, ∃ x ∈ nodes2, x.key = j ∧ x.freq = p.1 := by
    intro p hp j hj
    rcases mem_bucketSet hm1nd (hm2def ▸ hp) with rfl | ⟨hp2, hne2⟩
    · dsimp only at hj ⊢
      rcases List.mem_append.mp hj with hj1 | hj1
      · rw [hg1] at hj1
        have hne3 : bucketGet s.freqMap (n.freq + 1) ≠ [] := by
          intro hE; rw [hE] at hj1; exact absurd hj1 (by simp)
        obtain ⟨x, hx, hxk, hxf⟩ := hBN _ (mem_of_bucketGet_ne hne3) _ hj1
        have hxne : x.key ≠ n.key := by
          intro hE
          have := lfu_node_unique hndN hx hmemn hE
          rw [this] at hxf
          omega
        refine ⟨x, ?_, hxk, hxf⟩
        have := mem_nodesUpdate_of_mem
          (k := n.key) (f := fun _ => ({ n with freq := n.freq + 1 } : LfuNode)) hx
        rw [if_neg hxne] at this
        exact hn2def ▸ this
      · simp only [List.mem_singleton] at hj1
        subst hj1
        refine ⟨{ n with freq := n.freq + 1 }, ?_, rfl, rfl⟩
        have := mem_nodesUpdate_of_mem
          (k := n.key) (f := fun _ => ({ n with freq := n.freq + 1 } : LfuNode)) hmemn
        rw [if_pos rfl] at this
        exact hn2def ▸ this
    · rcases mem_bucketSet hndM (hm1def ▸ hp2) with rfl | ⟨hp3, hne3⟩
      · dsimp only at hj ⊢
        have hjne : j ≠ n.key := by
          intro hE
          subst hE
          exact (bucketGet_nodup hndB n.freq).not_mem_erase hj
        have hjB : j ∈ bucketGet s.freqMap n.freq := List.mem_of_mem_erase hj
        obtain ⟨x, hx, hxk, hxf⟩ := hBN _ hmemB _ hjB
        have hxne : x.key ≠ n.key := by rw [hxk]; exact hjne
        refine ⟨x, ?_, hxk, hxf⟩
        have := mem_nodesUpdate_of_mem
          (k := n.key) (f := fun _ => ({ n with freq := n.freq + 1 } : LfuNode)) hx
        rw [if_neg hxne] at this
        exact hn2def ▸ this
      · obtain ⟨x, hx, hxk, hxf⟩ := hBN _ hp3 _ hj
        have hxne : x.key ≠ n.key := by
          intro hE
          have := lfu_node_unique hndN hx hmemn hE
          rw [this] at hxf
          exact hne3 (by omega)
        refine ⟨x, ?_, hxk, hxf⟩
        have := mem_nodesUpdate_of_mem
          (k := n.key) (f := fun _ => ({ n with freq := n.freq + 1 } : LfuNode)) hx
        rw [if_neg hxne] at this
        exact hn2def ▸ this
  have HF1 : ∀ x ∈ nodes2, 1 ≤ x.freq := by
    intro x hx
    obtain ⟨m0, hm0, rfl⟩ := mem_nodesUpdate (hn2def ▸ hx)
    by_cases hkey : m0.key = n.key
    · rw [if_pos hkey]
      have := hF1 n hmemn
      dsimp only
      omega
    · rw [if_neg hkey]
      exact hF1 m0 hm0
  -- now the minFreq branch split
  split
  case isTrue hcond =>
    obtain ⟨hc1, hc2⟩ := hcond
    have hc1' : n.freq = s.minFreq := by
      have := (beq_iff_eq ..).mp hc1
      omega
    have hc2' : bucketGet m2 n.freq = [] := by
      have := (beq_iff_eq ..).mp hc2
      simpa using this
    refine ⟨HndN, hm2nd, HndB, HNB, HBN, HF1, by dsimp only; omega, ?_, ?_⟩
    · intro _
      dsimp only
      rw [← hc1', hg2self]
      simp
    · dsimp only
      intro _ p hp hpne
      rcases mem_bucketSet hm1nd (hm2def ▸ hp) with rfl | ⟨hp2, hne2⟩
      · dsimp only
        omega
      · rcases mem_bucketSet hndM (hm1def ▸ hp2) with rfl | ⟨hp3, hne3⟩
        · dsimp only at hpne
          exact absurd (by rw [← hg2f]; exact hc2') hpne
        · have hle := h9 hnodesne _ hp3 hpne
          omega
  case isFalse hcond =>
    refine ⟨HndN, hm2nd, HndB, HNB, HBN, HF1, by dsimp only; exact hM1, ?_, ?_⟩
    · intro _
      dsimp only
      by_cases hq1 : s.minFreq = n.freq + 1
      · rw [hq1, hg2self]
        simp
      · by_cases hq0 : s.minFreq = n.freq
        · have hc2 : ¬bucketGet m2 n.freq = [] := by
            intro hE
            apply hcond
            constructor
            · have heq1 : n.freq + 1 - 1 = s.minFreq := by omega
              exact (beq_iff_eq ..).mpr heq1
            · refine (beq_iff_eq ..).mpr ?_
              have heq2 : n.freq + 1 - 1 = n.freq := by omega
              rw [heq2]
              exact hE
          rw [hq0]
          exact hc2
        · rw [hg2other _ (fun hE => hq0 hE) (fun hE => hq1 hE)]
          exact h8 hnodesne
    · dsimp only
      intro _ p hp hpne
      rcases mem_bucketSet hm1nd (hm2def ▸ hp) with rfl | ⟨hp2, hne2⟩
      · dsimp only
        omega
      · rcases mem_bucketSet hndM (hm1def ▸ hp2) with rfl | ⟨hp3, hne3⟩
        · dsimp only
          omega
        · exact h9 hnodesne _ hp3 hpne

/-- kickOut on a well-formed, non-empty cache: the head of the minFreq
bucket is unlinked from both maps; the minFreq tracking may be left
stale (the emptied bucket stays in the map), which the caller
(putInternal) repairs by inserting at frequency 1. -/
theorem KLfu.kickOut_core (s : KLfu) (hW : s.Wf) (hne : s.nodes ≠ []) :
    (lfuKeys s.kickOut.nodes).Nodup ∧
    (mapFreqs s.kickOut.freqMap).Nodup ∧
    (∀ p ∈ s.kickOut.freqMap, p.2.Nodup) ∧
    (∀ x ∈ s.kickOut.nodes, x.key ∈ bucketGet s.kickOut.freqMap x.freq) ∧
    (∀ p ∈ s.kickOut.freqMap, ∀ j ∈ p.2,
      ∃ x ∈ s.kickOut.nodes, x.key = j ∧ x.freq = p.1) ∧
    (∀ x ∈ s.kickOut.nodes, 1 ≤ x.freq) ∧
    s.kickOut.minFreq = s.minFreq ∧
    s.kickOut.capacity = s.capacity ∧
    s.kickOut.nodes.length + 1 = s.nodes.length ∧
    (∀ j, nodesFind s.nodes j = none → nodesFind s.kickOut.nodes j = none) := by
  obtain ⟨hndN, hndM, hndB, hNB, hBN, hF1, hM1, h8, h9⟩ := hW
  have hbne : bucketGet s.freqMap s.minFreq ≠ [] := h8 hne
  obtain ⟨k0, hk0⟩ : ∃ k0, (bucketGet s.freqMap s.minFreq).head? = some k0 := by
    cases hb : bucketGet s.freqMap s.minFreq with
    | nil => exact absurd hb hbne
    | cons a t => exact ⟨a, rfl⟩
  have hk0mem : k0 ∈ bucketGet s.freqMap s.minFreq := mem_of_head? hk0
  obtain ⟨n1, hn1, hn1k, hn1f⟩ := hBN _ (mem_of_bucketGet_ne hbne) _ hk0mem
  obtain ⟨n0, hfind⟩ : ∃ n0, nodesFind s.nodes k0 = some n0 := by
    cases hq : nodesFind s.nodes k0 with
    | none =>
      exact absurd (not_mem_of_nodesFind_eq_none hq)
        (by simp only [not_not]; exact List.mem_map.mpr ⟨n1, hn1, hn1k⟩)
    | some n0 => exact ⟨n0, rfl⟩
  have hn0 : n0 = n1 :=
    lfu_node_unique hndN (nodesFind_mem hfind) hn1 (by rw [nodesFind_key hfind, hn1k])
  have hn0f : n0.freq = s.minFreq := by rw [hn0, hn1f]
  have hn0k : n0.key = k0 := nodesFind_key hfind
  have hkmem : k0 ∈ lfuKeys s.nodes := mem_lfuKeys_of_find hfind
  unfold KLfu.kickOut KLfu.removeFromFreqList
  rw [if_pos (bucketHas_of_get_ne hbne)]
  dsimp only
  rw [hk0]
  dsimp only
  rw [hfind]
  dsimp only
  have hg : ∀ g : Int, g ≠ n0.freq →
      bucketGet (bucketSet s.freqMap n0.freq ((bucketGet s.freqMap n0.freq).erase n0.key)) g
        = bucketGet s.freqMap g := fun g hgne => bucketGet_set_ne hgne
  have hgself :
      bucketGet (bucketSet s.freqMap n0.freq ((bucketGet s.freqMap n0.freq).erase n0.key))
        n0.freq = (bucketGet s.freqMap n0.freq).erase n0.key := bucketGet_set_self ..
  refine ⟨nodup_lfuKeys_nodesErase hndN, mapFreqs_bucketSet_nodup hndM, ?_, ?_, ?_,
    ?_, rfl, rfl, ?_, ?_⟩
  · intro p hp
    rcases mem_bucketSet hndM hp with rfl | ⟨hp2, _⟩
    · exact (bucketGet_nodup hndB _).erase _
    · exact hndB _ hp2
  · intro x hx
    have hxs : x ∈ s.nodes := mem_of_mem_nodesErase hx
    have hxne : x.key ≠ k0 := by
      intro hE
      exact not_mem_lfuKeys_nodesErase hndN
        (hE ▸ List.mem_map.mpr ⟨x, hx, rfl⟩)
    by_cases hxf : x.freq = n0.freq
    · rw [hxf, hgself]
      rw [List.mem_erase_of_ne (by rw [hn0k]; exact hxne)]
      exact hxf ▸ hNB x hxs
    · rw [hg _ hxf]
      exact hNB x hxs
  · intro p hp j hj
    rcases mem_bucketSet hndM hp with rfl | ⟨hp2, hpne⟩
    · dsimp only at hj ⊢
      have hjne : j ≠ n0.key := by
        intro hE
        subst hE
        exact (bucketGet_nodup hndB n0.freq).not_mem_erase hj
      have hjB : j ∈ bucketGet s.freqMap n0.freq := List.mem_of_mem_erase hj
      have hBne2 : bucketGet s.freqMap n0.freq ≠ [] := by
        intro hE; rw [hE] at hjB; exact absurd hjB (by simp)
      obtain ⟨x, hx, hxk, hxf⟩ := hBN _ (mem_of_bucketGet_ne hBne2) _ hjB
      refine ⟨x, ?_, hxk, hxf⟩
      exact mem_nodesErase_of_mem_ne hx (by rw [hxk]; rw [hn0k] at hjne; exact hjne)
    · obtain ⟨x, hx, hxk, hxf⟩ := hBN _ hp2 _ hj
      have hxne : x.key ≠ k0 := by
        intro hE
        have := lfu_node_unique hndN hx (nodesFind_mem hfind) (by rw [hE, hn0k])
        rw [this] at hxf
        exact hpne (by rw [← hxf])
      refine ⟨x, ?_, hxk, hxf⟩
      exact mem_nodesErase_of_mem_ne hx hxne
  · intro x hx
    exact hF1 x (mem_of_mem_nodesErase hx)
  · exact length_nodesErase_of_mem hkmem
  · intro j hj
    exact nodesFind_eq_none
      (fun hm => absurd (lfuKeys_nodesErase_sub hm) (not_mem_of_nodesFind_eq_none hj))

theorem lfuKeys_append (l₁ l₂ : List LfuNode) :
    lfuKeys (l₁ ++ l₂) = lfuKeys l₁ ++ lfuKeys l₂ := by
  simp [lfuKeys]

/-- putInternal on a fresh key with usable capacity: the state stays
well-formed and the key is resident at frequency 1 afterwards. -/
theorem KLfu.putInternal_wf (s : KLfu) (k : Key) (v : Val) (hW : s.Wf)
    (hk : nodesFind s.nodes k = none) (hcap : s.capacity ≠ 0) :
    (s.putInternal k v).Wf ∧
    nodesFind (s.putInternal k v).nodes k
      = some { key := k, value := v, freq := 1 } := by
  -- stage 1: the optional eviction
  have hstage :
      (lfuKeys (if 0 ≤ s.capacity ∧ s.nodes.length = s.capacity.toNat then s.kickOut
         else s).nodes).Nodup ∧
      (mapFreqs (if 0 ≤ s.capacity ∧ s.nodes.length = s.capacity.toNat then s.kickOut
         else s).freqMap).Nodup ∧
      (∀ p ∈ (if 0 ≤ s.capacity ∧ s.nodes.length = s.capacity.toNat then s.kickOut
         else s).freqMap, p.2.Nodup) ∧
      (∀ x ∈ (if 0 ≤ s.capacity ∧ s.nodes.length = s.capacity.toNat then s.kickOut
         else s).nodes, x.key ∈ bucketGet
          (if 0 ≤ s.capacity ∧ s.nodes.length = s.capacity.toNat then s.kickOut
            else s).freqMap x.freq) ∧
      (∀ p ∈ (if 0 ≤ s.capacity ∧ s.nodes.length = s.capacity.toNat then s.kickOut
         else s).freqMap, ∀ j ∈ p.2,
        ∃ x ∈ (if 0 ≤ s.capacity ∧ s.nodes.length = s.capacity.toNat then s.kickOut
          else s).nodes, x.key = j ∧ x.freq = p.1) ∧
      (∀ x ∈ (if 0 ≤ s.capacity ∧ s.nodes.length = s.capacity.toNat then s.kickOut
         else s).nodes, 1 ≤ x.freq) ∧
      1 ≤ (if 0 ≤ s.capacity ∧ s.nodes.length = s.capacity.toNat then s.kickOut
         else s).minFreq ∧
      nodesFind (if 0 ≤ s.capacity ∧ s.nodes.length = s.capacity.toNat then s.kickOut
         else s).nodes k = none := by
    obtain ⟨hndN, hndM, hndB, hNB, hBN, hF1, hM1, h8, h9⟩ := hW
    split
    case isTrue hcond =>
      have hne : s.nodes ≠ [] := by
        intro hE
        rw [hE] at hcond
        simp only [List.length_nil] at hcond
        omega
      obtain ⟨c1, c2, c3, c4, c5, c6, c7, _, _, c10⟩ :=
        KLfu.kickOut_core s ⟨hndN, hndM, hndB, hNB, hBN, hF1, hM1, h8, h9⟩ hne
      exact ⟨c1, c2, c3, c4, c5, c6, c7 ▸ hM1, c10 k hk⟩
    case isFalse =>
      exact ⟨hndN, hndM, hndB, hNB, hBN, hF1, hM1, hk⟩
  obtain ⟨hndN1, hndM1, hndB1, hNB1, hBN1, hF11, hM11, hk1⟩ := hstage
  unfold KLfu.putInternal KLfu.addToFreqList
  dsimp only
  generalize hS :
    (if 0 ≤ s.capacity ∧ s.nodes.length = s.capacity.toNat then s.kickOut else s) = s1
    at hndN1 hndM1 hndB1 hNB1 hBN1 hF11 hM11 hk1 ⊢
  have hknot : k ∉ lfuKeys s1.nodes := not_mem_of_nodesFind_eq_none hk1
  have hkb1 : k ∉ bucketGet s1.freqMap 1 := by
    intro hc
    have hne2 : bucketGet s1.freqMap 1 ≠ [] := by
      intro hE; rw [hE] at hc; exact absurd hc (by simp)
    obtain ⟨x, hx, hxk, _⟩ := hBN1 _ (mem_of_bucketGet_ne hne2) _ hc
    exact hknot (hxk ▸ List.mem_map.mpr ⟨x, hx, rfl⟩)
  have hfind2 :
      nodesFind (s1.nodes ++ [{ key := k, value := v, freq := 1 }]) k
        = some { key := k, value := v, freq := 1 } := by
    rw [nodesFind_append, hk1]
    rw [nodesFind_cons_self rfl]
    rfl
  have hgself : bucketGet (bucketSet s1.freqMap 1 (bucketGet s1.freqMap 1 ++ [k])) 1
      = bucketGet s1.freqMap 1 ++ [k] := bucketGet_set_self ..
  have hgne : ∀ g : Int, g ≠ 1 →
      bucketGet (bucketSet s1.freqMap 1 (bucketGet s1.freqMap 1 ++ [k])) g
        = bucketGet s1.freqMap g := fun g hg => bucketGet_set_ne hg
  have hminFinal : min s1.minFreq 1 = 1 := min_eq_right hM11
  refine ⟨⟨?_, ?_, ?_, ?_, ?_, ?_, ?_, ?_, ?_⟩, hfind2⟩
  · rw [lfuKeys_append]
    simp only [lfuKeys, List.map_cons, List.map_nil]
    rw [List.nodup_append]
    refine ⟨hndN1, List.nodup_singleton k, ?_⟩
    intro a ha hb
    simp only [List.mem_singleton] at hb
    subst hb
    exact hknot ha
  · exact mapFreqs_bucketSet_nodup hndM1
  · intro p hp
    rcases mem_bucketSet hndM1 hp with rfl | ⟨hp2, _⟩
    · exact nodup_key_append (bucketGet_nodup hndB1 _) hkb1
    · exact hndB1 _ hp2
  · intro x hx
    rcases List.mem_append.mp hx with hx1 | hx1
    · by_cases hxf : x.freq = 1
      · rw [hxf, hgself]
        exact List.mem_append_left _ (hxf ▸ hNB1 x hx1)
      · rw [hgne _ hxf]
        exact hNB1 x hx1
    · simp only [List.mem_singleton] at hx1
      subst hx1
      rw [hgself]
      exact List.mem_append_right _ (by simp)
  · intro p hp j hj
    rcases mem_bucketSet hndM1 hp with rfl | ⟨hp2, hpne⟩
    · dsimp only at hj ⊢
      rcases List.mem_append.mp hj with hj1 | hj1
      · have hne2 : bucketGet s1.freqMap 1 ≠ [] := by
          intro hE; rw [hE] at hj1; exact absurd hj1 (by simp)
        obtain ⟨x, hx, hxk, hxf⟩ := hBN1 _ (mem_of_bucketGet_ne hne2) _ hj1
        exact ⟨x, List.mem_append_left _ hx, hxk, hxf⟩
      · simp only [List.mem_singleton] at hj1
        exact ⟨{ key := k, value := v, freq := 1 },
          List.mem_append_right _ (by simp), by rw [hj1], rfl⟩
    · obtain ⟨x, hx, hxk, hxf⟩ := hBN1 _ hp2 _ hj
      exact ⟨x, List.mem_append_left _ hx, hxk, hxf⟩
  · intro x hx
    rcases List.mem_append.mp hx with hx1 | hx1
    · exact hF11 x hx1
    · simp only [List.mem_singleton] at hx1
      subst hx1
      exact le_refl 1
  · dsimp only
    omega
  · intro _
    dsimp only
    rw [hminFinal, hgself]
    simp
  · dsimp only
    intro _ p hp hpne
    rw [hminFinal]
    rcases mem_bucketSet hndM1 hp with rfl | ⟨hp2, hpne2⟩
    · dsimp only
      omega
    · obtain ⟨j, hj⟩ := List.exists_mem_of_ne_nil _ hpne
      obtain ⟨x, _, _, hxf⟩ := hBN1 _ hp2 _ hj
      have := hF11 x (by assumption)
      omega

/-- Overwriting a value in place (the first step of put on an existing
key) preserves well-formedness: only the value field changes. -/
theorem KLfu.value_update_wf (s : KLfu) (k : Key) (v : Val) (hW : s.Wf) :
    ({ s with nodes := nodesUpdate s.nodes k (fun n => { n with value := v }) } : KLfu).Wf := by
  obtain ⟨hndN, hndM, hndB, hNB, hBN, hF1, hM1, h8, h9⟩ := hW
  have hkp : ∀ m : LfuNode, m.key = k →
      ((fun n : LfuNode => { n with value := v }) m).key = k := fun m hm => hm
  have hkeys : lfuKeys (nodesUpdate s.nodes k (fun n => { n with value := v }))
      = lfuKeys s.nodes := lfuKeys_nodesUpdate hkp
  have hne : nodesUpdate s.nodes k (fun n => { n with value := v }) = [] ↔
      s.nodes = [] := by
    constructor
    · intro hE
      have := congrArg List.length hE
      rw [length_nodesUpdate] at this
      exact List.length_eq_zero.mp (by simpa using this)
    · intro hE
      rw [hE]
      rfl
  refine ⟨by rw [hkeys]; exact hndN, hndM, hndB, ?_, ?_, ?_, hM1,
    fun h => h8 (fun hE => h (hne.mpr hE)), fun h => h9 (fun hE => h (hne.mpr hE))⟩
  · intro x hx
    obtain ⟨m0, hm0, rfl⟩ := mem_nodesUpdate hx
    by_cases hkey : m0.key = k
    · rw [if_pos hkey]
      exact hNB m0 hm0
    · rw [if_neg hkey]
      exact hNB m0 hm0
  · intro p hp j hj
    obtain ⟨x, hx, hxk, hxf⟩ := hBN _ hp _ hj
    have := mem_nodesUpdate_of_mem (k := k)
      (f := fun n : LfuNode => { n with value := v }) hx
    by_cases hkey : x.key = k
    · rw [if_pos hkey] at this
      exact ⟨_, this, hxk, hxf⟩
    · rw [if_neg hkey] at this
      exact ⟨x, this, hxk, hxf⟩
  · intro x hx
    obtain ⟨m0, hm0, rfl⟩ := mem_nodesUpdate hx
    by_cases hkey : m0.key = k
    · rw [if_pos hkey]
      exact hF1 m0 hm0
    · rw [if_neg hkey]
      exact hF1 m0 hm0

/-- A freshly constructed LFU cache is well-formed. -/
theorem mkKLfu_wf (c : Int) : (mkKLfu c).Wf := by
  refine ⟨?_, ?_, ?_, ?_, ?_, ?_, ?_, ?_, ?_⟩ <;>
    simp [mkKLfu, lfuKeys, mapFreqs]

/-- KLfuCache::put preserves well-formedness. -/
theorem KLfu.put_wf (s : KLfu) (k : Key) (v : Val) (hW : s.Wf) : (s.put k v).Wf := by
  unfold KLfu.put
  by_cases hcap : s.capacity == 0
  · rw [if_pos hcap]
    exact hW
  · rw [if_neg hcap]
    cases hf : nodesFind s.nodes k with
    | some n =>
      dsimp only
      have hW1 := KLfu.value_update_wf s k v hW
      have hf1 : nodesFind
          ({ s with nodes := nodesUpdate s.nodes k (fun n => { n with value := v }) } : KLfu).nodes k
          = some { n with value := v } := by
        dsimp only
        have hkp : ∀ m : LfuNode, m.key = k →
            ((fun n : LfuNode => { n with value := v }) m).key = k := fun m hm => hm
        rw [nodesFind_nodesUpdate_self hkp, hf]
        rfl
      exact KLfu.getInternal_wf _ k hW1 hf1
    | none =>
      exact (KLfu.putInternal_wf s k v hW hf (by simpa using hcap)).1

/-- KLfuCache::get preserves well-formedness. -/
theorem KLfu.get_wf (s : KLfu) (k : Key) (vin : Val) (hW : s.Wf) :
    (s.get k vin).2.2.Wf := by
  unfold KLfu.get
  cases hf : nodesFind s.nodes k with
  | some n =>
    dsimp only
    exact KLfu.getInternal_wf s k hW hf
  | none => exact hW

theorem bucketHas_set_mono {m : List (Int × List Key)} {f g : Int} {ks : List Key}
    (h : bucketHas m f = true) : bucketHas (bucketSet m g ks) f = true := by
  by_cases hfg : f = g
  · subst hfg
    exact bucketHas_set_self ..
  · rw [bucketHas_set_ne hfg]
    exact h

theorem KLfu.getInternal_bucketHas (s : KLfu) (k : Key) (f : Int)
    (h : bucketHas s.freqMap f = true) :
    bucketHas (s.getInternal k).2.freqMap f = true := by
  unfold KLfu.getInternal KLfu.removeFromFreqList KLfu.addToFreqList
  cases hq : nodesFind s.nodes k with
  | none => exact h
  | some n =>
    dsimp only
    split
    · exact bucketHas_set_mono (bucketHas_set_mono h)
    · exact bucketHas_set_mono (bucketHas_set_mono h)

theorem KLfu.kickOut_bucketHas (s : KLfu) (f : Int)
    (h : bucketHas s.freqMap f = true) :
    bucketHas s.kickOut.freqMap f = true := by
  unfold KLfu.kickOut KLfu.removeFromFreqList
  by_cases h0 : bucketHas s.freqMap s.minFreq = true
  · rw [if_pos h0]
    dsimp only
    cases hh : (bucketGet s.freqMap s.minFreq).head? with
    | some k =>
      dsimp only
      cases hq : nodesFind s.nodes k with
      | some n =>
        dsimp only
        exact bucketHas_set_mono h
      | none => exact h
    | none =>
      dsimp only
      by_cases h1 : bucketHas s.freqMap 1 = true
      · rw [if_pos h1]
        exact h
      · rw [if_neg h1]
        exact bucketHas_set_mono h
  · rw [if_neg h0]
    dsimp only
    have hm : bucketHas (bucketSet s.freqMap s.minFreq []) f = true :=
      bucketHas_set_mono h
    cases hh : (bucketGet (bucketSet s.freqMap s.minFreq []) s.minFreq).head? with
    | some k =>
      dsimp only
      cases hq : nodesFind s.nodes k with
      | some n =>
        dsimp only
        exact bucketHas_set_mono hm
      | none => exact hm
    | none =>
      dsimp only
      by_cases h1 : bucketHas (bucketSet s.freqMap s.minFreq []) 1 = true
      · rw [if_pos h1]
        exact hm
      · rw [if_neg h1]
        exact bucketHas_set_mono hm

theorem KLfu.putInternal_bucketHas (s : KLfu) (k : Key) (v : Val) (f : Int)
    (h : bucketHas s.freqMap f = true) :
    bucketHas (s.putInternal k v).freqMap f = true := by
  unfold KLfu.putInternal KLfu.addToFreqList
  dsimp only
  split
  · exact bucketHas_set_mono (KLfu.kickOut_bucketHas s f h)
  · exact bucketHas_set_mono h

theorem KLfu.put_bucketHas (s : KLfu) (k : Key) (v : Val) (f : Int)
    (h : bucketHas s.freqMap f = true) :
    bucketHas (s.put k v).freqMap f = true := by
  unfold KLfu.put
  split
  · exact h
  · cases hq : nodesFind s.nodes k with
    | some n =>
      dsimp only
      exact KLfu.getInternal_bucketHas _ k f h
    | none =>
      dsimp only
      exact KLfu.putInternal_bucketHas s k v f h

theorem KLfu.get_bucketHas (s : KLfu) (k : Key) (vin : Val) (f : Int)
    (h : bucketHas s.freqMap f = true) :
    bucketHas (s.get k vin).2.2.freqMap f = true := by
  unfold KLfu.get
  cases hq : nodesFind s.nodes k with
  | some n =>
    dsimp only
    exact KLfu.getInternal_bucketHas s k f h
  | none => exact h

/-- C4 counterexample: on KLfuCache(2), put(1, 5) then get(1) leaves
the frequency-1 FreqList in the map although it is now empty (so a
bucket is not removed the instant it empties), and the smallest
frequency present in the map is 1 while the tracked minFreq is 2 (so
the map minimum key does not equal minFreq). -/
theorem lfu_empty_bucket_cex :
    bucketHas (((mkKLfu 2).put 1 5).get 1 0).2.2.freqMap 1 = true ∧
    bucketGet (((mkKLfu 2).put 1 5).get 1 0).2.2.freqMap 1 = [] ∧
    (((mkKLfu 2).put 1 5).get 1 0).2.2.minFreq = 2 ∧
    mapFreqs ((((mkKLfu 2).put 1 5).get 1 0).2.2.freqMap) = [1, 2] := by
  decide

/-- C4 amended: the invariant the LFU engine really maintains.  A fresh
cache is well-formed, and every put and get preserves well-formedness,
which states (among structural consistency of the two maps) that while
the cache is non-empty the tracked minFreq is the smallest frequency
whose FreqList is NON-EMPTY.  Emptied FreqList objects are never removed
from the map: bucketHas is monotone across put and get, so the smallest
map key can be strictly below minFreq.  KLfuCache::kickOut itself never
recomputes minFreq; the insertion that follows it inside putInternal
resets minFreq to 1, which restores the invariant. -/
theorem lfu_minfreq_invariant :
    (∀ c : Int, (mkKLfu c).Wf) ∧
    (∀ (s : KLfu) (k : Key) (v : Val), s.Wf → (s.put k v).Wf) ∧
    (∀ (s : KLfu) (k : Key) (vin : Val), s.Wf → ((s.get k vin).2.2).Wf) ∧
    (∀ (s : KLfu) (k : Key) (v : Val) (f : Int),
      bucketHas s.freqMap f = true → bucketHas (s.put k v).freqMap f = true) ∧
    (∀ (s : KLfu) (k : Key) (vin : Val) (f : Int),
      bucketHas s.freqMap f = true →
        bucketHas ((s.get k vin).2.2).freqMap f = true) := by
  exact ⟨mkKLfu_wf, KLfu.put_wf, KLfu.get_wf, KLfu.put_bucketHas, KLfu.get_bucketHas⟩

/-- C4 amended witness: well-formedness flows through a concrete put
and get, and the frequency-1 bucket persists. -/
theorem lfu_minfreq_invariant_witness :
    (mkKLfu 2).Wf ∧
    (((mkKLfu 2).put 1 5).get 1 0).2.2.Wf ∧
    bucketHas ((((mkKLfu 2).put 1 5).get 1 0).2.2).freqMap 1 = true :=
  ⟨lfu_minfreq_invariant.1 2,
   lfu_minfreq_invariant.2.2.1 ((mkKLfu 2).put 1 5) 1 0
     (lfu_minfreq_invariant.2.1 (mkKLfu 2) 1 5 (lfu_minfreq_invariant.1 2)),
   lfu_minfreq_invariant.2.2.2.2 ((mkKLfu 2).put 1 5) 1 0 1 (by decide)⟩

/-! ### KLfuAgingCache aging pass (C5) -/

theorem nodesFind_of_mem {l : List LfuNode} {x : LfuNode}
    (hnd : (lfuKeys l).Nodup) (hx : x ∈ l) : nodesFind l x.key = some x := by
  cases hf : nodesFind l x.key with
  | none =>
    exact absurd (List.mem_map.mpr ⟨x, hx, rfl⟩) (not_mem_of_nodesFind_eq_none hf)
  | some y =>
    have hy : y = x := lfu_node_unique hnd (nodesFind_mem hf) hx (nodesFind_key hf)
    rw [hy]

theorem one_le_agedFreq (M f : Int) : 1 ≤ agedFreq M f := by
  unfold agedFreq
  dsimp only
  split <;> omega

theorem agedFreq_eq (M f : Int) :
    agedFreq M f = if f - Int.tdiv M 2 < 1 then 1 else f - Int.tdiv M 2 := rfl

theorem agingStepNode_of_find_none (M : Int) (b : KLfu) (k : Key)
    (hf : nodesFind b.nodes k = none) : agingStepNode M b k = b := by
  unfold agingStepNode
  rw [hf]

theorem agingStepNode_of_find_some (M : Int) (b : KLfu) (k : Key) {cur : LfuNode}
    (hf : nodesFind b.nodes k = some cur) :
    (agingStepNode M b k).nodes
      = nodesUpdate b.nodes k (fun _ => { cur with freq := agedFreq M cur.freq }) ∧
    (agingStepNode M b k).freqMap
      = bucketSet (bucketSet b.freqMap cur.freq ((bucketGet b.freqMap cur.freq).erase cur.key))
          (agedFreq M cur.freq)
          (bucketGet
            (bucketSet b.freqMap cur.freq ((bucketGet b.freqMap cur.freq).erase cur.key))
            (agedFreq M cur.freq) ++ [cur.key]) ∧
    (agingStepNode M b k).minFreq = b.minFreq ∧
    (agingStepNode M b k).capacity = b.capacity := by
  unfold agingStepNode KLfu.removeFromFreqList KLfu.addToFreqList
  rw [hf]
  exact ⟨rfl, rfl, rfl, rfl⟩

theorem agingStepNode_minFreq_capacity (M : Int) (b : KLfu) (k : Key) :
    (agingStepNode M b k).minFreq = b.minFreq ∧
    (agingStepNode M b k).capacity = b.capacity := by
  cases hf : nodesFind b.nodes k with
  | none => rw [agingStepNode_of_find_none M b k hf]; exact ⟨rfl, rfl⟩
  | some cur => exact ⟨(agingStepNode_of_find_some M b k hf).2.2.1,
      (agingStepNode_of_find_some M b k hf).2.2.2⟩

theorem agingStepNode_find_ne (M : Int) (b : KLfu) {k j : Key} (hne : j ≠ k) :
    nodesFind (agingStepNode M b k).nodes j = nodesFind b.nodes j := by
  cases hf : nodesFind b.nodes k with
  | none => rw [agingStepNode_of_find_none M b k hf]
  | some cur =>
    rw [(agingStepNode_of_find_some M b k hf).1]
    have hk := nodesFind_key hf
    exact nodesFind_nodesUpdate_ne (fun m _ => hk) hne

theorem agingStepNode_find_self (M : Int) (b : KLfu) (k : Key) :
    nodesFind (agingStepNode M b k).nodes k
      = (nodesFind b.nodes k).map (fun n => { n with freq := agedFreq M n.freq }) := by
  cases hf : nodesFind b.nodes k with
  | none => rw [agingStepNode_of_find_none M b k hf, hf]; rfl
  | some cur =>
    rw [(agingStepNode_of_find_some M b k hf).1]
    have hk := nodesFind_key hf
    have hkp : ∀ m : LfuNode, m.key = k →
        ((fun _ : LfuNode => ({ cur with freq := agedFreq M cur.freq } : LfuNode)) m).key = k :=
      fun _ _ => hk
    rw [nodesFind_nodesUpdate_self hkp, hf]
    rfl

/-- One aging step preserves the structural core of well-formedness
(everything except the minFreq tracking, which handleOverMaxAverageNum
repairs afterwards with updateMinFreq). -/
theorem agingStepNode_core (M : Int) (b : KLfu) (k : Key)
    (hndN : (lfuKeys b.nodes).Nodup)
    (hndM : (mapFreqs b.freqMap).Nodup)
    (hndB : ∀ p ∈ b.freqMap, p.2.Nodup)
    (hNB : ∀ n ∈ b.nodes, n.key ∈ bucketGet b.freqMap n.freq)
    (hBN : ∀ p ∈ b.freqMap, ∀ j ∈ p.2, ∃ n ∈ b.nodes, n.key = j ∧ n.freq = p.1)
    (hF1 : ∀ n ∈ b.nodes, 1 ≤ n.freq) :
    (lfuKeys (agingStepNode M b k).nodes).Nodup ∧
    (mapFreqs (agingStepNode M b k).freqMap).Nodup ∧
    (∀ p ∈ (agingStepNode M b k).freqMap, p.2.Nodup) ∧
    (∀ n ∈ (agingStepNode M b k).nodes,
      n.key ∈ bucketGet (agingStepNode M b k).freqMap n.freq) ∧
    (∀ p ∈ (agingStepNode M b k).freqMap, ∀ j ∈ p.2,
      ∃ n ∈ (agingStepNode M b k).nodes, n.key = j ∧ n.freq = p.1) ∧
    (∀ n ∈ (agingStepNode M b k).nodes, 1 ≤ n.freq) := by
  cases hf : nodesFind b.nodes k with
  | none =>
    rw [agingStepNode_of_find_none M b k hf]
    exact ⟨hndN, hndM, hndB, hNB, hBN, hF1⟩
  | some cur =>
    have hk := nodesFind_key hf
    subst hk
    have hmem : cur ∈ b.nodes := nodesFind_mem hf
    have huniq : ∀ g : Int, g ≠ cur.freq → cur.key ∉ bucketGet b.freqMap g := by
      intro g hg hc
      have hne2 : bucketGet b.freqMap g ≠ [] := by
        intro hE; rw [hE] at hc; exact absurd hc (by simp)
      obtain ⟨x, hx, hxk, hxf⟩ := hBN _ (mem_of_bucketGet_ne hne2) _ hc
      have := lfu_node_unique hndN hx hmem hxk
      rw [this] at hxf
      exact hg hxf.symm
    obtain ⟨hEqN, hEqM, _, _⟩ := agingStepNode_of_find_some M b cur.key hf
    rw [hEqN, hEqM]
    set f2 := agedFreq M cur.freq with hf2def
    set m1 := bucketSet b.freqMap cur.freq ((bucketGet b.freqMap cur.freq).erase cur.key)
      with hm1def
    set m2 := bucketSet m1 f2 (bucketGet m1 f2 ++ [cur.key]) with hm2def
    set nodes2 := nodesUpdate b.nodes cur.key
      (fun _ => ({ cur with freq := f2 } : LfuNode)) with hn2def
    have hkeypres : ∀ m : LfuNode, m.key = cur.key →
        ((fun _ : LfuNode => ({ cur with freq := f2 } : LfuNode)) m).key = cur.key :=
      fun _ _ => rfl
    have hG : ∀ g : Int, bucketGet m2 g
        = ((bucketGet b.freqMap g).erase cur.key)
            ++ (if g = f2 then [cur.key] else []) := by
      intro g
      by_cases hgf2 : g = f2
      · rw [if_pos hgf2, hgf2, hm2def, bucketGet_set_self]
        by_cases hEq : f2 = cur.freq
        · rw [hm1def, hEq, bucketGet_set_self]
        · rw [hm1def, bucketGet_set_ne hEq, List.erase_of_not_mem (huniq f2 hEq)]
      · rw [if_neg hgf2, List.append_nil, hm2def, bucketGet_set_ne hgf2]
        by_cases hgc : g = cur.freq
        · rw [hgc, hm1def, bucketGet_set_self]
        · rw [hm1def, bucketGet_set_ne hgc, List.erase_of_not_mem (huniq g hgc)]
    have hm1nd : (mapFreqs m1).Nodup := by
      rw [hm1def]; exact mapFreqs_bucketSet_nodup hndM
    have hm2nd : (mapFreqs m2).Nodup := by
      rw [hm2def]; exact mapFreqs_bucketSet_nodup hm1nd
    have HndN : (lfuKeys nodes2).Nodup := by
      rw [hn2def, lfuKeys_nodesUpdate hkeypres]; exact hndN
    refine ⟨HndN, hm2nd, ?_, ?_, ?_, ?_⟩
    · intro p hp
      obtain ⟨g, L⟩ := p
      have hL : bucketGet m2 g = L := bucketGet_eq_of_mem hm2nd hp
      rw [← hL, hG g]
      by_cases hgf2 : g = f2
      · rw [if_pos hgf2]
        exact nodup_key_append ((bucketGet_nodup hndB g).erase _)
          ((bucketGet_nodup hndB g).not_mem_erase)
      · rw [if_neg hgf2, List.append_nil]
        exact (bucketGet_nodup hndB g).erase _
    · intro x hx
      obtain ⟨m0, hm0, rfl⟩ := mem_nodesUpdate (hn2def ▸ hx)
      by_cases hkey : m0.key = cur.key
      · rw [if_pos hkey]
        dsimp only
        rw [hG f2, if_pos rfl]
        exact List.mem_append_right _ (by simp)
      · rw [if_neg hkey]
        rw [hG m0.freq]
        refine List.mem_append_left _ ?_
        rw [List.mem_erase_of_ne hkey]
        exact hNB m0 hm0
    · intro p hp j hj
      obtain ⟨g, L⟩ := p
      have hL : bucketGet m2 g = L := bucketGet_eq_of_mem hm2nd hp
      rw [← hL, hG g] at hj
      dsimp only at hj ⊢
      rcases List.mem_append.mp hj with hj1 | hj1
      · have hnd := bucketGet_nodup hndB g
        obtain ⟨hjne, hjm⟩ := (List.Nodup.mem_erase_iff hnd).mp hj1
        have hne2 : bucketGet b.freqMap g ≠ [] := by
          intro hE; rw [hE] at hjm; exact absurd hjm (by simp)
        obtain ⟨x, hx, hxk, hxf⟩ := hBN _ (mem_of_bucketGet_ne hne2) _ hjm
        have hxne : x.key ≠ cur.key := by rw [hxk]; exact hjne
        refine ⟨x, ?_, hxk, hxf⟩
        have := mem_nodesUpdate_of_mem
          (k := cur.key) (f := fun _ => ({ cur with freq := f2 } : LfuNode)) hx
        rw [if_neg hxne] at this
        exact hn2def ▸ this
      · by_cases hgf2 : g = f2
        · rw [if_pos hgf2] at hj1
          simp only [List.mem_singleton] at hj1
          subst hj1
          refine ⟨{ cur with freq := f2 }, ?_, rfl, hgf2.symm⟩
          have := mem_nodesUpdate_of_mem
            (k := cur.key) (f := fun _ => ({ cur with freq := f2 } : LfuNode)) hmem
          rw [if_pos rfl] at this
          exact hn2def ▸ this
        · rw [if_neg hgf2] at hj1
          exact absurd hj1 (by simp)
    · intro x hx
      obtain ⟨m0, hm0, rfl⟩ := mem_nodesUpdate (hn2def ▸ hx)
      by_cases hkey : m0.key = cur.key
      · rw [if_pos hkey]
        exact one_le_agedFreq M cur.freq
      · rw [if_neg hkey]
        exact hF1 m0 hm0

/-- The handleOverMaxAverageNum loop (a fold of aging steps over a
duplicate-free key list) preserves the structural core, ages exactly the
listed keys, and leaves minFreq and capacity untouched. -/
theorem aging_foldl_spec (M : Int) :
    ∀ (ks : List Key) (b : KLfu), ks.Nodup →
    (lfuKeys b.nodes).Nodup →
    (mapFreqs b.freqMap).Nodup →
    (∀ p ∈ b.freqMap, p.2.Nodup) →
    (∀ n ∈ b.nodes, n.key ∈ bucketGet b.freqMap n.freq) →
    (∀ p ∈ b.freqMap, ∀ j ∈ p.2, ∃ n ∈ b.nodes, n.key = j ∧ n.freq = p.1) →
    (∀ n ∈ b.nodes, 1 ≤ n.freq) →
    (lfuKeys (ks.foldl (agingStepNode M) b).nodes).Nodup ∧
    (mapFreqs (ks.foldl (agingStepNode M) b).freqMap).Nodup ∧
    (∀ p ∈ (ks.foldl (agingStepNode M) b).freqMap, p.2.Nodup) ∧
    (∀ n ∈ (ks.foldl (agingStepNode M) b).nodes,
      n.key ∈ bucketGet (ks.foldl (agingStepNode M) b).freqMap n.freq) ∧
    (∀ p ∈ (ks.foldl (agingStepNode M) b).freqMap, ∀ j ∈ p.2,
      ∃ n ∈ (ks.foldl (agingStepNode M) b).nodes, n.key = j ∧ n.freq = p.1) ∧
    (∀ n ∈ (ks.foldl (agingStepNode M) b).nodes, 1 ≤ n.freq) ∧
    (∀ j ∈ ks, nodesFind (ks.foldl (agingStepNode M) b).nodes j
      = (nodesFind b.nodes j).map (fun n => { n with freq := agedFreq M n.freq })) ∧
    (∀ j, j ∉ ks →
      nodesFind (ks.foldl (agingStepNode M) b).nodes j = nodesFind b.nodes j) ∧
    (ks.foldl (agingStepNode M) b).minFreq = b.minFreq ∧
    (ks.foldl (agingStepNode M) b).capacity = b.capacity := by
  intro ks
  induction ks with
  | nil =>
    intro b _ h1 h2 h3 h4 h5 h6
    exact ⟨h1, h2, h3, h4, h5, h6, by simp, fun j _ => rfl, rfl, rfl⟩
  | cons a t ih =>
    intro b hnd h1 h2 h3 h4 h5 h6
    rw [List.nodup_cons] at hnd
    obtain ⟨hat, hndt⟩ := hnd
    obtain ⟨c1, c2, c3, c4, c5, c6⟩ := agingStepNode_core M b a h1 h2 h3 h4 h5 h6
    obtain ⟨d1, d2, d3, d4, d5, d6, dproc, dskip, dmin, dcap⟩ :=
      ih (agingStepNode M b a) hndt c1 c2 c3 c4 c5 c6
    rw [List.foldl_cons]
    refine ⟨d1, d2, d3, d4, d5, d6, ?_, ?_, ?_, ?_⟩
    · intro j hj
      rcases List.mem_cons.mp hj with rfl | hjt
      · rw [dskip j hat, agingStepNode_find_self]
      · have hja : j ≠ a := fun hE => hat (hE ▸ hjt)
        rw [dproc j hjt, agingStepNode_find_ne M b hja]
    · intro j hj
      simp only [List.mem_cons, not_or] at hj
      rw [dskip j hj.2, agingStepNode_find_ne M b hj.1]
    · rw [dmin, (agingStepNode_minFreq_capacity M b a).1]
    · rw [dcap, (agingStepNode_minFreq_capacity M b a).2]

/-- The updateMinFreq scan: the fold result is below the start value,
below every non-empty bucket frequency, and is either the start value or
a non-empty bucket frequency. -/
theorem foldl_min_bucket (l : List (Int × List Key)) :
    ∀ a : Int,
    (l.foldl (fun acc p => if p.2 ≠ [] then min acc p.1 else acc) a ≤ a) ∧
    (∀ p ∈ l, p.2 ≠ [] →
      l.foldl (fun acc p => if p.2 ≠ [] then min acc p.1 else acc) a ≤ p.1) ∧
    (l.foldl (fun acc p => if p.2 ≠ [] then min acc p.1 else acc) a = a ∨
      ∃ p ∈ l, p.2 ≠ [] ∧
        p.1 = l.foldl (fun acc p => if p.2 ≠ [] then min acc p.1 else acc) a) := by
  induction l with
  | nil => exact fun a => ⟨le_refl a, by simp, Or.inl rfl⟩
  | cons q t ih =>
    intro a
    rw [List.foldl_cons]
    by_cases hq : q.2 ≠ []
    · rw [if_pos hq]
      obtain ⟨ih1, ih2, ih3⟩ := ih (min a q.1)
      refine ⟨le_trans ih1 (min_le_left _ _), ?_, ?_⟩
      · intro p hp hpne
        rcases List.mem_cons.mp hp with rfl | hpt
        · exact le_trans ih1 (min_le_right _ _)
        · exact ih2 p hpt hpne
      · rcases ih3 with hE | ⟨p, hp, hpne, hpf⟩
        · rcases min_cases a q.1 with ⟨hm, _⟩ | ⟨hm, _⟩
          · exact Or.inl (hE.trans hm)
          · exact Or.inr ⟨q, List.mem_cons_self q t, hq, (hE.trans hm).symm⟩
        · exact Or.inr ⟨p, List.mem_cons_of_mem q hp, hpne, hpf⟩
    · rw [if_neg hq]
      obtain ⟨ih1, ih2, ih3⟩ := ih a
      refine ⟨ih1, ?_, ?_⟩
      · intro p hp hpne
        rcases List.mem_cons.mp hp with rfl | hpt
        · exact absurd hpne hq
        · exact ih2 p hpt hpne
      · rcases ih3 with hE | ⟨p, hp, hpne, hpf⟩
        · exact Or.inl hE
        · exact Or.inr ⟨p, List.mem_cons_of_mem q hp, hpne, hpf⟩

theorem KLfuAging.updateMinFreq_base_parts (s : KLfuAging) :
    s.updateMinFreq.base.nodes = s.base.nodes ∧
    s.updateMinFreq.base.freqMap = s.base.freqMap ∧
    s.updateMinFreq.base.capacity = s.base.capacity ∧
    s.updateMinFreq.curTotalNum = s.curTotalNum ∧
    s.updateMinFreq.curAverageNum = s.curAverageNum ∧
    s.updateMinFreq.maxAverageNum = s.maxAverageNum := by
  unfold KLfuAging.updateMinFreq
  exact ⟨rfl, rfl, rfl, rfl, rfl, rfl⟩

/-- updateMinFreq on a state with at least one non-empty bucket and all
non-empty bucket frequencies below the INT8_MAX sentinel really sets
minFreq to the smallest non-empty bucket frequency. -/
theorem KLfuAging.updateMinFreq_spec (s : KLfuAging)
    (hub : ∀ p ∈ s.base.freqMap, p.2 ≠ [] → p.1 < 127)
    (hne : ∃ p ∈ s.base.freqMap, p.2 ≠ []) :
    (∀ p ∈ s.base.freqMap, p.2 ≠ [] → s.updateMinFreq.base.minFreq ≤ p.1) ∧
    (∃ p ∈ s.base.freqMap, p.2 ≠ [] ∧ p.1 = s.updateMinFreq.base.minFreq) := by
  obtain ⟨hstart, hbound, hattain⟩ := foldl_min_bucket s.base.freqMap 127
  obtain ⟨p0, hp0, hp0ne⟩ := hne
  have hlt : s.base.freqMap.foldl
      (fun acc p => if p.2 ≠ [] then min acc p.1 else acc) 127 < 127 :=
    lt_of_le_of_lt (hbound p0 hp0 hp0ne) (hub p0 hp0 hp0ne)
  have hbeq : (s.base.freqMap.foldl
      (fun acc p => if p.2 ≠ [] then min acc p.1 else acc) 127 == 127) = false := by
    rw [beq_eq_false_iff_ne]
    omega
  have hmf : s.updateMinFreq.base.minFreq
      = s.base.freqMap.foldl (fun acc p => if p.2 ≠ [] then min acc p.1 else acc) 127 := by
    unfold KLfuAging.updateMinFreq
    dsimp only
    rw [hbeq]
    rfl
  rw [hmf]
  refine ⟨hbound, ?_⟩
  rcases hattain with hE | hA
  · omega
  · exact hA

theorem aging_foldl_capacity (M : Int) :
    ∀ (ks : List Key) (b : KLfu),
    (ks.foldl (agingStepNode M) b).capacity = b.capacity := by
  intro ks
  induction ks with
  | nil => exact fun b => rfl
  | cons a t ih =>
    intro b
    rw [List.foldl_cons, ih (agingStepNode M b a),
      (agingStepNode_minFreq_capacity M b a).2]

theorem KLfuAging.handleOver_counts (s : KLfuAging) :
    s.handleOverMaxAverageNum.curTotalNum = s.curTotalNum ∧
    s.handleOverMaxAverageNum.curAverageNum = s.curAverageNum ∧
    s.handleOverMaxAverageNum.maxAverageNum = s.maxAverageNum ∧
    s.handleOverMaxAverageNum.base.capacity = s.base.capacity := by
  unfold KLfuAging.handleOverMaxAverageNum KLfuAging.updateMinFreq
  dsimp only
  split
  · exact ⟨rfl, rfl, rfl, rfl⟩
  · exact ⟨rfl, rfl, rfl, aging_foldl_capacity s.maxAverageNum _ s.base⟩

theorem KLfuAging.handleOver_of_empty (s : KLfuAging) (h : s.base.nodes = []) :
    s.handleOverMaxAverageNum = s := by
  unfold KLfuAging.handleOverMaxAverageNum
  rw [if_pos (List.isEmpty_iff.mpr h)]

/-- handleOverMaxAverageNum on a well-formed non-empty cache: every
resident node is aged (half the ceiling subtracted, floored at 1), every
node sits in the bucket of its new frequency, and — as long as the aged
frequencies stay below the INT8_MAX scan sentinel — minFreq is
recomputed to the smallest non-empty bucket frequency. -/
theorem KLfuAging.handleOver_spec (s : KLfuAging) (hW : s.base.Wf)
    (hne : s.base.nodes ≠ []) :
    (∀ j, nodesFind s.handleOverMaxAverageNum.base.nodes j
        = (nodesFind s.base.nodes j).map
            (fun n => { n with freq := agedFreq s.maxAverageNum n.freq })) ∧
    (∀ x ∈ s.handleOverMaxAverageNum.base.nodes,
        x.key ∈ bucketGet s.handleOverMaxAverageNum.base.freqMap x.freq) ∧
    ((∀ x ∈ s.base.nodes, agedFreq s.maxAverageNum x.freq < 127) →
      (∀ p ∈ s.handleOverMaxAverageNum.base.freqMap, p.2 ≠ [] →
          s.handleOverMaxAverageNum.base.minFreq ≤ p.1) ∧
      (∃ p ∈ s.handleOverMaxAverageNum.base.freqMap, p.2 ≠ [] ∧
          p.1 = s.handleOverMaxAverageNum.base.minFreq)) := by
  obtain ⟨hndN, hndM, hndB, hNB, hBN, hF1, hM1, h8, h9⟩ := hW
  have hisE : ¬(s.base.nodes.isEmpty = true) := fun h => hne (List.isEmpty_iff.mp h)
  unfold KLfuAging.handleOverMaxAverageNum
  rw [if_neg hisE]
  dsimp only
  have hndN2 : (s.base.nodes.map (fun n => n.key)).Nodup := hndN
  obtain ⟨e1, e2, e3, e4, e5, e6, eproc, eskip, emin, ecap⟩ :=
    aging_foldl_spec s.maxAverageNum (s.base.nodes.map (fun n => n.key)) s.base
      hndN2 hndN hndM hndB hNB hBN hF1
  set B := (s.base.nodes.map (fun n => n.key)).foldl (agingStepNode s.maxAverageNum) s.base
    with hBdef
  have hTn : (({ s with base := B } : KLfuAging).updateMinFreq).base.nodes = B.nodes :=
    (KLfuAging.updateMinFreq_base_parts _).1
  have hTm : (({ s with base := B } : KLfuAging).updateMinFreq).base.freqMap = B.freqMap :=
    (KLfuAging.updateMinFreq_base_parts _).2.1
  refine ⟨?_, ?_, ?_⟩
  · intro j
    rw [hTn]
    by_cases hj : j ∈ s.base.nodes.map (fun n => n.key)
    · exact eproc j hj
    · rw [eskip j hj]
      cases hfj : nodesFind s.base.nodes j with
      | some n => exact absurd (mem_lfuKeys_of_find hfj) hj
      | none => rfl
  · intro x hx
    rw [hTn] at hx
    rw [hTm]
    exact e4 x hx
  · intro hlt
    have hub : ∀ p ∈ B.freqMap, p.2 ≠ [] → p.1 < 127 := by
      intro p hp hpne
      obtain ⟨j, hj⟩ := List.exists_mem_of_ne_nil _ hpne
      obtain ⟨x, hx, hxk, hxf⟩ := e5 p hp j hj
      have hxkeys : x.key ∈ s.base.nodes.map (fun n => n.key) := by
        by_contra hxabs
        have hfx := nodesFind_of_mem e1 hx
        rw [eskip x.key hxabs] at hfx
        exact hxabs (mem_lfuKeys_of_find hfx)
      have hfx := nodesFind_of_mem e1 hx
      rw [eproc x.key hxkeys] at hfx
      cases hfy : nodesFind s.base.nodes x.key with
      | none => rw [hfy] at hfx; exact absurd hfx (by simp)
      | some y =>
        rw [hfy] at hfx
        have hxy : x = { y with freq := agedFreq s.maxAverageNum y.freq } := by
          simpa using hfx.symm
        have hyf := hlt y (nodesFind_mem hfy)
        rw [← hxf, hxy]
        exact hyf
    have hex : ∃ p ∈ B.freqMap, p.2 ≠ [] := by
      obtain ⟨x0, hx0⟩ := List.exists_mem_of_ne_nil _ hne
      have hfx0 := nodesFind_of_mem hndN hx0
      have hkx0 : x0.key ∈ s.base.nodes.map (fun n => n.key) :=
        List.mem_map.mpr ⟨x0, hx0, rfl⟩
      have hfB := eproc x0.key hkx0
      rw [hfx0] at hfB
      have hmemB : ({ x0 with freq := agedFreq s.maxAverageNum x0.freq } : LfuNode)
          ∈ B.nodes := nodesFind_mem hfB
      have hb := e4 _ hmemB
      have hbne : bucketGet B.freqMap
          ({ x0 with freq := agedFreq s.maxAverageNum x0.freq } : LfuNode).freq ≠ [] := by
        intro hE; rw [hE] at hb; exact absurd hb (by simp)
      exact ⟨_, mem_of_bucketGet_ne hbne, hbne⟩
    have hspec := KLfuAging.updateMinFreq_spec ({ s with base := B } : KLfuAging) hub hex
    rw [hTm]
    exact hspec

theorem KLfuAging.addFreqNum_counts (s : KLfuAging) :
    s.addFreqNum.curTotalNum = s.curTotalNum + 1 ∧
    s.addFreqNum.curAverageNum =
      (if s.base.nodes.isEmpty then 0
       else Int.tdiv (s.curTotalNum + 1) (Int.ofNat s.base.nodes.length)) := by
  unfold KLfuAging.addFreqNum
  dsimp only
  by_cases htrig : (if s.base.nodes.isEmpty then 0
      else Int.tdiv (s.curTotalNum + 1) (Int.ofNat s.base.nodes.length)) > s.maxAverageNum
  · rw [if_pos htrig]
    exact ⟨((KLfuAging.handleOver_counts _).1).trans rfl,
      ((KLfuAging.handleOver_counts _).2.1).trans rfl⟩
  · rw [if_neg htrig]
    exact ⟨rfl, rfl⟩

/-- C5: the aging engine recomputes the average on every access
(getInternal is the base read followed by addFreqNum) and on every
insertion (putInternal accounting): addFreqNum bumps the running total
by one and sets the average to total over resident count (C++ truncating
int division, 0 on an empty cache).  When the new average does not
exceed maxAverageNum the engine state is untouched; when it strictly
exceeds it, every resident node's frequency is reduced by half the
ceiling with a floor of 1, every node ends up in the bucket of its new
frequency, and minFreq is recomputed by the scan over non-empty buckets
— exactly the smallest non-empty bucket frequency whenever the aged
frequencies stay below the INT8_MAX scan sentinel. -/
theorem lfu_aging_spec :
    (∀ (s : KLfuAging) (k : Key),
      (s.getInternalAging k).2
        = ({ s with base := (s.base.getInternal k).2 } : KLfuAging).addFreqNum) ∧
    (∀ s : KLfuAging,
      s.addFreqNum.curTotalNum = s.curTotalNum + 1 ∧
      s.addFreqNum.curAverageNum =
        (if s.base.nodes.isEmpty then 0
         else Int.tdiv (s.curTotalNum + 1) (Int.ofNat s.base.nodes.length))) ∧
    (∀ (s : KLfuAging) (k : Key) (v : Val),
      ¬(0 ≤ s.base.capacity ∧ s.base.nodes.length = s.base.capacity.toNat) →
      (s.putInternalAging k v).curTotalNum = s.curTotalNum + 1 ∧
      (s.putInternalAging k v).curAverageNum
        = Int.tdiv (s.curTotalNum + 1) (Int.ofNat (s.base.nodes.length + 1))) ∧
    (∀ s : KLfuAging,
      ¬((if s.base.nodes.isEmpty then 0
         else Int.tdiv (s.curTotalNum + 1) (Int.ofNat s.base.nodes.length))
          > s.maxAverageNum) →
      s.addFreqNum.base = s.base) ∧
    (∀ s : KLfuAging, s.base.Wf →
      ((if s.base.nodes.isEmpty then 0
        else Int.tdiv (s.curTotalNum + 1) (Int.ofNat s.base.nodes.length))
         > s.maxAverageNum) →
      (∀ j, nodesFind s.addFreqNum.base.nodes j
          = (nodesFind s.base.nodes j).map
              (fun n => { n with freq := agedFreq s.maxAverageNum n.freq })) ∧
      (∀ x ∈ s.addFreqNum.base.nodes,
          x.key ∈ bucketGet s.addFreqNum.base.freqMap x.freq) ∧
      ((∀ x ∈ s.base.nodes, agedFreq s.maxAverageNum x.freq < 127) →
        (∀ p ∈ s.addFreqNum.base.freqMap, p.2 ≠ [] →
            s.addFreqNum.base.minFreq ≤ p.1) ∧
        (s.base.nodes ≠ [] →
          ∃ p ∈ s.addFreqNum.base.freqMap, p.2 ≠ [] ∧
              p.1 = s.addFreqNum.base.minFreq))) := by
  refine ⟨fun s k => rfl, KLfuAging.addFreqNum_counts, ?_, ?_, ?_⟩
  · intro s k v hcap
    unfold KLfuAging.putInternalAging
    rw [if_neg hcap]
    dsimp only
    constructor
    · rw [(KLfuAging.addFreqNum_counts _).1]
    · rw [(KLfuAging.addFreqNum_counts _).2]
      simp [KLfu.addToFreqList]
  · intro s hno
    unfold KLfuAging.addFreqNum
    dsimp only
    rw [if_neg hno]
  · intro s hW htrig
    have hEq : s.addFreqNum
        = ({ s with
             curTotalNum := s.curTotalNum + 1,
             curAverageNum := (if s.base.nodes.isEmpty then 0 else Int.tdiv (s.curTotalNum + 1) (Int.ofNat s.base.nodes.length)) }
            : KLfuAging).handleOverMaxAverageNum := by
      unfold KLfuAging.addFreqNum
      dsimp only
      rw [if_pos htrig]
    rw [hEq]
    by_cases hnil : s.base.nodes = []
    · have hid := KLfuAging.handleOver_of_empty
        ({ s with
           curTotalNum := s.curTotalNum + 1,
           curAverageNum := (if s.base.nodes.isEmpty then 0 else Int.tdiv (s.curTotalNum + 1) (Int.ofNat s.base.nodes.length)) }
          : KLfuAging) hnil
      rw [hid]
      obtain ⟨_, _, _, _, hBN, _, _, _, _⟩ := hW
      refine ⟨?_, ?_, ?_⟩
      · intro j
        dsimp only
        rw [hnil]
        rfl
      · intro x hx
        dsimp only at hx
        rw [hnil] at hx
        exact absurd hx (by simp)
      · intro _
        constructor
        · intro p hp hpne
          obtain ⟨j, hj⟩ := List.exists_mem_of_ne_nil _ hpne
          obtain ⟨x, hx, _, _⟩ := hBN p hp j hj
          rw [hnil] at hx
          exact absurd hx (by simp)
        · intro hne
          exact absurd hnil hne
    · have hspec := KLfuAging.handleOver_spec
        ({ s with
           curTotalNum := s.curTotalNum + 1,
           curAverageNum := (if s.base.nodes.isEmpty then 0 else Int.tdiv (s.curTotalNum + 1) (Int.ofNat s.base.nodes.length)) }
          : KLfuAging) hW hnil
      exact ⟨hspec.1, hspec.2.1, fun hlt => ⟨(hspec.2.2 hlt).1, fun _ => (hspec.2.2 hlt).2⟩⟩

/-- C5 witness: on a two-slot aging cache holding one node with
ceiling 0 and accumulated total 41, the forced aging pass leaves the
node at frequency max(1, 1 - 0/2) = 1; and a fresh insertion bumps the
running total to 1. -/
theorem lfu_aging_spec_witness :
    nodesFind ((({ base := (mkKLfu 2).put 1 5, maxAverageNum := 0, curTotalNum := 41, curAverageNum := 0 } : KLfuAging).addFreqNum).base.nodes) 1
      = some { key := 1, value := 5, freq := 1 } ∧
    ((({ base := mkKLfu 2, maxAverageNum := 10, curTotalNum := 0, curAverageNum := 0 } : KLfuAging).putInternalAging 7 9).curTotalNum = 1) := by
  constructor
  · have h := (lfu_aging_spec.2.2.2.2
      ({ base := (mkKLfu 2).put 1 5, maxAverageNum := 0, curTotalNum := 41, curAverageNum := 0 } : KLfuAging)
      (KLfu.put_wf (mkKLfu 2) 1 5 (mkKLfu_wf 2)) (by decide)).1 1
    rw [h]
    decide
  · have h := (lfu_aging_spec.2.2.1
      ({ base := mkKLfu 2, maxAverageNum := 10, curTotalNum := 0, curAverageNum := 0 } : KLfuAging) 7 9 (by decide)).1
    rw [h]
    decide

/-! ### Put/get round trips (C6) -/

theorem KLru.put_get_roundtrip (s : KLru) (k : Key) (v : Val) (vin : Val)
    (hc : 0 < s.capacity) (hnd : (keysOf s.entries).Nodup) :
    ((s.put k v).get k vin).1 = true ∧ ((s.put k v).get k vin).2.1 = v := by
  have hf : findKey (s.put k v).entries k = some (k, v) :=
    KLru.put_findKey_self hc hnd
  rw [KLru.get_of_findKey_some hf]
  exact ⟨rfl, rfl⟩

theorem KLruK.put_main (s : KLruK) (k : Key) (v : Val)
    (hcond : s.main.containsKey k = true ∨
      ((s.history.getVal k).1 : Int) + 1 ≥ s.kThreshold) :
    (s.put k v).main = s.main.put k v := by
  by_cases hc1 : s.main.containsKey k = true
  · unfold KLruK.put
    rw [if_pos hc1]
  · rcases hcond with hcond | hth
    · exact absurd hcond hc1
    · unfold KLruK.put
      rw [if_neg hc1]
      dsimp only
      rw [if_pos hth]

theorem KLruK.put_get_roundtrip_lruk (s : KLruK) (k : Key) (v : Val) (vin : Val)
    (hc : 0 < s.main.capacity) (hnd : (keysOf s.main.entries).Nodup)
    (hcond : s.main.containsKey k = true ∨
      ((s.history.getVal k).1 : Int) + 1 ≥ s.kThreshold) :
    ((s.put k v).get k vin).1 = true ∧ ((s.put k v).get k vin).2.1 = v := by
  have hf : findKey ((s.put k v).main).entries k = some (k, v) := by
    rw [KLruK.put_main s k v hcond]
    exact KLru.put_findKey_self hc hnd
  unfold KLruK.get
  rw [KLru.containsKey_true hf, if_pos rfl]
  dsimp only
  rw [KLru.get_of_findKey_some hf]
  exact ⟨rfl, rfl⟩

theorem nodesFind_nodesErase_none {l : List LfuNode} {k j : Key}
    (h : nodesFind l k = none) : nodesFind (nodesErase l j) k = none :=
  nodesFind_eq_none
    (fun hm => (not_mem_of_nodesFind_eq_none h) (lfuKeys_nodesErase_sub hm))

theorem KLfu.kickOut_find_none (s : KLfu) (k : Key)
    (h : nodesFind s.nodes k = none) : nodesFind s.kickOut.nodes k = none := by
  unfold KLfu.kickOut KLfu.removeFromFreqList
  by_cases h0 : bucketHas s.freqMap s.minFreq = true
  · rw [if_pos h0]
    dsimp only
    cases hh : (bucketGet s.freqMap s.minFreq).head? with
    | some k1 =>
      dsimp only
      cases hq : nodesFind s.nodes k1 with
      | some n =>
        dsimp only
        exact nodesFind_nodesErase_none h
      | none => exact nodesFind_nodesErase_none h
    | none =>
      dsimp only
      by_cases h1 : bucketHas s.freqMap 1 = true
      · rw [if_pos h1]
        exact nodesFind_nodesErase_none h
      · rw [if_neg h1]
        exact nodesFind_nodesErase_none h
  · rw [if_neg h0]
    dsimp only
    cases hh : (bucketGet (bucketSet s.freqMap s.minFreq []) s.minFreq).head? with
    | some k1 =>
      dsimp only
      cases hq : nodesFind s.nodes k1 with
      | some n =>
        dsimp only
        exact nodesFind_nodesErase_none h
      | none => exact nodesFind_nodesErase_none h
    | none =>
      dsimp only
      by_cases h1 : bucketHas (bucketSet s.freqMap s.minFreq []) 1 = true
      · rw [if_pos h1]
        exact nodesFind_nodesErase_none h
      · rw [if_neg h1]
        exact nodesFind_nodesErase_none h

theorem KLfu.putInternal_find (s : KLfu) (k : Key) (v : Val)
    (h : nodesFind s.nodes k = none) :
    nodesFind (s.putInternal k v).nodes k = some { key := k, value := v, freq := 1 } := by
  unfold KLfu.putInternal KLfu.addToFreqList
  dsimp only
  have hl : nodesFind
      (if 0 ≤ s.capacity ∧ s.nodes.length = s.capacity.toNat then s.kickOut else s).nodes k
      = none := by
    split
    · exact KLfu.kickOut_find_none s k h
    · exact h
  rw [nodesFind_append, hl, nodesFind_cons_self rfl]
  rfl

theorem KLfu.getInternal_find (s : KLfu) (k : Key) {n : LfuNode}
    (hf : nodesFind s.nodes k = some n) :
    nodesFind (s.getInternal k).2.nodes k = some { n with freq := n.freq + 1 } := by
  rw [(KLfu.getInternal_spec s k hf).2.1]
  have hk := nodesFind_key hf
  have hkp : ∀ m : LfuNode, m.key = k →
      ((fun _ : LfuNode => ({ n with freq := n.freq + 1 } : LfuNode)) m).key = k :=
    fun _ _ => hk
  rw [nodesFind_nodesUpdate_self hkp, hf]
  rfl

theorem KLfu.put_find (s : KLfu) (k : Key) (v : Val) (hc : s.capacity ≠ 0) :
    ∃ n', nodesFind (s.put k v).nodes k = some n' ∧ n'.value = v := by
  unfold KLfu.put
  rw [if_neg (by simpa using hc)]
  cases hf : nodesFind s.nodes k with
  | some n =>
    dsimp only
    have hk := nodesFind_key hf
    have hkp : ∀ m : LfuNode, m.key = k →
        ((fun m0 : LfuNode => ({ m0 with value := v } : LfuNode)) m).key = k :=
      fun m hm => hm
    have hf1 : nodesFind
        ({ s with nodes := nodesUpdate s.nodes k (fun m0 => { m0 with value := v }) } : KLfu).nodes k
        = some { n with value := v } := by
      dsimp only
      rw [nodesFind_nodesUpdate_self hkp, hf]
      rfl
    exact ⟨_, KLfu.getInternal_find _ k hf1, rfl⟩
  | none =>
    dsimp only
    exact ⟨_, KLfu.putInternal_find s k v hf, rfl⟩

theorem KLfu.put_get_roundtrip_lfu (s : KLfu) (k : Key) (v : Val) (vin : Val)
    (hc : s.capacity ≠ 0) :
    ((s.put k v).get k vin).1 = true ∧ ((s.put k v).get k vin).2.1 = v := by
  obtain ⟨n', hn', hv⟩ := KLfu.put_find s k v hc
  unfold KLfu.get
  rw [hn']
  dsimp only
  rw [(KLfu.getInternal_spec _ k hn').1]
  exact ⟨rfl, hv⟩

theorem agingStepNode_find_value (M : Int) (b : KLfu) (k1 j : Key) :
    (nodesFind (agingStepNode M b k1).nodes j).map (fun n => n.value)
      = (nodesFind b.nodes j).map (fun n => n.value) := by
  by_cases hj : j = k1
  · subst hj
    rw [agingStepNode_find_self]
    cases nodesFind b.nodes j <;> rfl
  · rw [agingStepNode_find_ne M b hj]

theorem aging_foldl_value (M : Int) :
    ∀ (ks : List Key) (b : KLfu) (j : Key),
    (nodesFind (ks.foldl (agingStepNode M) b).nodes j).map (fun n => n.value)
      = (nodesFind b.nodes j).map (fun n => n.value) := by
  intro ks
  induction ks with
  | nil => exact fun b j => rfl
  | cons a t ih =>
    intro b j
    rw [List.foldl_cons, ih, agingStepNode_find_value]

theorem KLfuAging.handleOver_find_value (s : KLfuAging) (j : Key) :
    (nodesFind s.handleOverMaxAverageNum.base.nodes j).map (fun n => n.value)
      = (nodesFind s.base.nodes j).map (fun n => n.value) := by
  unfold KLfuAging.handleOverMaxAverageNum
  split
  · rfl
  · dsimp only
    rw [(KLfuAging.updateMinFreq_base_parts _).1]
    exact aging_foldl_value s.maxAverageNum _ s.base j

theorem KLfuAging.addFreqNum_find_value (s : KLfuAging) (j : Key) :
    (nodesFind s.addFreqNum.base.nodes j).map (fun n => n.value)
      = (nodesFind s.base.nodes j).map (fun n => n.value) := by
  unfold KLfuAging.addFreqNum
  dsimp only
  by_cases htrig : (if s.base.nodes.isEmpty then 0
      else Int.tdiv (s.curTotalNum + 1) (Int.ofNat s.base.nodes.length)) > s.maxAverageNum
  · rw [if_pos htrig]
    exact (KLfuAging.handleOver_find_value _ j).trans rfl
  · rw [if_neg htrig]

theorem KLfuAging.kickOut_find_none_aging (s : KLfuAging) (k : Key)
    (h : nodesFind s.base.nodes k = none) :
    nodesFind s.kickOut.base.nodes k = none := by
  unfold KLfuAging.kickOut KLfuAging.decreaseFreqNum
  dsimp only
  apply KLfu.kickOut_find_none
  by_cases h0 : bucketHas s.base.freqMap s.base.minFreq = true
  · rw [if_pos h0]
    exact h
  · rw [if_neg h0]
    exact h

theorem KLfuAging.put_find_aging (s : KLfuAging) (k : Key) (v : Val)
    (hc : s.base.capacity ≠ 0) :
    ∃ n', nodesFind (s.put k v).base.nodes k = some n' ∧ n'.value = v := by
  have key : ∃ t : KLfuAging, s.put k v = t.addFreqNum ∧
      ∃ m, nodesFind t.base.nodes k = some m ∧ m.value = v := by
    unfold KLfuAging.put
    rw [if_neg (by simpa using hc)]
    cases hf : nodesFind s.base.nodes k with
    | some n =>
      dsimp only
      refine ⟨_, rfl, ?_⟩
      have hk := nodesFind_key hf
      have hkp : ∀ m : LfuNode, m.key = k →
          ((fun m0 : LfuNode => ({ m0 with value := v } : LfuNode)) m).key = k :=
        fun m hm => hm
      have hf1 : nodesFind (nodesUpdate s.base.nodes k (fun m0 => { m0 with value := v })) k
          = some { n with value := v } := by
        rw [nodesFind_nodesUpdate_self hkp, hf]
        rfl
      exact ⟨_, KLfu.getInternal_find _ k hf1, rfl⟩
    | none =>
      dsimp only
      unfold KLfuAging.putInternalAging
      dsimp only
      refine ⟨_, rfl, ⟨{ key := k, value := v, freq := 1 }, ?_, rfl⟩⟩
      unfold KLfu.addToFreqList
      dsimp only
      have hl : nodesFind
          (if 0 ≤ s.base.capacity ∧ s.base.nodes.length = s.base.capacity.toNat
           then s.kickOut else s).base.nodes k = none := by
        split
        · exact KLfuAging.kickOut_find_none_aging s k hf
        · exact hf
      rw [nodesFind_append, hl, nodesFind_cons_self rfl]
      rfl
  obtain ⟨t, hEq, m, hm, hv⟩ := key
  have hval := KLfuAging.addFreqNum_find_value t k
  rw [hm] at hval
  rw [hEq]
  cases hq : nodesFind t.addFreqNum.base.nodes k with
  | none =>
    rw [hq] at hval
    exact absurd hval.symm (by simp)
  | some n' =>
    rw [hq] at hval
    refine ⟨n', rfl, ?_⟩
    have h2 : n'.value = m.value := by simpa using hval
    rw [h2]
    exact hv

theorem KLfuAging.put_get_roundtrip_aging (s : KLfuAging) (k : Key) (v : Val) (vin : Val)
    (hc : s.base.capacity ≠ 0) :
    ((s.put k v).get k vin).1 = true ∧ ((s.put k v).get k vin).2.1 = v := by
  obtain ⟨n', hn', hv⟩ := KLfuAging.put_find_aging s k v hc
  unfold KLfuAging.get
  rw [hn']
  dsimp only
  unfold KLfuAging.getInternalAging
  dsimp only
  rw [(KLfu.getInternal_spec _ k hn').1]
  exact ⟨rfl, hv⟩

/-! ### ARC part behaviour (C6) -/

theorem ArcLruPart.checkGhost_miss (s : ArcLruPart) (k : Key) (g : Val)
    (h : arcFind s.ghost k = none) : s.checkGhost k g = (false, g, s) := by
  unfold ArcLruPart.checkGhost
  rw [h]

theorem ArcLfuPart.checkGhost_miss_lfuPart (s : ArcLfuPart) (k : Key) (g : Val)
    (h : arcFind s.ghost k = none) : s.checkGhost k g = (false, g, s) := by
  unfold ArcLfuPart.checkGhost
  rw [h]

theorem KArc.checkGhostCaches_miss (s : KArc) (k : Key) (g : Val)
    (h1 : arcFind s.lru.ghost k = none) (h2 : arcFind s.lfu.ghost k = none) :
    s.checkGhostCaches k g = (false, g, s) := by
  unfold KArc.checkGhostCaches
  rw [ArcLruPart.checkGhost_miss s.lru k g h1]
  dsimp only
  rw [if_neg Bool.false_ne_true]
  dsimp only
  rw [ArcLfuPart.checkGhost_miss_lfuPart s.lfu k g h2]
  dsimp only
  rw [if_neg Bool.false_ne_true]
  rfl

theorem mem_of_getLast?Arc {l : List ArcNode} {a : ArcNode}
    (h : l.getLast? = some a) : a ∈ l :=
  List.mem_of_mem_getLast? h

theorem ArcLruPart.evict_preserves (s : ArcLruPart) (k : Key)
    (hm : arcFind s.main k = none) (hg : arcFind s.ghost k = none) :
    arcFind s.evictLeastRecent.main k = none ∧
    arcFind s.evictLeastRecent.ghost k = none := by
  unfold ArcLruPart.evictLeastRecent ArcLruPart.removeOldestGhost
  cases hl : s.main.getLast? with
  | none => exact ⟨hm, hg⟩
  | some n =>
    dsimp only
    have hkmain : k ∉ keysOfArc s.main := not_mem_of_arcFind_eq_none hm
    have hnk : n.key ≠ k := by
      intro hE
      exact hkmain (hE ▸ List.mem_map.mpr ⟨n, mem_of_getLast?Arc hl, rfl⟩)
    have hkg : k ∉ keysOfArc s.ghost := not_mem_of_arcFind_eq_none hg
    have hnk2 : ({ n with accessCount := 1 } : ArcNode).key ≠ k := hnk
    constructor
    · split
      · exact arcFind_eq_none (fun hE => hkmain (keysOfArc_dropLast_sub hE))
      · exact arcFind_eq_none (fun hE => hkmain (keysOfArc_dropLast_sub hE))
    · rw [arcFind_cons_ne hnk2]
      split
      · exact arcFind_eq_none (fun hE => hkg (keysOfArc_dropLast_sub hE))
      · exact hg

theorem ArcLruPart.put_fresh (s : ArcLruPart) (k : Key) (v : Val)
    (hc : s.capacity ≠ 0) (h : arcFind s.main k = none) :
    (s.put k v).1 = true ∧
    arcFind (s.put k v).2.main k = some ⟨k, v, 1⟩ ∧
    (arcFind s.ghost k = none → arcFind (s.put k v).2.ghost k = none) := by
  unfold ArcLruPart.put ArcLruPart.addNewNode
  rw [if_neg (by simpa using hc), h]
  dsimp only
  refine ⟨rfl, arcFind_cons_self rfl, ?_⟩
  intro hg
  split
  · exact (ArcLruPart.evict_preserves s k h hg).2
  · exact hg

theorem ArcLruPart.put_existing (s : ArcLruPart) (k : Key) (v : Val) {n : ArcNode}
    (hc : s.capacity ≠ 0) (h : arcFind s.main k = some n) :
    s.put k v = (decide (n.accessCount + 1 ≥ s.transformThreshold),
      { s with main := { n with accessCount := n.accessCount + 1, value := v } :: arcErase s.main k }) := by
  unfold ArcLruPart.put
  rw [if_neg (by simpa using hc), h]

theorem ArcLruPart.get_hit (s : ArcLruPart) (k : Key) (vin : Val) (tin : Bool)
    {n : ArcNode} (h : arcFind s.main k = some n) :
    s.get k vin tin = (true, n.value,
      decide (n.accessCount + 1 ≥ s.transformThreshold),
      { s with main := { n with accessCount := n.accessCount + 1 } :: arcErase s.main k }) := by
  unfold ArcLruPart.get
  rw [h]

theorem sbucketGet_set_self (m : List (Nat × List Key)) (f : Nat) (ks : List Key) :
    sbucketGet (sbucketSet m f ks) f = ks := by
  induction m with
  | nil => simp [sbucketGet, sbucketSet]
  | cons q t ih =>
    obtain ⟨g, l⟩ := q
    unfold sbucketSet
    by_cases h1 : f < g
    · rw [if_pos h1]
      simp [sbucketGet]
    · rw [if_neg h1]
      by_cases h2 : (f == g) = true
      · rw [if_pos h2]
        simp [sbucketGet]
      · rw [if_neg h2]
        have hfg : ¬f = g := by simpa using h2
        have hgf : (g == f) = false :=
          beq_eq_false_iff_ne.mpr (fun hE => hfg hE.symm)
        unfold sbucketGet
        rw [List.find?_cons_of_neg _ (by simpa using hgf)]
        exact ih

theorem mem_of_sbucketGet_ne {m : List (Nat × List Key)} {f : Nat}
    (h : sbucketGet m f ≠ []) : (f, sbucketGet m f) ∈ m := by
  unfold sbucketGet at h ⊢
  cases hf : m.find? (fun p => p.1 == f) with
  | none => rw [hf] at h; exact absurd rfl h
  | some p =>
    have hm := List.mem_of_find?_eq_some hf
    have hk : p.1 = f := by simpa using List.find?_some hf
    dsimp only
    rw [← hk]
    exact hm

theorem ArcLfuPart.evict_preserves_lfuPart (s : ArcLfuPart) (k : Key)
    (hm : arcFind s.main k = none) (hg : arcFind s.ghost k = none)
    (hb : ∀ p ∈ s.freqMap, k ∉ p.2) :
    arcFind s.evictLeastFrequent.main k = none ∧
    arcFind s.evictLeastFrequent.ghost k = none := by
  have hkm : k ∉ keysOfArc s.main := not_mem_of_arcFind_eq_none hm
  have hkg : k ∉ keysOfArc s.ghost := not_mem_of_arcFind_eq_none hg
  unfold ArcLfuPart.evictLeastFrequent ArcLfuPart.removeOldestGhost
  split
  · exact ⟨hm, hg⟩
  · try dsimp only
    by_cases h0 : sbucketHas s.freqMap s.minFreq = true
    · rw [if_pos h0]
      try dsimp only
      cases hh : (sbucketGet s.freqMap s.minFreq).head? with
      | none => exact ⟨hm, hg⟩
      | some k1 =>
        dsimp only
        have hk1mem : k1 ∈ sbucketGet s.freqMap s.minFreq := mem_of_head? hh
        have hbne : sbucketGet s.freqMap s.minFreq ≠ [] := by
          intro hE
          rw [hE] at hk1mem
          exact absurd hk1mem (by simp)
        have hk1ne : k1 ≠ k := by
          intro hE
          exact hb _ (mem_of_sbucketGet_ne hbne) (hE ▸ hk1mem)
        have hvictim : ∀ l : List ArcNode,
            ((arcFind l k1).getD ⟨k1, 0, 1⟩).key = k1 := by
          intro l
          cases hq : arcFind l k1 with
          | none => rfl
          | some n => exact arcFind_key hq
        have hmainNone : ∀ l : List ArcNode, k ∉ keysOfArc l →
            arcFind (arcErase l k1) k = none := fun l hl =>
          arcFind_eq_none (fun hE => hl (keysOfArc_arcErase_sub hE))
        have hsingle : ∀ l : List ArcNode,
            arcFind [(arcFind l k1).getD ⟨k1, 0, 1⟩] k = none := by
          intro l
          rw [arcFind_cons_ne (show ((arcFind l k1).getD ⟨k1, 0, 1⟩).key ≠ k from by
            rw [hvictim l]; exact hk1ne)]
          rfl
        have htail : arcFind s.ghost.tail k = none :=
          arcFind_eq_none (fun hE => hkg (keysOfArc_tail_sub hE))
        constructor
        · try dsimp only
          repeat' split
          all_goals try dsimp only
          all_goals exact hmainNone _ hkm
        · try dsimp only
          repeat' split
          all_goals try dsimp only
          all_goals rw [arcFind_append, hsingle]
          all_goals first
            | (rw [hg]; rfl)
            | (rw [htail]; rfl)
    · rw [if_neg h0]
      try dsimp only
      rw [sbucketGet_set_self]
      exact ⟨hm, hg⟩

theorem ArcLfuPart.updateNodeFrequency_spec (s : ArcLfuPart) (k : Key) {n : ArcNode}
    (h : arcFind s.main k = some n) :
    (s.updateNodeFrequency k).main
      = arcReplace s.main k (fun m => { m with accessCount := n.accessCount + 1 }) ∧
    (s.updateNodeFrequency k).ghost = s.ghost := by
  unfold ArcLfuPart.updateNodeFrequency
  rw [h]
  dsimp only
  constructor
  · split <;> rfl
  · split <;> rfl

theorem ArcLfuPart.get_hit_lfuPart (s : ArcLfuPart) (k : Key) (vin : Val) {n : ArcNode}
    (h : arcFind s.main k = some n) :
    (s.get k vin).1 = true ∧ (s.get k vin).2.1 = n.value := by
  unfold ArcLfuPart.get
  rw [h]
  dsimp only
  refine ⟨rfl, ?_⟩
  have hkp : ∀ m : ArcNode,
      ((fun m0 : ArcNode => ({ m0 with accessCount := n.accessCount + 1 } : ArcNode)) m).key
        = m.key := fun _ => rfl
  have hrep : arcFind (s.updateNodeFrequency k).main k
      = some { n with accessCount := n.accessCount + 1 } := by
    rw [(ArcLfuPart.updateNodeFrequency_spec s k h).1, arcFind_arcReplace_self hkp, h]
    rfl
  rw [hrep]

theorem ArcLfuPart.put_existing_lfuPart (s : ArcLfuPart) (k : Key) (v : Val) {n : ArcNode}
    (hc : s.capacity ≠ 0) (h : arcFind s.main k = some n) :
    (s.put k v).1 = true ∧
    (∃ n', arcFind (s.put k v).2.main k = some n' ∧ n'.value = v) ∧
    (s.put k v).2.ghost = s.ghost := by
  unfold ArcLfuPart.put
  rw [if_neg (by simpa using hc), h]
  dsimp only
  have hkp : ∀ m : ArcNode,
      ((fun m0 : ArcNode => ({ m0 with value := v } : ArcNode)) m).key = m.key :=
    fun _ => rfl
  have hf1 : arcFind (arcReplace s.main k (fun m0 => { m0 with value := v })) k
      = some { n with value := v } := by
    rw [arcFind_arcReplace_self hkp, h]
    rfl
  have hspec := ArcLfuPart.updateNodeFrequency_spec
    ({ s with main := arcReplace s.main k (fun m0 => { m0 with value := v }) } : ArcLfuPart)
    k hf1
  have hkp2 : ∀ m : ArcNode,
      ((fun m0 : ArcNode =>
        ({ m0 with accessCount := ({ n with value := v } : ArcNode).accessCount + 1 } : ArcNode)) m).key
        = m.key := fun _ => rfl
  refine ⟨rfl, ?_, hspec.2⟩
  rw [hspec.1]
  dsimp only
  rw [arcFind_arcReplace_self hkp2, hf1]
  exact ⟨_, rfl, rfl⟩

theorem ArcLfuPart.put_fresh_lfuPart (s : ArcLfuPart) (k : Key) (v : Val)
    (hc : s.capacity ≠ 0) (h : arcFind s.main k = none)
    (hg : arcFind s.ghost k = none) (hb : ∀ p ∈ s.freqMap, k ∉ p.2) :
    (s.put k v).1 = true ∧
    arcFind (s.put k v).2.main k = some ⟨k, v, 1⟩ ∧
    arcFind (s.put k v).2.ghost k = none := by
  unfold ArcLfuPart.put ArcLfuPart.addNewNode
  rw [if_neg (by simpa using hc), h]
  dsimp only
  have hs1 : arcFind (if s.main.length ≥ s.capacity then s.evictLeastFrequent else s).main k
        = none ∧
      arcFind (if s.main.length ≥ s.capacity then s.evictLeastFrequent else s).ghost k
        = none := by
    split
    · exact ArcLfuPart.evict_preserves_lfuPart s k h hg hb
    · exact ⟨h, hg⟩
  refine ⟨rfl, ?_, hs1.2⟩
  rw [arcFind_append, hs1.1, arcFind_cons_self rfl]
  rfl

theorem KArc.get_hit_lfu (s : KArc) (k : Key) (vin : Val) {n : ArcNode}
    (hg1 : arcFind s.lru.ghost k = none) (hg2 : arcFind s.lfu.ghost k = none)
    (hlru : arcFind s.lru.main k = none) (hlfu : arcFind s.lfu.main k = some n) :
    (s.get k vin).1 = true ∧ (s.get k vin).2.1 = n.value := by
  unfold KArc.get
  rw [KArc.checkGhostCaches_miss s k 0 hg1 hg2]
  dsimp only
  have hIn1 : s.lru.existsInMain k = false := by
    unfold ArcLruPart.existsInMain
    rw [hlru]
    rfl
  have hIn2 : s.lfu.existsInMain k = true := by
    unfold ArcLfuPart.existsInMain
    rw [hlfu]
    rfl
  rw [hIn1, hIn2, Bool.false_or, if_pos rfl, if_pos rfl, if_neg Bool.false_ne_true]
  exact ⟨rfl, (ArcLfuPart.get_hit_lfuPart s.lfu k vin hlfu).2⟩

theorem KArc.get_hit_lru (s : KArc) (k : Key) (vin : Val) {n : ArcNode}
    (hg1 : arcFind s.lru.ghost k = none) (hg2 : arcFind s.lfu.ghost k = none)
    (hlfu : arcFind s.lfu.main k = none) (hlru : arcFind s.lru.main k = some n) :
    (s.get k vin).1 = true ∧ (s.get k vin).2.1 = n.value := by
  unfold KArc.get
  rw [KArc.checkGhostCaches_miss s k 0 hg1 hg2]
  dsimp only
  have hIn1 : s.lru.existsInMain k = true := by
    unfold ArcLruPart.existsInMain
    rw [hlru]
    rfl
  have hIn2 : s.lfu.existsInMain k = false := by
    unfold ArcLfuPart.existsInMain
    rw [hlfu]
    rfl
  rw [hIn1, hIn2, Bool.or_false, if_pos rfl, if_neg Bool.false_ne_true, if_pos rfl]
  dsimp only
  rw [ArcLruPart.get_hit s.lru k vin false hlru]
  dsimp only
  split
  · exact ⟨rfl, rfl⟩
  · exact ⟨rfl, rfl⟩

theorem KArc.put_fresh_spec (s : KArc) (k : Key) (v : Val)
    (hg1 : arcFind s.lru.ghost k = none) (hg2 : arcFind s.lfu.ghost k = none)
    (hc : s.lru.capacity ≠ 0)
    (hm1 : arcFind s.lru.main k = none) (hm2 : arcFind s.lfu.main k = none) :
    arcFind (s.put k v).lru.main k = some ⟨k, v, 1⟩ ∧
    arcFind (s.put k v).lfu.main k = none ∧
    arcFind (s.put k v).lru.ghost k = none ∧
    arcFind (s.put k v).lfu.ghost k = none := by
  unfold KArc.put
  rw [KArc.checkGhostCaches_miss s k 0 hg1 hg2]
  dsimp only
  have hIn1 : s.lru.existsInMain k = false := by
    unfold ArcLruPart.existsInMain
    rw [hm1]
    rfl
  have hIn2 : s.lfu.existsInMain k = false := by
    unfold ArcLfuPart.existsInMain
    rw [hm2]
    rfl
  rw [hIn1, hIn2, Bool.or_false, if_neg Bool.false_ne_true]
  dsimp only
  obtain ⟨_, hp2, hp3⟩ := ArcLruPart.put_fresh s.lru k v hc hm1
  exact ⟨hp2, hm2, hp3 hg1, hg2⟩

theorem KArc.put_lfu_spec (s : KArc) (k : Key) (v : Val)
    (hg1 : arcFind s.lru.ghost k = none) (hg2 : arcFind s.lfu.ghost k = none)
    (hc : s.lfu.capacity ≠ 0) {n : ArcNode}
    (hm2 : arcFind s.lfu.main k = some n) (hm1 : arcFind s.lru.main k = none) :
    (∃ n', arcFind (s.put k v).lfu.main k = some n' ∧ n'.value = v) ∧
    arcFind (s.put k v).lru.main k = none ∧
    arcFind (s.put k v).lru.ghost k = none ∧
    arcFind (s.put k v).lfu.ghost k = none := by
  unfold KArc.put
  rw [KArc.checkGhostCaches_miss s k 0 hg1 hg2]
  dsimp only
  have hIn1 : s.lru.existsInMain k = false := by
    unfold ArcLruPart.existsInMain
    rw [hm1]
    rfl
  have hIn2 : s.lfu.existsInMain k = true := by
    unfold ArcLfuPart.existsInMain
    rw [hm2]
    rfl
  rw [hIn1, hIn2, Bool.false_or, if_pos rfl, if_pos rfl, if_neg Bool.false_ne_true]
  dsimp only
  obtain ⟨_, hex, hgh⟩ := ArcLfuPart.put_existing_lfuPart s.lfu k v hc hm2
  refine ⟨hex, hm1, hg1, ?_⟩
  rw [hgh]
  exact hg2

theorem KArc.put_lru_spec (s : KArc) (k : Key) (v : Val)
    (hg1 : arcFind s.lru.ghost k = none) (hg2 : arcFind s.lfu.ghost k = none)
    (hcl : s.lru.capacity ≠ 0) (hcf : s.lfu.capacity ≠ 0) {n : ArcNode}
    (hm1 : arcFind s.lru.main k = some n) (hm2 : arcFind s.lfu.main k = none)
    (hnd : (keysOfArc s.lru.main).Nodup) (hb : ∀ p ∈ s.lfu.freqMap, k ∉ p.2) :
    (arcFind (s.put k v).lru.ghost k = none ∧
     arcFind (s.put k v).lfu.ghost k = none) ∧
    ((∃ n', arcFind (s.put k v).lfu.main k = some n' ∧ n'.value = v) ∧
        arcFind (s.put k v).lru.main k = none ∨
     (∃ n', arcFind (s.put k v).lru.main k = some n' ∧ n'.value = v) ∧
        arcFind (s.put k v).lfu.main k = none) := by
  unfold KArc.put
  rw [KArc.checkGhostCaches_miss s k 0 hg1 hg2]
  dsimp only
  have hIn1 : s.lru.existsInMain k = true := by
    unfold ArcLruPart.existsInMain
    rw [hm1]
    rfl
  have hIn2 : s.lfu.existsInMain k = false := by
    unfold ArcLfuPart.existsInMain
    rw [hm2]
    rfl
  have hkeyn : n.key = k := arcFind_key hm1
  have hn2key : ({ n with accessCount := n.accessCount + 1, value := v } : ArcNode).key = k :=
    hkeyn
  rw [hIn1, hIn2, Bool.or_false, if_pos rfl, if_neg Bool.false_ne_true, if_pos rfl]
  try dsimp only
  rw [ArcLruPart.put_existing s.lru k v hcl hm1]
  dsimp only
  split
  · dsimp only
    obtain ⟨_, hlfuMain, hlfuGhost⟩ := ArcLfuPart.put_fresh_lfuPart s.lfu k v hcf hm2 hg2 hb
    unfold ArcLruPart.remove
    dsimp only
    refine ⟨⟨hg1, hlfuGhost⟩, Or.inl ⟨⟨_, hlfuMain, rfl⟩, ?_⟩⟩
    rw [arcErase_cons_self hn2key]
    exact arcFind_arcErase_self hnd
  · dsimp only
    exact ⟨⟨hg1, hg2⟩, Or.inr ⟨⟨_, arcFind_cons_self hn2key, rfl⟩, hm2⟩⟩

/-- C6 counterexample: two policies violate put-then-get even with a
positive configured capacity.  KArcCache(1) gives each part 1/2 = 0
capacity, so put(5,7) is a complete no-op and the following get misses
with the default value.  KLruKCache(2,3,3) with a fresh key only records
one history access on put, and the get after it still reports a miss
(the key needs k=3 observations before promotion). -/
theorem put_get_idempotence_cex :
    (((mkKArc 1 2).put 5 7).get 5 0).1 = false ∧
    (((mkKArc 1 2).put 5 7).get 5 0).2.1 = 0 ∧
    (((mkKLruK 2 3 3).put 5 7).get 5 0).1 = false ∧
    (((mkKLruK 2 3 3).put 5 7).get 5 0).2.1 = 0 := by
  decide

/-- C6 amended: put(k,v) immediately followed by get(k) returns v for
the LRU, LFU and LFU-aging engines whenever the engine actually
addressed has non-zero capacity (for the sharded caches: the shard the
key hashes to), with duplicate-free key lists where the engine relies on
them.  For LRU-K the round trip additionally requires the key to be
already resident or its history count to reach the threshold k on this
put — otherwise put only records history and get misses.  For ARC it
requires the key to be absent from both ghost lists and one of: both
mains miss and the LRU part has capacity; the key is in the LFU main and
that part has capacity; or the key is in the LRU main and both parts
have capacity (the put may migrate the entry into the LFU part when the
transform threshold fires).  A capacity-0 part silently drops the
operation, which is how KArcCache(1) breaks the unconditional claim. -/
theorem put_get_idempotence_amended :
    (∀ (s : KLru) (k : Key) (v vin : Val), 0 < s.capacity →
      (keysOf s.entries).Nodup →
      ((s.put k v).get k vin).1 = true ∧ ((s.put k v).get k vin).2.1 = v) ∧
    (∀ (s : KLruK) (k : Key) (v vin : Val), 0 < s.main.capacity →
      (keysOf s.main.entries).Nodup →
      (s.main.containsKey k = true ∨
        ((s.history.getVal k).1 : Int) + 1 ≥ s.kThreshold) →
      ((s.put k v).get k vin).1 = true ∧ ((s.put k v).get k vin).2.1 = v) ∧
    (∀ (hashFn : Key → Nat) (s : HashLru) (k : Key) (v vin : Val) (sh : KLru),
      s.shards[hashFn k % s.sliceNum]? = some sh → 0 < sh.capacity →
      (keysOf sh.entries).Nodup →
      (HashLru.get hashFn (HashLru.put hashFn s k v) k vin).1 = true ∧
      (HashLru.get hashFn (HashLru.put hashFn s k v) k vin).2.1 = v) ∧
    (∀ (s : KLfu) (k : Key) (v vin : Val), s.capacity ≠ 0 →
      ((s.put k v).get k vin).1 = true ∧ ((s.put k v).get k vin).2.1 = v) ∧
    (∀ (s : KLfuAging) (k : Key) (v vin : Val), s.base.capacity ≠ 0 →
      ((s.put k v).get k vin).1 = true ∧ ((s.put k v).get k vin).2.1 = v) ∧
    (∀ (hashFn : Key → Nat) (s : HashLfu) (k : Key) (v vin : Val) (sh : KLfuAging),
      s.shards[hashFn k % s.sliceNum]? = some sh → sh.base.capacity ≠ 0 →
      (HashLfu.get hashFn (HashLfu.put hashFn s k v) k vin).1 = true ∧
      (HashLfu.get hashFn (HashLfu.put hashFn s k v) k vin).2.1 = v) ∧
    (∀ (s : KArc) (k : Key) (v vin : Val),
      arcFind s.lru.ghost k = none → arcFind s.lfu.ghost k = none →
      ((arcFind s.lru.main k = none ∧ arcFind s.lfu.main k = none ∧
          s.lru.capacity ≠ 0) ∨
       (arcFind s.lru.main k = none ∧ (arcFind s.lfu.main k).isSome = true ∧
          s.lfu.capacity ≠ 0) ∨
       ((arcFind s.lru.main k).isSome = true ∧ arcFind s.lfu.main k = none ∧
          s.lru.capacity ≠ 0 ∧ s.lfu.capacity ≠ 0 ∧
          (keysOfArc s.lru.main).Nodup ∧ ∀ p ∈ s.lfu.freqMap, k ∉ p.2)) →
      ((s.put k v).get k vin).1 = true ∧ ((s.put k v).get k vin).2.1 = v) := by
  refine ⟨KLru.put_get_roundtrip, KLruK.put_get_roundtrip_lruk, ?_,
    KLfu.put_get_roundtrip_lfu, KLfuAging.put_get_roundtrip_aging, ?_, ?_⟩
  · intro hashFn s k v vin sh hsh hcap hnd
    have hix : hashFn k % s.sliceNum < s.shards.length := by
      by_contra hlt
      rw [List.getElem?_eq_none_iff.mpr (Nat.le_of_not_lt hlt)] at hsh
      exact absurd hsh (by simp)
    have hput : HashLru.put hashFn s k v
        = { s with shards := s.shards.set (hashFn k % s.sliceNum) (sh.put k v) } := by
      unfold HashLru.put
      dsimp only
      rw [hsh]
    rw [hput]
    unfold HashLru.get
    dsimp only
    rw [List.getElem?_set_self hix]
    exact ⟨(KLru.put_get_roundtrip sh k v vin hcap hnd).1,
      (KLru.put_get_roundtrip sh k v vin hcap hnd).2⟩
  · intro hashFn s k v vin sh hsh hcap
    have hix : hashFn k % s.sliceNum < s.shards.length := by
      by_contra hlt
      rw [List.getElem?_eq_none_iff.mpr (Nat.le_of_not_lt hlt)] at hsh
      exact absurd hsh (by simp)
    have hput : HashLfu.put hashFn s k v
        = { s with shards := s.shards.set (hashFn k % s.sliceNum) (sh.put k v) } := by
      unfold HashLfu.put
      dsimp only
      rw [hsh]
    rw [hput]
    unfold HashLfu.get
    dsimp only
    rw [List.getElem?_set_self hix]
    exact ⟨(KLfuAging.put_get_roundtrip_aging sh k v vin hcap).1,
      (KLfuAging.put_get_roundtrip_aging sh k v vin hcap).2⟩
  · intro s k v vin hg1 hg2 hcase
    rcases hcase with ⟨hm1, hm2, hc⟩ | ⟨hm1, hsome, hc⟩ | ⟨hsome, hm2, hcl, hcf, hnd, hb⟩
    · obtain ⟨ha, hb2, hcg, hdg⟩ := KArc.put_fresh_spec s k v hg1 hg2 hc hm1 hm2
      have hget := KArc.get_hit_lru (s.put k v) k vin hcg hdg hb2 ha
      exact ⟨hget.1, hget.2⟩
    · obtain ⟨n, hm2s⟩ := Option.isSome_iff_exists.mp hsome
      obtain ⟨⟨n1, hn1, hv⟩, ha, hcg, hdg⟩ :=
        KArc.put_lfu_spec s k v hg1 hg2 hc hm2s hm1
      have hget := @KArc.get_hit_lfu (s.put k v) k vin n1 hcg hdg ha hn1
      exact ⟨hget.1, hget.2.trans hv⟩
    · obtain ⟨n, hm1s⟩ := Option.isSome_iff_exists.mp hsome
      obtain ⟨⟨hcg, hdg⟩, hdisj⟩ :=
        KArc.put_lru_spec s k v hg1 hg2 hcl hcf hm1s hm2 hnd hb
      rcases hdisj with ⟨⟨n1, hn1, hv⟩, hnone⟩ | ⟨⟨n1, hn1, hv⟩, hnone⟩
      · have hget := @KArc.get_hit_lfu (s.put k v) k vin n1 hcg hdg hnone hn1
        exact ⟨hget.1, hget.2.trans hv⟩
      · have hget := @KArc.get_hit_lru (s.put k v) k vin n1 hcg hdg hnone hn1
        exact ⟨hget.1, hget.2.trans hv⟩

/-- C6 amended witness: the round trip at concrete states — a fresh LRU
cache of capacity 2, a fresh LFU cache of capacity 2, and a fresh
KArcCache(4) (each part gets capacity 2). -/
theorem put_get_idempotence_amended_witness :
    ((((mkKLru 2).put 1 5).get 1 0).1 = true ∧
      (((mkKLru 2).put 1 5).get 1 0).2.1 = 5) ∧
    ((((mkKLfu 2).put 1 6).get 1 0).1 = true ∧
      (((mkKLfu 2).put 1 6).get 1 0).2.1 = 6) ∧
    ((((mkKArc 4 2).put 9 3).get 9 0).1 = true ∧
      (((mkKArc 4 2).put 9 3).get 9 0).2.1 = 3) := by
  refine ⟨?_, ?_, ?_⟩
  · exact put_get_idempotence_amended.1 (mkKLru 2) 1 5 0 (by decide) (by decide)
  · exact put_get_idempotence_amended.2.2.2.1 (mkKLfu 2) 1 6 0 (by decide)
  · exact put_get_idempotence_amended.2.2.2.2.2.2 (mkKArc 4 2) 9 3 0
      (by decide) (by decide) (Or.inl ⟨by decide, by decide, by decide⟩)

/-! ### ARC ghost re-admission (C1) -/

theorem ArcLruPart.checkGhost_hit (s : ArcLruPart) (k : Key) (gin : Val)
    {g : ArcNode} (h : arcFind s.ghost k = some g) :
    s.checkGhost k gin = (true, g.value, { s with ghost := arcErase s.ghost k }) := by
  unfold ArcLruPart.checkGhost
  rw [h]

theorem ArcLfuPart.checkGhost_hit_lfuPart (s : ArcLfuPart) (k : Key) (gin : Val)
    {g : ArcNode} (h : arcFind s.ghost k = some g) :
    s.checkGhost k gin = (true, g.value, { s with ghost := arcErase s.ghost k }) := by
  unfold ArcLfuPart.checkGhost
  rw [h]

theorem ArcLfuPart.decrease_main_ghost_lfuPart (s : ArcLfuPart) (k : Key)
    (hm : arcFind s.main k = none) (hg : arcFind s.ghost k = none)
    (hb : ∀ p ∈ s.freqMap, k ∉ p.2) :
    arcFind s.decreaseCapacity.2.main k = none ∧
    arcFind s.decreaseCapacity.2.ghost k = none := by
  unfold ArcLfuPart.decreaseCapacity
  split
  · exact ⟨hm, hg⟩
  · dsimp only
    split
    · exact ArcLfuPart.evict_preserves_lfuPart s k hm hg hb
    · exact ⟨hm, hg⟩

theorem ArcLruPart.decrease_main_ghost (s : ArcLruPart) (k : Key)
    (hm : arcFind s.main k = none) (hg : arcFind s.ghost k = none) :
    arcFind s.decreaseCapacity.2.main k = none ∧
    arcFind s.decreaseCapacity.2.ghost k = none := by
  unfold ArcLruPart.decreaseCapacity
  split
  · exact ⟨hm, hg⟩
  · dsimp only
    split
    · exact ArcLruPart.evict_preserves s k hm hg
    · exact ⟨hm, hg⟩

theorem KArc.checkGhostCaches_lru_hit (s : KArc) (k : Key) (gin : Val)
    {g : ArcNode}
    (hg1 : arcFind s.lru.ghost k = some g) (hg2 : arcFind s.lfu.ghost k = none)
    (hm1 : arcFind s.lru.main k = none) (hm2 : arcFind s.lfu.main k = none)
    (hb : ∀ p ∈ s.lfu.freqMap, k ∉ p.2) :
    (s.checkGhostCaches k gin).1 = true ∧
    (s.checkGhostCaches k gin).2.1 = g.value ∧
    arcFind (s.checkGhostCaches k gin).2.2.lru.main k = none ∧
    arcFind (s.checkGhostCaches k gin).2.2.lfu.main k = none := by
  unfold KArc.checkGhostCaches
  rw [ArcLruPart.checkGhost_hit s.lru k gin hg1]
  dsimp only
  rw [if_pos rfl]
  dsimp only
  have hd := ArcLfuPart.decrease_main_ghost_lfuPart s.lfu k hm2 hg2 hb
  rw [ArcLfuPart.checkGhost_miss_lfuPart _ k _ hd.2]
  dsimp only
  rw [if_neg Bool.false_ne_true]
  refine ⟨rfl, rfl, ?_, hd.1⟩
  split
  · exact hm1
  · exact hm1

theorem KArc.checkGhostCaches_lfu_hit (s : KArc) (k : Key) (gin : Val)
    {g : ArcNode}
    (hg1 : arcFind s.lru.ghost k = none) (hg2 : arcFind s.lfu.ghost k = some g)
    (hm1 : arcFind s.lru.main k = none) :
    (s.checkGhostCaches k gin).1 = true ∧
    (s.checkGhostCaches k gin).2.1 = g.value ∧
    arcFind (s.checkGhostCaches k gin).2.2.lru.main k = none ∧
    arcFind (s.checkGhostCaches k gin).2.2.lfu.main k
      = arcFind s.lfu.main k := by
  unfold KArc.checkGhostCaches
  rw [ArcLruPart.checkGhost_miss s.lru k gin hg1]
  dsimp only
  rw [if_neg Bool.false_ne_true]
  dsimp only
  rw [ArcLfuPart.checkGhost_hit_lfuPart s.lfu k gin hg2]
  dsimp only
  rw [if_pos rfl]
  dsimp only
  have hd := ArcLruPart.decrease_main_ghost s.lru k hm1 hg1
  refine ⟨rfl, rfl, hd.1, ?_⟩
  split
  · rfl
  · rfl

/-- C1 counterexample: a reachable KArcCache(2) state (each part holds
capacity 1) in which key 1 sits only in the LFU ghost list.  The get
does report a miss, but the re-admission silently fails: the ghost hit
rebalances capacity away from the LRU part (its capacity drops to 0),
ArcLruPart::put refuses at capacity 0, and key 1 ends up in no structure
at all — it is not re-admitted to the LRU main part. -/
theorem arc_ghost_readmission_cex :
    arcFind (((((mkKArc 2 2).put 1 10).put 1 11).put 2 20).put 2 21).lru.main 1 = none ∧
    arcFind (((((mkKArc 2 2).put 1 10).put 1 11).put 2 20).put 2 21).lfu.main 1 = none ∧
    arcFind (((((mkKArc 2 2).put 1 10).put 1 11).put 2 20).put 2 21).lfu.ghost 1
      = some { key := 1, value := 11, accessCount := 1 } ∧
    ((((((mkKArc 2 2).put 1 10).put 1 11).put 2 20).put 2 21).get 1 0).1 = false ∧
    arcFind ((((((mkKArc 2 2).put 1 10).put 1 11).put 2 20).put 2 21).get 1 0).2.2.lru.main 1 = none ∧
    arcFind ((((((mkKArc 2 2).put 1 10).put 1 11).put 2 20).put 2 21).get 1 0).2.2.lfu.main 1 = none ∧
    arcFind ((((((mkKArc 2 2).put 1 10).put 1 11).put 2 20).put 2 21).get 1 0).2.2.lru.ghost 1 = none ∧
    arcFind ((((((mkKArc 2 2).put 1 10).put 1 11).put 2 20).put 2 21).get 1 0).2.2.lfu.ghost 1 = none ∧
    ((((((mkKArc 2 2).put 1 10).put 1 11).put 2 20).put 2 21).checkGhostCaches 1 0).2.2.lru.capacity = 0 := by
  decide

/-- C1 amended: when the key is absent from both main parts and present
in exactly one ghost list, get reports a miss with the out-parameter
untouched, and the key is re-admitted to the LRU main part with the
ghost entry value ONLY IF the LRU part still has non-zero capacity after
the ghost-hit rebalancing (the rebalance can shrink it to 0, in which
case ArcLruPart::put refuses and the key is silently dropped).  A hit is
returned only when the key is in one of the two main parts after the
ghost check. -/
theorem arc_ghost_readmission_amended :
    (∀ (s : KArc) (k : Key) (vin : Val) (gnode : ArcNode),
      arcFind s.lru.main k = none → arcFind s.lfu.main k = none →
      (∀ p ∈ s.lfu.freqMap, k ∉ p.2) →
      ((arcFind s.lru.ghost k = some gnode ∧ arcFind s.lfu.ghost k = none) ∨
       (arcFind s.lru.ghost k = none ∧ arcFind s.lfu.ghost k = some gnode)) →
      (s.get k vin).1 = false ∧
      (s.get k vin).2.1 = vin ∧
      ((s.checkGhostCaches k 0).2.2.lru.capacity ≠ 0 →
        arcFind ((s.get k vin).2.2).lru.main k
          = some { key := k, value := gnode.value, accessCount := 1 })) ∧
    (∀ (s : KArc) (k : Key) (vin : Val),
      (s.checkGhostCaches k 0).2.2.lru.existsInMain k = false →
      (s.checkGhostCaches k 0).2.2.lfu.existsInMain k = false →
      (s.get k vin).1 = false) := by
  constructor
  · intro s k vin gnode hm1 hm2 hb hcase
    have spec : (s.checkGhostCaches k 0).1 = true ∧
        (s.checkGhostCaches k 0).2.1 = gnode.value ∧
        arcFind (s.checkGhostCaches k 0).2.2.lru.main k = none ∧
        arcFind (s.checkGhostCaches k 0).2.2.lfu.main k = none := by
      rcases hcase with ⟨h1, h2⟩ | ⟨h1, h2⟩
      · exact KArc.checkGhostCaches_lru_hit s k 0 h1 h2 hm1 hm2 hb
      · obtain ⟨a, b, c, d⟩ := KArc.checkGhostCaches_lfu_hit s k 0 h1 h2 hm1
        exact ⟨a, b, c, d.trans hm2⟩
    unfold KArc.get
    dsimp only
    have hIn1 : (s.checkGhostCaches k 0).2.2.lru.existsInMain k = false := by
      unfold ArcLruPart.existsInMain
      rw [spec.2.2.1]
      rfl
    have hIn2 : (s.checkGhostCaches k 0).2.2.lfu.existsInMain k = false := by
      unfold ArcLfuPart.existsInMain
      rw [spec.2.2.2]
      rfl
    rw [hIn1, hIn2, Bool.or_false, if_neg Bool.false_ne_true, spec.1, if_pos rfl]
    refine ⟨rfl, rfl, ?_⟩
    intro hcap
    obtain ⟨_, hmain, _⟩ := ArcLruPart.put_fresh ((s.checkGhostCaches k 0).2.2.lru)
      k ((s.checkGhostCaches k 0).2.1) hcap spec.2.2.1
    rw [← spec.2.1]
    exact hmain
  · intro s k vin h1 h2
    unfold KArc.get
    dsimp only
    rw [h1, h2, Bool.or_false, if_neg Bool.false_ne_true]
    try dsimp only
    split
    · rfl
    · rfl

/-- C1 amended witness: in a state whose LRU ghost holds key 7 with
value 42 and whose parts have capacity 2, the get misses, keeps the
out-parameter, and re-admits node (7, 42) into the LRU main part. -/
theorem arc_ghost_readmission_amended_witness :
    (({ capacity := 4, transformThreshold := 2, lru := { capacity := 2, ghostCapacity := 2, transformThreshold := 2, main := [], ghost := [⟨7, 42, 1⟩] }, lfu := mkArcLfuPart 2 2 } : KArc).get 7 0).1 = false ∧
    (({ capacity := 4, transformThreshold := 2, lru := { capacity := 2, ghostCapacity := 2, transformThreshold := 2, main := [], ghost := [⟨7, 42, 1⟩] }, lfu := mkArcLfuPart 2 2 } : KArc).get 7 0).2.1 = 0 ∧
    arcFind ((({ capacity := 4, transformThreshold := 2, lru := { capacity := 2, ghostCapacity := 2, transformThreshold := 2, main := [], ghost := [⟨7, 42, 1⟩] }, lfu := mkArcLfuPart 2 2 } : KArc).get 7 0).2.2).lru.main 7
      = some { key := 7, value := 42, accessCount := 1 } := by
  have h := arc_ghost_readmission_amended.1
    ({ capacity := 4, transformThreshold := 2, lru := { capacity := 2, ghostCapacity := 2, transformThreshold := 2, main := [], ghost := [⟨7, 42, 1⟩] }, lfu := mkArcLfuPart 2 2 } : KArc)
    7 0 ⟨7, 42, 1⟩ (by decide) (by decide) (by decide)
    (Or.inl ⟨by decide, by decide⟩)
  exact ⟨h.1, h.2.1, h.2.2 (by decide)⟩

end MyCache

